import Mathlib

/-!
Schema layer of the INF-2700 teaching database (`src/src/schema.c`).

A shallow embedding of the schema / record / table module and of the
query operators built on it.

Conventions of the embedding
* a C `int` is an `Int` and sums are exact; where a sum can leave the
  range of `int` (the capacity test of `add_field`), `add_field_int` has
  the wrap-around of the machine;
* a nullable pointer is an `Option`; a heap object reached through a
  pointer is passed in and handed back as a value;
* the singly linked list `first → … → last` of field descriptors is a
  `List`, `first` being its head and `last` its final element; a field
  descriptor handed to `add_field` is a fresh node (`next = 0`), which is
  what `new_int_field`, `new_str_field` and `dup_field` produce (a node
  that is already linked into a list is not represented);
* a result `none` of a function that returns `Option` in the model but
  not in C stands for a null-pointer dereference or a fatal exit.
-/

namespace Schema2700

/-! ## Constants of the storage format -/

/-- Constants that `schema.c` takes from the headers `pager.h` and
`schema.h`; their values are not part of the module, so they are
parameters of the model. -/
structure consts where
  BLOCK_SIZE : Int
  PAGE_HEADER_SIZE : Int
  INT_SIZE : Int
  deriving Repr

/-! ## Field descriptors and schemas -/

/-- Field types (`field_type` of `schema.h`). -/
inductive field_type where
  | INT_TYPE
  | STR_TYPE
  deriving DecidableEq, Repr

/-- Field descriptor (`field_desc_struct`); the `next` link is the
position in the list of the owning schema. -/
structure field_desc where
  name : String
  type : field_type
  len : Int
  offset : Int
  deriving DecidableEq, Repr

/-- Table/record schema (`schema_struct`): `fields` is the linked list
from `first` to `last`; `tbl`, the back pointer to the table descriptor, is
the catalog entry that holds the schema. -/
structure schema_struct where
  name : String
  fields : List field_desc
  num_fields : Int
  len : Int
  deriving DecidableEq, Repr

/-- A `schema_p`: a schema or the null pointer. -/
abbrev schema_p := Option schema_struct

/-- Function `new_int_field`. -/
def new_int_field (k : consts) (name : String) : field_desc :=
  { name := name, type := field_type.INT_TYPE, len := k.INT_SIZE, offset := 0 }

/-- Function `new_str_field`. -/
def new_str_field (name : String) (len : Int) : field_desc :=
  { name := name, type := field_type.STR_TYPE, len := len, offset := 0 }

/-- Function `is_int_field`: `f ? (f->type == INT_TYPE) : 0`. -/
def is_int_field (f : Option field_desc) : Bool :=
  match f with
  | none => false
  | some f => decide (f.type = field_type.INT_TYPE)

/-- Function `make_schema`: an empty schema. -/
def make_schema (name : String) : schema_struct :=
  { name := name, fields := [], num_fields := 0, len := 0 }

/-- Function `dup_field`: a fresh copy of a descriptor with offset 0. -/
def dup_field (f : field_desc) : field_desc :=
  { name := f.name, type := f.type, len := f.len, offset := 0 }

/-- Function `add_field` with exact sums: the function wherever `s->len + f->len`
and `s->num_fields + 1` stay in the range of `int` (`add_field_int` has the
sums of the machine).  The descriptor `f` is a fresh node, not yet linked
into a list.  The result is the returned `int` and the schema after
the call; `none` is the dereference of a null `s->last` (a schema whose
`num_fields` is not zero although its list is empty). -/
def add_field (k : consts) (s : schema_p) (f : field_desc) : Option (Int × schema_p) :=
  match s with
  | none => some (0, none)
  | some s =>
    if s.len + f.len > k.BLOCK_SIZE - k.PAGE_HEADER_SIZE then
      some (0, some s)
    else if s.num_fields = 0 then
      some (s.num_fields + 1,
        some { s with fields := [{ f with offset := 0 }],
                      num_fields := s.num_fields + 1,
                      len := s.len + f.len })
    else
      match s.fields with
      | [] => none
      | _ :: _ =>
        some (s.num_fields + 1,
          some { s with fields := s.fields ++ [{ f with offset := s.len }],
                        num_fields := s.num_fields + 1,
                        len := s.len + f.len })

/-- A run of `add_field` calls on one schema, the returned counts being
ignored (as `copy_schema`, `make_sub_schema` and `read_tbl_descs` do). -/
def add_fields (k : consts) : schema_p → List field_desc → Option schema_p
  | s, [] => some s
  | s, f :: fs =>
    match add_field k s f with
    | none => none
    | some (_, s') => add_fields k s' fs

/-- Sum of the lengths of a list of fields. -/
def sum_len (fs : List field_desc) : Int :=
  (fs.map (fun f => f.len)).sum

/-- The counter `num_fields` is what the declaration of `schema_struct`
says it is: the number of fields in the list. -/
def counted (s : schema_struct) : Prop :=
  s.num_fields = (s.fields.length : Int)

instance (s : schema_struct) : Decidable (counted s) := by
  unfold counted; infer_instance

/-- Packed layout: the field at position `i` starts where the fields
before it end. -/
def packed (s : schema_struct) : Prop :=
  ∀ (i : Nat) (h : i < s.fields.length),
    (s.fields.get ⟨i, h⟩).offset = sum_len (s.fields.take i)

instance (s : schema_struct) : Decidable (packed s) := by
  unfold packed; infer_instance

/-- The three layout facts together. -/
def layout_ok (s : schema_struct) : Prop :=
  counted s ∧ s.len = sum_len s.fields ∧ packed s

instance (s : schema_struct) : Decidable (layout_ok s) := by
  unfold layout_ok; infer_instance

/-- Constants used in the worked examples: 512-byte blocks with a 20-byte
page header and 4-byte integers. -/
def k0 : consts := { BLOCK_SIZE := 512, PAGE_HEADER_SIZE := 20, INT_SIZE := 4 }

/-- Example schema `Person` holding the single field `id`. -/
def person_id : schema_struct :=
  { name := "Person", fields := [new_int_field k0 "id"], num_fields := 1, len := 4 }

/-! ## C strings and records -/

/-- Bytes of a string literal of the program (its characters are ASCII,
one byte each); the terminating NUL is not part of the list. -/
def cstr (s : String) : List Nat :=
  s.data.map Char.toNat

/-- The C library's `strcmp` on two byte sequences, each read up to its
first NUL (the end of the list counts as the terminator): zero when the
strings are equal, otherwise the difference of the first pair of bytes
that differ, which is what the common C libraries return.  The C standard
fixes only the sign of a non-zero result. -/
def strcmp : List Nat → List Nat → Int
  | a :: as, b :: bs =>
    if a ≠ b then (a : Int) - (b : Int) else if a = 0 then 0 else strcmp as bs
  | a :: _, [] => (a : Int)
  | [], b :: _ => - (b : Int)
  | [], [] => 0

/-- The string held by a buffer: its bytes before the first NUL. -/
def c_string (bs : List Nat) : List Nat :=
  bs.takeWhile (fun b => b ≠ 0)

/-- One per-field buffer of a record (`r[i]`): the buffer of an integer
field holds an `int`, the buffer of a string field holds `len` bytes. -/
inductive field_buf where
  | int_buf (v : Int)
  | str_buf (bytes : List Nat)
  deriving DecidableEq, Repr

/-- A `record`: the array of per-field buffers, in schema order. -/
abbrev record := List field_buf

/-- One variadic argument of `fill_record`. -/
inductive field_val where
  | int_val (v : Int)
  | str_val (s : List Nat)
  deriving DecidableEq, Repr

/-- Function `assign_int_field`: `*(int *)field_p = int_val`; `none` when the
buffer is not that of an integer field. -/
def assign_int_field (field_p : field_buf) (int_val : Int) : Option field_buf :=
  match field_p with
  | field_buf.int_buf _ => some (field_buf.int_buf int_val)
  | field_buf.str_buf _ => none

/-- Function `assign_str_field`: `strcpy(field_p, str_val)` copies the string and
its terminating NUL over the start of the buffer and leaves the rest of
the buffer as it was; `none` when the copy would run past the buffer or
the buffer is that of an integer field. -/
def assign_str_field (field_p : field_buf) (str_val : List Nat) : Option field_buf :=
  match field_p with
  | field_buf.int_buf _ => none
  | field_buf.str_buf buf =>
    let src := c_string str_val ++ [0]
    if src.length ≤ buf.length then
      some (field_buf.str_buf (src ++ buf.drop src.length))
    else none

/-- The loop of `fill_record` over the field list, the buffers and the
variadic arguments. -/
def fill_fields : List field_desc → record → List field_val → Option record
  | [], r, _ => some r
  | fd :: fds, b :: r, v :: vals =>
    let b' :=
      if is_int_field (some fd) then
        match v with
        | field_val.int_val x => assign_int_field b x
        | field_val.str_val _ => none
      else
        match v with
        | field_val.str_val x => assign_str_field b x
        | field_val.int_val _ => none
    match b', fill_fields fds r vals with
    | some b', some r' => some (b' :: r')
    | _, _ => none
  | _ :: _, _, _ => none

/-- Function `fill_record`: returns 0 on a null record or schema, otherwise
assigns one value per field and returns 1. -/
def fill_record (r : Option record) (s : schema_p) (vals : List field_val) :
    Option (Int × Option record) :=
  match r, s with
  | some r, some s =>
    match fill_fields s.fields r vals with
    | some r' => some (1, some r')
    | none => none
  | _, _ => some (0, r)

/-- The loop of `equal_record`: `none` when a buffer is missing or is
not of the kind the field type says. -/
def equal_fields : List field_desc → record → record → Option Int
  | [], _, _ => some 1
  | fd :: fds, b1 :: r1, b2 :: r2 =>
    if is_int_field (some fd) then
      match b1, b2 with
      | field_buf.int_buf x, field_buf.int_buf y =>
        if x ≠ y then some 0 else equal_fields fds r1 r2
      | _, _ => none
    else
      match b1, b2 with
      | field_buf.str_buf x, field_buf.str_buf y =>
        if strcmp x y ≠ 0 then some 0 else equal_fields fds r1 r2
      | _, _ => none
  | _ :: _, _, _ => none

/-- Function `equal_record`. -/
def equal_record (r1 r2 : Option record) (s : schema_p) : Option Int :=
  match r1, r2, s with
  | some r1, some r2, some s => equal_fields s.fields r1 r2
  | _, _, _ => some 0

/-- A buffer fits its field and is filled: an `int` for an integer field,
for a string field `len` bytes that hold a NUL-terminated string. -/
def buf_filled (fd : field_desc) (b : field_buf) : Bool :=
  match b with
  | field_buf.int_buf _ => is_int_field (some fd)
  | field_buf.str_buf bs =>
    !(is_int_field (some fd)) && decide ((bs.length : Int) = fd.len) && bs.contains 0

/-- A record shaped by a field list and filled: one filled buffer per
field. -/
def filled : List field_desc → record → Bool
  | [], [] => true
  | fd :: fds, b :: r => buf_filled fd b && filled fds r
  | _, _ => false

/-- Two buffers of a field hold the same value as the program reads it:
the same integer, or the same NUL-terminated string. -/
def same_value (b1 b2 : field_buf) : Prop :=
  match b1, b2 with
  | field_buf.int_buf x, field_buf.int_buf y => x = y
  | field_buf.str_buf x, field_buf.str_buf y => c_string x = c_string y
  | _, _ => False

instance (b1 b2 : field_buf) : Decidable (same_value b1 b2) := by
  cases b1 <;> cases b2 <;> simp only [same_value] <;> infer_instance

/-- Field by field, two records hold the same values. -/
def same_values : List field_desc → record → record → Prop
  | [], _, _ => True
  | _ :: fds, b1 :: r1, b2 :: r2 => same_value b1 b2 ∧ same_values fds r1 r2
  | _ :: _, _, _ => False

/-- Decision procedure for `same_values`. -/
def same_values_dec : (fds : List field_desc) → (r1 r2 : record) →
    Decidable (same_values fds r1 r2)
  | [], _, _ => isTrue trivial
  | _ :: fds, b1 :: r1, b2 :: r2 =>
    match (inferInstance : Decidable (same_value b1 b2)), same_values_dec fds r1 r2 with
    | isTrue h1, isTrue h2 => isTrue ⟨h1, h2⟩
    | isFalse h1, _ => isFalse (fun h => h1 h.1)
    | _, isFalse h2 => isFalse (fun h => h2 h.2)
  | _ :: _, [], _ => isFalse (fun h => h)
  | _ :: _, _ :: _, [] => isFalse (fun h => h)

instance (fds : List field_desc) (r1 r2 : record) : Decidable (same_values fds r1 r2) :=
  same_values_dec fds r1 r2

/-- Two buffers of a field agree as the specification words it: the same
integer, or the same bytes over the whole declared length of the field. -/
def same_bytes_buf (fd : field_desc) (b1 b2 : field_buf) : Prop :=
  match b1, b2 with
  | field_buf.int_buf x, field_buf.int_buf y => x = y
  | field_buf.str_buf x, field_buf.str_buf y => x.take fd.len.toNat = y.take fd.len.toNat
  | _, _ => False

instance (fd : field_desc) (b1 b2 : field_buf) : Decidable (same_bytes_buf fd b1 b2) := by
  cases b1 <;> cases b2 <;> simp only [same_bytes_buf] <;> infer_instance

/-- Field by field, two records agree byte for byte. -/
def same_bytes : List field_desc → record → record → Prop
  | [], _, _ => True
  | fd :: fds, b1 :: r1, b2 :: r2 => same_bytes_buf fd b1 b2 ∧ same_bytes fds r1 r2
  | _ :: _, _, _ => False

/-- Decision procedure for `same_bytes`. -/
def same_bytes_dec : (fds : List field_desc) → (r1 r2 : record) →
    Decidable (same_bytes fds r1 r2)
  | [], _, _ => isTrue trivial
  | fd :: fds, b1 :: r1, b2 :: r2 =>
    match (inferInstance : Decidable (same_bytes_buf fd b1 b2)), same_bytes_dec fds r1 r2 with
    | isTrue h1, isTrue h2 => isTrue ⟨h1, h2⟩
    | isFalse h1, _ => isFalse (fun h => h1 h.1)
    | _, isFalse h2 => isFalse (fun h => h2 h.2)
  | _ :: _, [], _ => isFalse (fun h => h)
  | _ :: _, _ :: _, [] => isFalse (fun h => h)

instance (fds : List field_desc) (r1 r2 : record) : Decidable (same_bytes fds r1 r2) :=
  same_bytes_dec fds r1 r2

/-- Example schema `Person{id: int, name: string(20)}`. -/
def person : schema_struct :=
  { name := "Person",
    fields := [new_int_field k0 "id", { new_str_field "name" 20 with offset := 4 }],
    num_fields := 2, len := 24 }

/-- A fresh record for `person` whose buffers are zeroed. -/
def person_blank : record :=
  [field_buf.int_buf 0, field_buf.str_buf (List.replicate 20 0)]

/-- The record `(1, "Anna")` written with `fill_record` into zeroed
buffers. -/
def anna : record :=
  [field_buf.int_buf 1, field_buf.str_buf ([65, 110, 110, 97] ++ List.replicate 16 0)]

/-- The record `(2, "Bo")` written with `fill_record` over buffers that
held `(1, "Anna")` before: the `a` of `Anna` is still behind the NUL. -/
def bo_over_anna : record :=
  [field_buf.int_buf 2, field_buf.str_buf ([66, 111, 0, 97] ++ List.replicate 16 0)]

/-- The record `(2, "Bo")` written with `fill_record` into zeroed
buffers. -/
def bo_fresh : record :=
  [field_buf.int_buf 2, field_buf.str_buf ([66, 111] ++ List.replicate 18 0)]

/-! ## The page manager

`schema.c` reaches the stored pages only through the interface of the
page manager (`pager.c`), which is not part of the module.  The
definitions of this section give that interface an executable meaning.
-/

/-- Modelled from the spec: one page of a table's file as the page
manager holds it, with the end of its used part (`free_pos`), the current
read/write position and the bytes of the block. -/
structure page_struct where
  free_pos : Int
  current_pos : Int
  content : Int → Nat

/-- A non-null `page_p`: the file and block number of a page. -/
structure page_ref where
  fname : String
  block_nr : Int
  deriving DecidableEq, Repr

/-- A `page_p`: a page or the null pointer. -/
abbrev page_p := Option page_ref

/-- Modelled from the spec: the state of the page manager, the blocks of
every file by file name. -/
structure pager_state where
  files : List (String × List page_struct)

/-- Modelled from the spec: the blocks of a file (none when the file does
not exist yet). -/
def file_blocks (pg : pager_state) (fname : String) : List page_struct :=
  (pg.files.lookup fname).getD []

/-- Modelled from the spec: replaces the blocks of a file. -/
def set_file_blocks (pg : pager_state) (fname : String) (bs : List page_struct) :
    pager_state :=
  { files := (fname, bs) :: pg.files.filter (fun e => e.1 != fname) }

/-- Modelled from the spec: the page behind a page pointer. -/
def page_at (pg : pager_state) (p : page_ref) : Option page_struct :=
  if p.block_nr < 0 then none else (file_blocks pg p.fname)[p.block_nr.toNat]?

/-- Modelled from the spec: writes a page back behind its pointer. -/
def set_page (pg : pager_state) (p : page_ref) (v : page_struct) : pager_state :=
  set_file_blocks pg p.fname ((file_blocks pg p.fname).set p.block_nr.toNat v)

/-- Modelled from the spec: a new page; its used part ends right after
the header and its bytes are zero. -/
def empty_page (k : consts) : page_struct :=
  { free_pos := k.PAGE_HEADER_SIZE, current_pos := k.PAGE_HEADER_SIZE, content := fun _ => 0 }

/-- Modelled from the spec: `acquire_page(table_name, block_number)`,
the pager's `get_page`.  A block of the file is returned as it is; the
block right after the last one is created empty; any other block number
yields the null page. -/
def get_page (k : consts) (pg : pager_state) (fname : String) (blk : Int) :
    page_p × pager_state :=
  let blocks := file_blocks pg fname
  if blk < 0 then (none, pg)
  else if blk.toNat < blocks.length then (some { fname := fname, block_nr := blk }, pg)
  else if blk.toNat = blocks.length then
    (some { fname := fname, block_nr := blk },
     set_file_blocks pg fname (blocks ++ [empty_page k]))
  else (none, pg)

/-- Modelled from the spec: `next_page(page)`, the pager's
`get_next_page`: the page of the following block of the same file. -/
def get_next_page (k : consts) (pg : pager_state) (p : page_ref) : page_p × pager_state :=
  get_page k pg p.fname (p.block_nr + 1)

/-- Modelled from the spec: `acquire_append_page(table_name)`, the
pager's `get_page_for_append`: the last block of the file (block 0 of an
empty file), positioned at the end of its used part. -/
def get_page_for_append (k : consts) (pg : pager_state) (fname : String) :
    page_p × pager_state :=
  let n := (file_blocks pg fname).length
  let r := get_page k pg fname (if n = 0 then 0 else (n : Int) - 1)
  match r.1 with
  | none => r
  | some p =>
    match page_at r.2 p with
    | none => r
    | some v => (some p, set_page r.2 p { v with current_pos := v.free_pos })

/-- Modelled from the spec: `position_valid_for_read(page, pos)`, the
pager's `page_valid_pos_for_get`: the position lies in the used part
behind the header. -/
def page_valid_pos_for_get (k : consts) (v : page_struct) (pos : Int) : Bool :=
  decide (k.PAGE_HEADER_SIZE ≤ pos) && decide (pos < v.free_pos)

/-- Modelled from the spec: `position_valid_for_write(page, pos,
needed_len)`, the pager's `page_valid_pos_for_put`: `needed_len` bytes fit
between the position and the end of the block. -/
def page_valid_pos_for_put (k : consts) (_v : page_struct) (pos len : Int) : Bool :=
  decide (k.PAGE_HEADER_SIZE ≤ pos) && decide (pos + len ≤ k.BLOCK_SIZE)

/-- Modelled from the spec: `end_of_page(page)`, the pager's `eop`. -/
def eop (k : consts) (v : page_struct) : Bool :=
  !(page_valid_pos_for_get k v v.current_pos)

/-- Modelled from the spec: `end_of_table(page)`, the pager's `peof`:
the end of the last block of the file. -/
def peof (k : consts) (pg : pager_state) (p : page_ref) (v : page_struct) : Bool :=
  eop k v && decide (p.block_nr + 1 = ((file_blocks pg p.fname).length : Int))

/-- Modelled from the spec: `set_position(page, pos)` to the first record
slot, the pager's `page_set_pos_begin`. -/
def page_set_pos_begin (k : consts) (v : page_struct) : page_struct :=
  { v with current_pos := k.PAGE_HEADER_SIZE }

/-- Modelled from the spec: the bytes of an `int` as the page manager
stores them, `n` bytes in two's complement, least significant first. -/
def int_to_bytes (n : Nat) (x : Int) : List Nat :=
  (List.range n).map (fun i => ((x / (256 : Int) ^ i) % 256).toNat)

/-- Modelled from the spec: the `int` stored in a sequence of bytes. -/
def bytes_to_int (bs : List Nat) : Int :=
  let u : Int := bs.foldr (fun b acc => (b : Int) + 256 * acc) 0
  if 2 * u ≥ (256 : Int) ^ bs.length then u - (256 : Int) ^ bs.length else u

/-- Modelled from the spec: the `n` bytes of a page from `pos` on. -/
def page_bytes (v : page_struct) (pos : Int) (n : Nat) : List Nat :=
  (List.range n).map (fun i => v.content (pos + (i : Int)))

/-- Modelled from the spec: a page with the bytes `bs` stored from `pos`
on. -/
def page_store (v : page_struct) (pos : Int) (bs : List Nat) : page_struct :=
  { v with content := fun q =>
      if pos ≤ q ∧ q < pos + (bs.length : Int) then bs.getD (q - pos).toNat 0
      else v.content q }

/-- Modelled from the spec: the pager's `page_get_int_at`, the `int`
stored at a position. -/
def page_get_int_at (k : consts) (v : page_struct) (pos : Int) : Int :=
  bytes_to_int (page_bytes v pos k.INT_SIZE.toNat)

/-- Modelled from the spec: `read_int(page)`, the pager's `page_get_int`:
the `int` at the current position, which moves behind it. -/
def page_get_int (k : consts) (v : page_struct) : Int × page_struct :=
  (page_get_int_at k v v.current_pos, { v with current_pos := v.current_pos + k.INT_SIZE })

/-- Modelled from the spec: `read_bytes(page, len)`, the pager's
`page_get_str`: `len` bytes from the current position, which moves
behind them. -/
def page_get_str (v : page_struct) (len : Int) : List Nat × page_struct :=
  (page_bytes v v.current_pos len.toNat, { v with current_pos := v.current_pos + len })

/-- Modelled from the spec: the position after a write; the used part of
the page grows to it. -/
def page_advance (v : page_struct) (len : Int) : page_struct :=
  { v with current_pos := v.current_pos + len,
           free_pos := max v.free_pos (v.current_pos + len) }

/-- Modelled from the spec: `write_int(page, int)`, the pager's
`page_put_int`. -/
def page_put_int (k : consts) (v : page_struct) (x : Int) : page_struct :=
  page_advance (page_store v v.current_pos (int_to_bytes k.INT_SIZE.toNat x)) k.INT_SIZE

/-- Modelled from the spec: `write_bytes(page, bytes, len)`, the pager's
`page_put_str`: the first `len` bytes of the buffer. -/
def page_put_str (v : page_struct) (buf : List Nat) (len : Int) : page_struct :=
  page_advance
    (page_store v v.current_pos ((List.range len.toNat).map (fun i => buf.getD i 0))) len

/-! ## Table descriptors and the catalog -/

/-- Table descriptor (`tbl_desc_struct`).  `addr` is the identity of the
descriptor, the address `malloc` gave it; the `next` link is the position
in the catalog.  The schema `sch` points to is kept inside the descriptor,
and a schema pointer `schema_p` into the catalog is the address of its
table (`s->tbl`). -/
structure tbl_desc_struct where
  addr : Nat
  sch : schema_struct
  num_records : Int
  current_pg : page_p
  deriving DecidableEq, Repr

/-- A `tbl_p`: the address of a table descriptor or the null pointer. -/
abbrev tbl_p := Option Nat

/-- The state the module works on: the catalog `db_tables`, a linked list
of table descriptors, and the pages of the page manager. -/
structure db where
  db_tables : List tbl_desc_struct
  pager : pager_state

/-- The descriptor behind a table pointer; `none` for a pointer to no
descriptor of the catalog. -/
def deref (d : db) (a : Nat) : Option tbl_desc_struct :=
  d.db_tables.find? (fun t => t.addr == a)

/-- Writes a descriptor back behind its pointer. -/
def store (d : db) (t : tbl_desc_struct) : db :=
  { d with db_tables := d.db_tables.map (fun u => if u.addr == t.addr then t else u) }

/-- An address `malloc` can return: one that no descriptor of the
catalog has. -/
def fresh_addr (d : db) : Nat :=
  (d.db_tables.map (fun t => t.addr)).foldr max 0 + 1

/-- Function `new_schema`: a new table descriptor with an empty schema is put at
the head of the catalog; the result is the pointer to the schema. -/
def new_schema (d : db) (name : String) : Nat × db :=
  let tbl : tbl_desc_struct :=
    { addr := fresh_addr d, sch := make_schema name, num_records := 0, current_pg := none }
  (tbl.addr, { d with db_tables := tbl :: d.db_tables })

/-- Function `get_table`: the first descriptor of the catalog with that name. -/
def get_table (d : db) (name : String) : tbl_p :=
  (d.db_tables.find? (fun t => strcmp (cstr name) (cstr t.sch.name) == 0)).map
    (fun t => t.addr)

/-- Function `get_schema`. -/
def get_schema (d : db) (name : String) : tbl_p :=
  match get_table d name with
  | some tbl => some tbl
  | none => none

/-- Function `add_field` on a schema that lives in the catalog. -/
def add_field_in (k : consts) (d : db) (s : Nat) (f : field_desc) : Option (Int × db) :=
  match deref d s with
  | none => none
  | some t =>
    match add_field k (some t.sch) f with
    | some (n, some sch') => some (n, store d { t with sch := sch' })
    | _ => none

/-- The loop of `copy_schema`: `add_field(dest, dup_field(f))` for every
field of the source. -/
def copy_fields (k : consts) : db → Nat → List field_desc → Option db
  | d, _, [] => some d
  | d, dest, f :: fs =>
    match add_field_in k d dest (dup_field f) with
    | none => none
    | some (_, d') => copy_fields k d' dest fs

/-- Function `copy_schema`. -/
def copy_schema (k : consts) (d : db) (s : schema_p) (dest_name : String) :
    Option (tbl_p × db) :=
  match s with
  | none => some (none, d)
  | some s =>
    let r := new_schema d dest_name
    match copy_fields k r.2 r.1 s.fields with
    | none => none
    | some d' => some (some r.1, d')

/-- Function `get_field`: the first field of the schema with that name. -/
def get_field (s : schema_struct) (name : String) : Option field_desc :=
  s.fields.find? (fun f => strcmp (cstr f.name) (cstr name) == 0)

/-- The `do … while` loop of `tmp_schema_name` from suffix `i` on; the
first argument bounds the number of rounds. -/
def tmp_schema_name_from (d : db) (op_name name : String) : Nat → Nat → Option String
  | 0, _ => none
  | fuel + 1, i =>
    let res := op_name ++ "__" ++ name ++ "_" ++ toString i
    if (get_schema d res).isSome then tmp_schema_name_from d op_name name fuel (i + 1)
    else some res

/-- Function `tmp_schema_name`: the loop is run for at most one round more than
the catalog has tables. -/
def tmp_schema_name (d : db) (op_name name : String) : Option String :=
  tmp_schema_name_from d op_name name (d.db_tables.length + 1) 0

/-- Function `new_record`: one buffer per field.  The contents of the buffers are
indeterminate in C; in the model they are zero. -/
def new_record (s : schema_struct) : record :=
  s.fields.map (fun f =>
    if is_int_field (some f) then field_buf.int_buf 0
    else field_buf.str_buf (List.replicate f.len.toNat 0))

/-- Positions of `set_tbl_position` (`tbl_position` of `schema.h`). -/
inductive tbl_position where
  | TBL_BEG
  | TBL_END
  deriving DecidableEq, Repr

/-- Function `set_tbl_position`. -/
def set_tbl_position (k : consts) (d : db) (t : Nat) (pos : tbl_position) : Option db :=
  match deref d t with
  | none => none
  | some tb =>
    match pos with
    | tbl_position.TBL_BEG =>
      let r := get_page k d.pager tb.sch.name 0
      match r.1 with
      | none => none
      | some p =>
        match page_at r.2 p with
        | none => none
        | some v =>
          some (store { d with pager := set_page r.2 p (page_set_pos_begin k v) }
                  { tb with current_pg := some p })
    | tbl_position.TBL_END =>
      let r := get_page_for_append k d.pager tb.sch.name
      some (store { d with pager := r.2 } { tb with current_pg := r.1 })

/-- Function `page_valid_pos_for_get_with_schema`; `none` is the division by a
zero record length. -/
def page_valid_pos_for_get_with_schema (k : consts) (v : page_struct) (s : schema_struct) :
    Option Bool :=
  if page_valid_pos_for_get k v v.current_pos then
    if s.len = 0 then none
    else some (decide ((v.current_pos - k.PAGE_HEADER_SIZE).tmod s.len = 0))
  else some false

/-- Function `page_valid_pos_for_put_with_schema`; `none` is the division by a
zero record length. -/
def page_valid_pos_for_put_with_schema (k : consts) (v : page_struct) (s : schema_struct) :
    Option Bool :=
  if page_valid_pos_for_put k v v.current_pos s.len then
    if s.len = 0 then none
    else some (decide ((v.current_pos - k.PAGE_HEADER_SIZE).tmod s.len = 0))
  else some false

/-- Function `get_page_for_next_record`: the page to read the next record from,
or the null page at the end of the table. -/
def get_page_for_next_record (k : consts) (d : db) (s : Nat) : Option (page_p × db) :=
  match deref d s with
  | none => none
  | some tb =>
    match tb.current_pg with
    | none => none
    | some pg =>
      match page_at d.pager pg with
      | none => none
      | some v =>
        if peof k d.pager pg v then some (none, d)
        else if eop k v then
          let r := get_next_page k d.pager pg
          match r.1 with
          | none => none
          | some pg' =>
            match page_at r.2 pg' with
            | none => none
            | some v' =>
              some (some pg',
                store { d with pager := set_page r.2 pg' (page_set_pos_begin k v') }
                  { tb with current_pg := some pg' })
        else some (some pg, d)

/-! ## Reading and writing records -/

/-- The field loop of `get_page_record` with line 587 repaired: integer
fields are read with the pager's `page_get_int`, string fields with
`page_get_str`.  The source has `field_desc_p(p)` where `page_get_int(p)`
is meant, which reads nothing from the page; `get_fields_as_written` is
the loop with that line as it stands. -/
def get_fields (k : consts) : List field_desc → record → page_struct →
    Option (record × page_struct)
  | [], r, v => some (r, v)
  | fd :: fds, b :: r, v =>
    if is_int_field (some fd) then
      match assign_int_field b (page_get_int k v).1 with
      | none => none
      | some b' =>
        match get_fields k fds r (page_get_int k v).2 with
        | none => none
        | some (r', v') => some (b' :: r', v')
    else
      match b with
      | field_buf.int_buf _ => none
      | field_buf.str_buf _ =>
        match get_fields k fds r (page_get_str v fd.len).2 with
        | none => none
        | some (r', v') => some (field_buf.str_buf (page_get_str v fd.len).1 :: r', v')
  | _ :: _, [], _ => none

/-- Function `get_page_record`: 0 for the null page, a fatal exit (`none`) at an
invalid position, otherwise the record at the current position is decoded
and 1 returned. -/
def get_page_record (k : consts) (d : db) (p : page_p) (r : record) (s : schema_struct) :
    Option (Int × record × db) :=
  match p with
  | none => some (0, r, d)
  | some pg =>
    match page_at d.pager pg with
    | none => none
    | some v =>
      match page_valid_pos_for_get_with_schema k v s with
      | some true =>
        match get_fields k s.fields r v with
        | none => none
        | some (r', v') => some (1, r', { d with pager := set_page d.pager pg v' })
      | _ => none

/-- Function `get_record`. -/
def get_record (k : consts) (d : db) (r : record) (s : Nat) : Option (Int × record × db) :=
  match deref d s, get_page_for_next_record k d s with
  | some tb, some (some pg, d1) => get_page_record k d1 (some pg) r tb.sch
  | some _, some (none, d1) => some (0, r, d1)
  | _, _ => none

/-- Comparison functions a `cmp_op` pointer can hold. -/
inductive cmp_fn where
  | int_equal
  | int_greatequal
  | int_lessequal
  | int_unequal
  deriving DecidableEq, Repr

/-- Function `int_equal`. -/
def int_equal (x y : Int) : Int := if x = y then 1 else 0

/-- Function `int_greatequal`. -/
def int_greatequal (x y : Int) : Int := if x ≥ y then 1 else 0

/-- Function `int_lessequal`. -/
def int_lessequal (x y : Int) : Int := if x ≤ y then 1 else 0

/-- Function `int_unequal`. -/
def int_unequal (x y : Int) : Int := if x ≠ y then 1 else 0

/-- The call `(*op)(x, y)` through a function pointer. -/
def call_op (op : cmp_fn) (x y : Int) : Int :=
  match op with
  | cmp_fn.int_equal => int_equal x y
  | cmp_fn.int_greatequal => int_greatequal x y
  | cmp_fn.int_lessequal => int_lessequal x y
  | cmp_fn.int_unequal => int_unequal x y

/-- The `for` loop of `find_record_int_val`, entered with a non-null page;
the first argument bounds the number of rounds. -/
def find_record_loop (k : consts) : Nat → db → Nat → page_ref → record → Int → cmp_fn → Int →
    Option (Int × record × db)
  | 0, _, _, _, _, _, _, _ => none
  | fuel + 1, d, s, pg, r, offset, op, val =>
    match deref d s, page_at d.pager pg with
    | some tb, some v =>
      let pos := v.current_pos
      let rec_val := page_get_int_at k v (pos + offset)
      if call_op op val rec_val ≠ 0 then
        match get_page_record k
            { d with pager := set_page d.pager pg { v with current_pos := pos } }
            (some pg) r tb.sch with
        | none => none
        | some (_, r', d') => some (1, r', d')
      else
        match get_page_for_next_record k
            { d with pager := set_page d.pager pg { v with current_pos := pos + tb.sch.len } }
            s with
        | none => none
        | some (none, d') => some (0, r, d')
        | some (some pg', d') => find_record_loop k fuel d' s pg' r offset op val
    | _, _ => none

/-- Function `find_record_int_val`. -/
def find_record_int_val (k : consts) (fuel : Nat) (d : db) (r : record) (s : Nat)
    (offset : Int) (op : cmp_fn) (val : Int) : Option (Int × record × db) :=
  match get_page_for_next_record k d s with
  | none => none
  | some (none, d') => some (0, r, d')
  | some (some pg, d') => find_record_loop k fuel d' s pg r offset op val

/-- The field loop of `put_page_record`. -/
def put_fields (k : consts) : List field_desc → record → page_struct → Option page_struct
  | [], _, v => some v
  | fd :: fds, b :: r, v =>
    if is_int_field (some fd) then
      match b with
      | field_buf.int_buf x => put_fields k fds r (page_put_int k v x)
      | field_buf.str_buf _ => none
    else
      match b with
      | field_buf.str_buf bs => put_fields k fds r (page_put_str v bs fd.len)
      | field_buf.int_buf _ => none
  | _ :: _, [], _ => none

/-- Function `put_page_record`: 0 when the record does not fit at the current
position, otherwise the record is written there and 1 returned. -/
def put_page_record (k : consts) (d : db) (pg : page_ref) (r : record) (s : schema_struct) :
    Option (Int × db) :=
  match page_at d.pager pg with
  | none => none
  | some v =>
    match page_valid_pos_for_put_with_schema k v s with
    | none => none
    | some false => some (0, d)
    | some true =>
      match put_fields k s.fields r v with
      | none => none
      | some v' => some (1, { d with pager := set_page d.pager pg v' })

/-- Function `append_record`; `none` is one of its fatal exits. -/
def append_record (k : consts) (d : db) (r : record) (s : Nat) : Option db :=
  match deref d s with
  | none => none
  | some tb =>
    let g := get_page_for_append k d.pager tb.sch.name
    match g.1 with
    | none => none
    | some pg =>
      match put_page_record k { d with pager := g.2 } pg r tb.sch with
      | none => none
      | some (n, d1) =>
        if n ≠ 0 then
          some (store d1 { tb with current_pg := some pg, num_records := tb.num_records + 1 })
        else
          let g2 := get_next_page k d1.pager pg
          match g2.1 with
          | none => none
          | some pg2 =>
            match put_page_record k { d1 with pager := g2.2 } pg2 r tb.sch with
            | none => none
            | some (n2, d2) =>
              if n2 ≠ 0 then
                some (store d2
                  { tb with current_pg := some pg2, num_records := tb.num_records + 1 })
              else none

/-- The `while (get_record(rec, s))` loop of `table_display`; the result
lists the records handed to `display_record`. -/
def display_loop (k : consts) : Nat → db → record → Nat → Option (List record × db)
  | 0, _, _, _ => none
  | fuel + 1, d, r, s =>
    match get_record k d r s with
    | none => none
    | some (n, r', d') =>
      if n ≠ 0 then
        match display_loop k fuel d' r' s with
        | none => none
        | some (out, d'') => some (r' :: out, d'')
      else some ([], d')

/-- Function `table_display`: the records of the table in scan order, as they are
handed to `display_record`. -/
def table_display (k : consts) (fuel : Nat) (d : db) (t : tbl_p) : Option (List record × db) :=
  match t with
  | none => some ([], d)
  | some a =>
    match deref d a with
    | none => none
    | some tb =>
      match set_tbl_position k d a tbl_position.TBL_BEG with
      | none => none
      | some d1 => display_loop k fuel d1 (new_record tb.sch) a

/-! ## Selection -/

/-- The four `strcmp` tests at the head of `table_search`, in source
order, each overwriting `cmp_op` when it succeeds; `sc` is the string
comparison used and the result is the pointer held by `cmp_op` after the
fourth test (`none` for the null pointer). -/
def cmp_op_with (sc : List Nat → List Nat → Int) (op : String) : Option cmp_fn :=
  let c0 : Option cmp_fn := none
  let c1 := if sc (cstr op) (cstr "=") = 0 then some cmp_fn.int_equal else c0
  let c2 := if sc (cstr op) (cstr "<=") = 1 then some cmp_fn.int_lessequal else c1
  let c3 := if sc (cstr op) (cstr ">=") = 1 then some cmp_fn.int_greatequal else c2
  let c4 := if sc (cstr op) (cstr "!=") = 1 then some cmp_fn.int_unequal else c3
  c4

/-- The operator dispatch of `table_search` with the library's
`strcmp`. -/
def table_search_cmp_op (op : String) : Option cmp_fn :=
  cmp_op_with strcmp op

/-- The field loop of `table_search`: the first field named `attr` when
it is an integer field; `none` stands for both `return 0` exits (the
field is not an integer field, or no field has that name). -/
def find_int_attr : List field_desc → String → Option field_desc
  | [], _ => none
  | f :: fs, attr =>
    if strcmp (cstr f.name) (cstr attr) = 0 then
      if f.type ≠ field_type.INT_TYPE then none else some f
    else find_int_attr fs attr

/-- The `while (find_record_int_val(…))` loop of `table_search`, which
appends every record found to the result table; the first argument bounds
the number of rounds. -/
def table_search_loop (k : consts) : Nat → db → record → Nat → Nat → Int → cmp_fn → Int →
    Option db
  | 0, _, _, _, _, _, _, _ => none
  | fuel + 1, d, r, s, res_sch, offset, op, val =>
    match find_record_int_val k (fuel + 1) d r s offset op val with
    | none => none
    | some (n, r', d') =>
      if n ≠ 0 then
        match append_record k d' r' res_sch with
        | none => none
        | some d'' => table_search_loop k fuel d'' r' s res_sch offset op val
      else some d'

/-- Function `table_search`: the operator dispatch (source lines 622–644) followed
by the body that continues at source lines 804–832.  The result is the
returned table pointer and the state after the call. -/
def table_search (k : consts) (fuel : Nat) (d : db) (t : tbl_p) (attr op : String)
    (val : Int) : Option (tbl_p × db) :=
  match t with
  | none => some (none, d)
  | some a =>
    match table_search_cmp_op op with
    | none => some (none, d)
    | some cmp_op =>
      match deref d a with
      | none => none
      | some tb =>
        match find_int_attr tb.sch.fields attr with
        | none => some (none, d)
        | some f =>
          match tmp_schema_name d "select" tb.sch.name with
          | none => none
          | some tmp_name =>
            match copy_schema k d (some tb.sch) tmp_name with
            | some (some res_sch, d1) =>
              match set_tbl_position k d1 a tbl_position.TBL_BEG with
              | none => none
              | some d2 =>
                match table_search_loop k fuel d2 (new_record tb.sch) a res_sch
                    f.offset cmp_op val with
                | none => none
                | some d3 => some (some res_sch, d3)
            | _ => none

/-! ## Worked example: the table `Person` -/

/-- A record of `Person`. -/
def person_record (id : Int) (name : String) : Option record :=
  match fill_record (some person_blank) (some person)
      [field_val.int_val id, field_val.str_val (cstr name)] with
  | some (_, some r) => some r
  | _ => none

/-- An empty database. -/
def empty_db : db :=
  { db_tables := [], pager := { files := [] } }

/-- The database after `new_schema("Person")`, two `add_field` calls for
`id` and `name : string(20)`, and `append_record` of `(1, "Ann")`,
`(2, "Bo")` and `(3, "Cy")`; the pointer is the table `Person`. -/
def person_db : Option (Nat × db) :=
  let r := new_schema empty_db "Person"
  match add_field_in k0 r.2 r.1 (new_int_field k0 "id") with
  | none => none
  | some (_, d1) =>
    match add_field_in k0 d1 r.1 (new_str_field "name" 20) with
    | none => none
    | some (_, d2) =>
      match person_record 1 "Ann", person_record 2 "Bo", person_record 3 "Cy" with
      | some r1, some r2, some r3 =>
        match append_record k0 d2 r1 r.1 with
        | none => none
        | some d3 =>
          match append_record k0 d3 r2 r.1 with
          | none => none
          | some d4 =>
            match append_record k0 d4 r3 r.1 with
            | none => none
            | some d5 => some (r.1, d5)
      | _, _, _ => none

/-- The `id` and the name string of a record of `Person`. -/
def person_view (r : record) : Option (Int × List Nat) :=
  match r with
  | [field_buf.int_buf x, field_buf.str_buf bs] => some (x, c_string bs)
  | _ => none

/-- The rows of the table `table_search` returns for a query on
`Person`, read back with `table_display`. -/
def person_select (attr op : String) (val : Int) : Option (List (Option (Int × List Nat))) :=
  match person_db with
  | none => none
  | some (t, d) =>
    match table_search k0 10 d (some t) attr op val with
    | none => none
    | some (res, d') =>
      match table_display k0 10 d' res with
      | none => none
      | some (rows, _) => some (rows.map person_view)

/-- Repeated `find_record_int_val` calls on `Person` with a comparison
function and a value until one returns 0; the result lists the records
found, by `id` and name. -/
def person_find_loop (t : Nat) (op : cmp_fn) (val : Int) :
    Nat → db → record → Option (List (Option (Int × List Nat)))
  | 0, _, _ => none
  | fuel + 1, d, r =>
    match find_record_int_val k0 10 d r t 0 op val with
    | none => none
    | some (n, r', d') =>
      if n ≠ 0 then
        match person_find_loop t op val fuel d' r' with
        | none => none
        | some out => some (person_view r' :: out)
      else some []

/-- The records `find_record_int_val` selects from `Person`, scanning
from the beginning of the table. -/
def person_find_all (op : cmp_fn) (val : Int) : Option (List (Option (Int × List Nat))) :=
  match person_db with
  | none => none
  | some (t, d) =>
    match set_tbl_position k0 d t tbl_position.TBL_BEG with
    | none => none
    | some d1 => person_find_loop t op val 10 d1 (new_record person)

/-- The pointer `table_search` returns for a query on `Person` and the
names of the tables in the catalog after the call. -/
def person_select_catalog (attr op : String) (val : Int) : Option (tbl_p × List String) :=
  match person_db with
  | none => none
  | some (t, d) =>
    match table_search k0 10 d (some t) attr op val with
    | none => none
    | some (res, d') => some (res, d'.db_tables.map (fun u => u.sch.name))

/-- The descriptor of an empty table `Person`. -/
def person_tbl : tbl_desc_struct :=
  { addr := 1, sch := person, num_records := 0, current_pg := none }

/-- A database whose catalog holds the empty table `Person`. -/
def person_only : db :=
  { db_tables := [person_tbl], pager := { files := [] } }

/-! ## Names of temporary schemas -/

/-- A string of the model that is a C string: it holds no NUL
character. -/
def is_c_string (s : String) : Prop := 0 ∉ cstr s

instance (s : String) : Decidable (is_c_string s) := by
  unfold is_c_string; infer_instance

/-- The string `sprintf(res, "%s__%s_%d", op_name, name, i)` writes. -/
def tmp_name (op_name name : String) (i : Nat) : String :=
  op_name ++ "__" ++ name ++ "_" ++ toString i

/-- A database whose catalog holds the empty tables `select__Person_0`
and `Person`. -/
def two_tables : db :=
  { db_tables :=
      [{ addr := 2, sch := { person with name := "select__Person_0" },
         num_records := 0, current_pg := none },
       person_tbl],
    pager := { files := [] } }

/-! ## Dropping tables, projection -/

/-- Function `concat_names`: the three strings joined, which is what `strcpy`
and `strcat` leave in a buffer that holds them; `concat_names_in_buf` has
the buffer the source allocates. -/
def concat_names (name1 sep name2 : String) : String :=
  name1 ++ sep ++ name2

/-- Modelled from the spec: dropping a table renames its backing page file
to the retired name; a file that does not exist is left alone (`rename`
fails), a file that already has the retired name is replaced. -/
def retire_file (pg : pager_state) (name : String) : pager_state :=
  match pg.files.lookup name with
  | none => pg
  | some bs =>
    { files := (concat_names "_" "_" name, bs) ::
        pg.files.filter (fun e => e.1 != name && e.1 != concat_names "_" "_" name) }

/-- Function `remove_table`: the descriptor `t` points to is unlinked from
the catalog and its page file retired; nothing happens for the null pointer
or a pointer to no descriptor of the catalog. -/
def remove_table (d : db) (t : tbl_p) : db :=
  match t with
  | none => d
  | some a =>
    match deref d a with
    | none => d
    | some tb =>
      { db_tables := d.db_tables.eraseP (fun u => u.addr == a),
        pager := retire_file d.pager tb.sch.name }

/-- Function `remove_schema`: `if (s) remove_table(s->tbl)`. -/
def remove_schema (d : db) (s : tbl_p) : db :=
  match s with
  | none => d
  | some a => remove_table d (some a)

/-- The `for` loop of `make_sub_schema` over the requested names. -/
def make_sub_schema_loop (k : consts) : db → Nat → schema_struct → List String →
    Option (tbl_p × db)
  | d, res, _, [] => some (some res, d)
  | d, res, s, n :: ns =>
    match get_field s n with
    | some f =>
      match add_field_in k d res (dup_field f) with
      | none => none
      | some (_, d') => make_sub_schema_loop k d' res s ns
    | none => some (none, remove_schema d (some res))

/-- Function `make_sub_schema`; `fields` is the array
`fields[0..num_fields-1]`. -/
def make_sub_schema (k : consts) (d : db) (s : schema_p) (fields : List String) :
    Option (tbl_p × db) :=
  match s with
  | none => some (none, d)
  | some s =>
    match tmp_schema_name d "project" s.name with
    | none => none
    | some sub_sch_name =>
      make_sub_schema_loop k (new_schema d sub_sch_name).2 (new_schema d sub_sch_name).1
        s fields

/-- The inner loop of `fill_sub_record`: the index of the first source
field with the given name; `none` when the search runs past the last
field (a null dereference). -/
def src_index : List field_desc → String → Option Nat
  | [], _ => none
  | f :: fs, name =>
    if strcmp (cstr f.name) (cstr name) ≠ 0 then (src_index fs name).map (fun j => j + 1)
    else some 0

/-- The outer loop of `fill_sub_record` over the destination fields. -/
def fill_sub_fields : List field_desc → record → record → List field_desc → Option record
  | [], r, _, _ => some r
  | dest_f :: dfs, b :: r, src_r, src_fs =>
    match src_index src_fs dest_f.name with
    | none => none
    | some j =>
      match src_r[j]? with
      | none => none
      | some sb =>
        let b' :=
          if is_int_field (some dest_f) then
            match sb with
            | field_buf.int_buf x => assign_int_field b x
            | field_buf.str_buf _ => none
          else
            match sb with
            | field_buf.str_buf bs => assign_str_field b bs
            | field_buf.int_buf _ => none
        match b', fill_sub_fields dfs r src_r src_fs with
        | some b', some r' => some (b' :: r')
        | _, _ => none
  | _ :: _, [], _, _ => none

/-- Function `fill_sub_record`. -/
def fill_sub_record (dest_r : record) (dest_s : schema_struct) (src_r : record)
    (src_s : schema_struct) : Option record :=
  fill_sub_fields dest_s.fields dest_r src_r src_s.fields

/-- The `while (get_record(rec, s))` loop of `table_project`; the first
argument bounds the number of rounds. -/
def table_project_loop (k : consts) : Nat → db → record → record → Nat → Nat → Option db
  | 0, _, _, _, _, _ => none
  | fuel + 1, d, r, rec_dest, s, dest =>
    match get_record k d r s with
    | none => none
    | some (n, r', d1) =>
      if n ≠ 0 then
        match deref d1 s, deref d1 dest with
        | some stb, some dtb =>
          match fill_sub_record rec_dest dtb.sch r' stb.sch with
          | none => none
          | some rd' =>
            match append_record k d1 rd' dest with
            | none => none
            | some d2 => table_project_loop k fuel d2 r' rd' s dest
        | _, _ => none
      else some d1

/-- Function `table_project`; `none` for a null table (`t->sch` is read
without a check), a fatal exit or an exhausted bound. -/
def table_project (k : consts) (fuel : Nat) (d : db) (t : tbl_p) (fields : List String) :
    Option (tbl_p × db) :=
  match t with
  | none => none
  | some a =>
    match deref d a with
    | none => none
    | some tb =>
      match make_sub_schema k d (some tb.sch) fields with
      | none => none
      | some (none, d1) => some (none, d1)
      | some (some dest, d1) =>
        match deref d1 dest with
        | none => none
        | some dtb =>
          match set_tbl_position k d1 a tbl_position.TBL_BEG with
          | none => none
          | some d2 =>
            match table_project_loop k fuel d2 (new_record tb.sch) (new_record dtb.sch)
                a dest with
            | none => none
            | some d3 => some (some dest, d3)

/-- The fields a run of `add_field` calls appends to a schema of record
length `acc`: each field gets the running record length as its offset. -/
def relocate (acc : Int) : List field_desc → List field_desc
  | [] => []
  | g :: gs => { g with offset := acc } :: relocate (acc + g.len) gs

/-- Capacity along a run of field additions to a schema of record length
`acc`: after every addition the record length plus the page header is at
most the block size. -/
def fits_from (k : consts) (acc : Int) : List field_desc → Prop
  | [] => True
  | g :: gs =>
    acc + g.len ≤ k.BLOCK_SIZE - k.PAGE_HEADER_SIZE ∧ fits_from k (acc + g.len) gs

/-- Decision procedure for `fits_from`. -/
def fits_from_dec (k : consts) : (acc : Int) → (gs : List field_desc) →
    Decidable (fits_from k acc gs)
  | _, [] => isTrue trivial
  | acc, g :: gs =>
    match (inferInstance : Decidable (acc + g.len ≤ k.BLOCK_SIZE - k.PAGE_HEADER_SIZE)),
      fits_from_dec k (acc + g.len) gs with
    | isTrue h1, isTrue h2 => isTrue ⟨h1, h2⟩
    | isFalse h1, _ => isFalse (fun h => h1 h.1)
    | _, isFalse h2 => isFalse (fun h => h2 h.2)

instance (k : consts) (acc : Int) (gs : List field_desc) : Decidable (fits_from k acc gs) :=
  fits_from_dec k acc gs

/-- The field names of a schema are pairwise distinct as C strings. -/
def distinct_fields (s : schema_struct) : Prop :=
  s.fields.Pairwise (fun f g => strcmp (cstr f.name) (cstr g.name) ≠ 0)

instance (s : schema_struct) : Decidable (distinct_fields s) := by
  unfold distinct_fields; infer_instance

/-- What the specification says of the `i`-th field of a projection
schema: it has the name, type and length of the field of `s` that the
`i`-th requested name names. -/
def copies_named (s : schema_struct) (n : String) (g : field_desc) : Prop :=
  ∃ f, get_field s n = some f ∧ g.name = f.name ∧ g.type = f.type ∧ g.len = f.len

/-- The schema of the table `make_sub_schema` returns, when it returns
one. -/
def sub_schema_of (k : consts) (d : db) (s : schema_struct) (fields : List String) :
    Option schema_struct :=
  match make_sub_schema k d (some s) fields with
  | some (some a, d') => (deref d' a).map (fun tb => tb.sch)
  | _ => none

/-- Example schema `Wide{a: string(300)}`. -/
def wide : schema_struct :=
  { name := "Wide", fields := [new_str_field "a" 300], num_fields := 1, len := 300 }

/-- A database whose catalog holds the empty table `Wide`. -/
def wide_only : db :=
  { db_tables := [{ addr := 1, sch := wide, num_records := 0, current_pg := none }],
    pager := { files := [] } }

/-- A buffer fits its field: an `int` for an integer field, `len` bytes
for a string field. -/
def buf_shaped (fd : field_desc) (b : field_buf) : Bool :=
  match b with
  | field_buf.int_buf _ => is_int_field (some fd)
  | field_buf.str_buf bs => !(is_int_field (some fd)) && decide ((bs.length : Int) = fd.len)

/-- A record shaped by a field list: one fitting buffer per field. -/
def shaped : List field_desc → record → Bool
  | [], [] => true
  | fd :: fds, b :: r => buf_shaped fd b && shaped fds r
  | _, _ => false

/-- What the specification says of a destination buffer after
`fill_sub_record`: it holds the value of the source buffer at the index of
the first source field that has the name of the destination field. -/
def holds_source_value (src_s : schema_struct) (src_r : record) (g : field_desc)
    (b : field_buf) : Prop :=
  ∃ (j : Nat) (hj : j < src_s.fields.length) (sb : field_buf),
    strcmp (cstr (src_s.fields.get ⟨j, hj⟩).name) (cstr g.name) = 0 ∧
    (∀ (i : Nat) (hi : i < src_s.fields.length), i < j →
      strcmp (cstr (src_s.fields.get ⟨i, hi⟩).name) (cstr g.name) ≠ 0) ∧
    src_r[j]? = some sb ∧ same_value b sb

/-- The descriptor of the table `make_sub_schema` builds for the
projection of `Person` on `name`, `id`. -/
def person_sub_tbl : tbl_desc_struct :=
  { addr := 2,
    sch := { name := "project__Person_0",
             fields := [new_str_field "name" 20, { new_int_field k0 "id" with offset := 20 }],
             num_fields := 2, len := 24 },
    num_records := 0, current_pg := none }

/-- The database `person_only` after that call of `make_sub_schema`. -/
def person_sub_db : db :=
  { db_tables := [person_sub_tbl, person_tbl], pager := { files := [] } }

/-- Constants of a small storage format for the worked examples: a page
has room for two records of `Person`. -/
def k1 : consts := { BLOCK_SIZE := 70, PAGE_HEADER_SIZE := 20, INT_SIZE := 4 }

/-- The database `person_only` after `append_record` of `(1, "Anna")` and
`(2, "Bo")` to `Person`. -/
def person_two (k : consts) : db :=
  ((append_record k person_only anna 1).bind (fun d => append_record k d bo_fresh 1)).getD
    person_only

/-- The table names of the catalog are pairwise distinct as C strings. -/
def distinct_names (d : db) : Prop :=
  d.db_tables.Pairwise (fun t u => strcmp (cstr t.sch.name) (cstr u.sch.name) ≠ 0)

instance (d : db) : Decidable (distinct_names d) := by
  unfold distinct_names; infer_instance

/-- A call that changes the catalog: `new_schema(name)` or
`remove_table(t)`. -/
inductive catalog_call where
  | create (name : String)
  | drop (t : tbl_p)

/-- The catalog after a sequence of `new_schema` and `remove_table`
calls. -/
def run_calls : db → List catalog_call → db
  | d, [] => d
  | d, catalog_call.create name :: cs => run_calls (new_schema d name).2 cs
  | d, catalog_call.drop t :: cs => run_calls (remove_table d t) cs

/-- Every `new_schema` call of the sequence is made with a name that no
table of the catalog has at that moment (`get_table` returns null), as
the callers inside the module see to with `tmp_schema_name`. -/
def fresh_calls : db → List catalog_call → Bool
  | _, [] => true
  | d, catalog_call.create name :: cs =>
    (get_table d name).isNone && fresh_calls (new_schema d name).2 cs
  | d, catalog_call.drop t :: cs => fresh_calls (remove_table d t) cs

/-! ## The catalog file -/

/-- Modelled from the spec: the code of a field type in the catalog file,
a small integer enumerating the types (`field_type` of `schema.h`). -/
def type_code (t : field_type) : Int :=
  match t with
  | field_type.INT_TYPE => 0
  | field_type.STR_TYPE => 1

/-- The text `fprintf` writes for `%d`. -/
def print_int (x : Int) : List Char :=
  if x < 0 then '-' :: (toString x.natAbs).data else (toString x.toNat).data

/-- The text of one field in `save_tbl_desc`:
`fprintf(fp, "%s %d %d %d\n", name, type, len, offset)`. -/
def save_field (f : field_desc) : List Char :=
  f.name.data ++ ' ' :: print_int (type_code f.type) ++ ' ' :: print_int f.len ++
    ' ' :: print_int f.offset ++ ['\n']

/-- Function `save_tbl_desc`: the text written for one table. -/
def save_tbl_desc (t : tbl_desc_struct) : List Char :=
  t.sch.name.data ++ ' ' :: print_int t.sch.num_fields ++ '\n' ::
    (t.sch.fields.map save_field).flatten ++ print_int t.num_records ++ ['\n']

/-- Function `save_tbl_descs`: the text of the catalog file, one block
per table in catalog order. -/
def save_tbl_descs (d : db) : List Char :=
  (d.db_tables.map save_tbl_desc).flatten

/-- White space as `fscanf` sees it (`isspace`). -/
def is_space (c : Char) : Bool :=
  c = ' ' || c = '\n' || c = '\t' || c = '\r' || c = '\x0b' || c = '\x0c'

/-- The input with leading white space skipped. -/
def skip_space (l : List Char) : List Char :=
  l.dropWhile is_space

/-- The conversion `%s` of `fscanf` into `char name[30]`: white space is
skipped and the characters up to the next white space are read; `none`
at the end of the input, and for a word of 30 characters or more, which
does not fit the buffer. -/
def scan_str (l : List Char) : Option (String × List Char) :=
  let tok := (skip_space l).takeWhile (fun c => !is_space c)
  if tok = [] ∨ 30 ≤ tok.length then none
  else some (String.mk tok, (skip_space l).dropWhile (fun c => !is_space c))

/-- The number a run of decimal digits denotes. -/
def digits_value (ds : List Char) : Nat :=
  ds.foldl (fun a c => 10 * a + (c.toNat - 48)) 0

/-- The conversion `%d` of `fscanf`: white space is skipped, then an
optional sign and a run of digits are read; `none` when no digit
follows. -/
def scan_int (l : List Char) : Option (Int × List Char) :=
  let l' := skip_space l
  let body := if l'.head? = some '-' ∨ l'.head? = some '+' then l'.tail else l'
  let ds := body.takeWhile Char.isDigit
  if ds = [] then none
  else
    some (if l'.head? = some '-' then - (digits_value ds : Int) else (digits_value ds : Int),
      body.dropWhile Char.isDigit)

/-- The `for` loop of `read_tbl_descs` over the fields of one table:
`fscanf("%s %d %d")`, the `switch` on the type code, `fscanf("%d\n")` into
the offset and `add_field`.  The result is the state and the rest of the
input; `none` when a conversion fails or the type code is unknown (the
variables read afterwards are then not set). -/
def read_fields (k : consts) : Nat → db → Nat → List Char → Option (db × List Char)
  | 0, d, _, l => some (d, l)
  | n + 1, d, sch, l =>
    match scan_str l with
    | none => none
    | some (name, l1) =>
      match scan_int l1 with
      | none => none
      | some (fld_type, l2) =>
        match scan_int l2 with
        | none => none
        | some (fld_len, l3) =>
          let fld : Option field_desc :=
            if fld_type = type_code field_type.INT_TYPE then some (new_int_field k name)
            else if fld_type = type_code field_type.STR_TYPE then
              some (new_str_field name fld_len)
            else none
          match fld, scan_int l3 with
          | some fld, some (offset, l4) =>
            match add_field_in k d sch { fld with offset := offset } with
            | none => none
            | some (_, d') => read_fields k n d' sch (skip_space l4)
          | _, _ => none

/-- The `while (!feof(fp))` loop of `read_tbl_descs`; the first argument
bounds the number of rounds.  A round ends the function when
`fscanf("%s %d\n")` converts fewer than two items; the loop ends when the
white space after the record count runs to the end of the input. -/
def read_tables (k : consts) : Nat → db → List Char → Option db
  | 0, _, _ => none
  | fuel + 1, d, l =>
    match scan_str l with
    | none => some d
    | some (name, l1) =>
      match scan_int l1 with
      | none => some d
      | some (num_flds, l2) =>
        if num_flds < 0 then none
        else
          match read_fields k num_flds.toNat (new_schema d name).2 (new_schema d name).1
              (skip_space l2) with
          | none => none
          | some (d1, l3) =>
            match deref d1 (new_schema d name).1 with
            | none => none
            | some tb =>
              let d2 : db × List Char :=
                match scan_int l3 with
                | none => (d1, l3)
                | some (n, l4) => (store d1 { tb with num_records := n }, skip_space l4)
              if d2.2 = [] then some d2.1
              else read_tables k fuel d2.1 d2.2

/-- Function `read_tbl_descs` on the text of the catalog file. -/
def read_tbl_descs (k : consts) (d : db) (text : List Char) : Option db :=
  read_tables k (text.length + 1) d text

/-- A name that `%s` writes and reads back: not empty, free of white
space and shorter than 30 characters. -/
def valid_name (s : String) : Bool :=
  !s.data.isEmpty && decide (s.data.length < 30) && s.data.all (fun c => !is_space c)

/-- What the catalog file records of a table: its schema and its record
count. -/
def tbl_view (t : tbl_desc_struct) : schema_struct × Int :=
  (t.sch, t.num_records)

/-- What the catalog round trip asks of a table: its name and its field
names are words `%s` reads back, its schema satisfies the layout
invariants and the capacity invariant, and its integer fields have the
length of an `int`. -/
def saved_ok (k : consts) (t : tbl_desc_struct) : Prop :=
  valid_name t.sch.name = true ∧ layout_ok t.sch ∧ fits_from k 0 t.sch.fields ∧
  ∀ f ∈ t.sch.fields, valid_name f.name = true ∧
    (f.type = field_type.INT_TYPE → f.len = k.INT_SIZE)

instance (k : consts) (t : tbl_desc_struct) : Decidable (saved_ok k t) := by
  unfold saved_ok; infer_instance

/-! ## Append and scan -/

/-- An `int` of `INT_SIZE` bytes holds the value: it lies between
`-256^INT_SIZE / 2` and `256^INT_SIZE / 2 - 1`. -/
def int_in_range (k : consts) (x : Int) : Prop :=
  -(256 : Int) ^ k.INT_SIZE.toNat ≤ 2 * x ∧ 2 * x < (256 : Int) ^ k.INT_SIZE.toNat

instance (k : consts) (x : Int) : Decidable (int_in_range k x) := by
  unfold int_in_range; infer_instance

/-- The value of an integer buffer is that of an `int`. -/
def buf_in_range (k : consts) (b : field_buf) : Prop :=
  match b with
  | field_buf.int_buf x => int_in_range k x
  | field_buf.str_buf _ => True

instance (k : consts) (b : field_buf) : Decidable (buf_in_range k b) := by
  cases b <;> unfold buf_in_range <;> infer_instance

/-- The integer buffers of a record hold values of an `int`. -/
def ints_in_range (k : consts) (r : record) : Prop :=
  ∀ b ∈ r, buf_in_range k b

instance (k : consts) (r : record) : Decidable (ints_in_range k r) := by
  unfold ints_in_range; infer_instance

/-- The bytes `put_page_record` writes for a record, field after field. -/
def rec_bytes (k : consts) : List field_desc → record → List Nat
  | _ :: fds, field_buf.int_buf x :: r => int_to_bytes k.INT_SIZE.toNat x ++ rec_bytes k fds r
  | fd :: fds, field_buf.str_buf bs :: r =>
    (List.range fd.len.toNat).map (fun i => bs.getD i 0) ++ rec_bytes k fds r
  | _, _ => []

/-- What the round trip asks of a schema: the layout invariants, the
capacity invariant, and integer fields of the length of an `int`. -/
def schema_ok (k : consts) (s : schema_struct) : Prop :=
  layout_ok s ∧ fits_from k 0 s.fields ∧
  ∀ f ∈ s.fields, f.type = field_type.INT_TYPE → f.len = k.INT_SIZE

instance (k : consts) (s : schema_struct) : Decidable (schema_ok k s) := by
  unfold schema_ok; infer_instance

/-- A run of `append_record` calls on one table. -/
def append_all (k : consts) : db → List record → Nat → Option db
  | d, [], _ => some d
  | d, r :: rs, s =>
    match append_record k d r s with
    | none => none
    | some d' => append_all k d' rs s

/-- A buffer of the kind of its field: an `int` for an integer field, bytes
for a string field. -/
def buf_kind (fd : field_desc) (b : field_buf) : Bool :=
  match b with
  | field_buf.int_buf _ => is_int_field (some fd)
  | field_buf.str_buf _ => !(is_int_field (some fd))

/-- A record with one buffer of the right kind per field. -/
def kinded : List field_desc → record → Bool
  | [], [] => true
  | fd :: fds, b :: r => buf_kind fd b && kinded fds r
  | _, _ => false


/-- A page holds the records `recs` of a schema: its used part ends
behind `recs.length` record slots, and slot `i` holds the bytes of record
`i`. -/
def page_holds (k : consts) (s : schema_struct) (v : page_struct) (recs : List record) :
    Prop :=
  v.free_pos = k.PAGE_HEADER_SIZE + s.len * (recs.length : Int) ∧
  ∀ (i : Nat) (r : record), recs[i]? = some r →
    page_bytes v (k.PAGE_HEADER_SIZE + s.len * (i : Int)) s.len.toNat = rec_bytes k s.fields r


/-- The file of a table holds the records of `chunks`, one chunk per
block, and no block is empty. -/
def file_holds (k : consts) (s : schema_struct) (pg : pager_state)
    (chunks : List (List record)) : Prop :=
  List.Forall₂ (page_holds k s) (file_blocks pg s.name) chunks ∧ ∀ c ∈ chunks, c ≠ []


/-! ## Scanning a table without fields -/

/-- The scan of a table without fields over a page file that holds
records.  `Person` with its three records is dropped, which leaves its
page file under the name `__Person`; `new_schema("__Person")` makes a table
with no fields over that file and `set_tbl_position(TBL_BEG)` puts its
cursor on block 0.  The result lists the record length of the new schema,
what the page manager says of the cursor position
(`page_valid_pos_for_get`), the value of the read-position check of
`get_page_record` (`none` for a division by zero), and whether `get_record`
returns. -/
def zero_len_scan : Option (Int × Bool × Option Bool × Bool) :=
  match person_db with
  | none => none
  | some (t, d) =>
    let r := new_schema (remove_table d (some t)) "__Person"
    match set_tbl_position k0 r.2 r.1 tbl_position.TBL_BEG with
    | none => none
    | some d1 =>
      match deref d1 r.1 with
      | none => none
      | some tb =>
        match tb.current_pg with
        | none => none
        | some pg =>
          match page_at d1.pager pg with
          | none => none
          | some v =>
            some (tb.sch.len, page_valid_pos_for_get k0 v v.current_pos,
              page_valid_pos_for_get_with_schema k0 v tb.sch,
              (get_record k0 d1 (new_record tb.sch) r.1).isSome)


/-! ## The arithmetic of `int` and the buffer of `concat_names` -/

/-- The value an `int` of `INT_SIZE` bytes holds after a sum: a sum that
leaves the range of `int` wraps around (two's complement).  C leaves signed
overflow undefined; this is what the compiled code does. -/
def int_wrap (k : consts) (x : Int) : Int :=
  (x + (256 : Int) ^ k.INT_SIZE.toNat / 2) % (256 : Int) ^ k.INT_SIZE.toNat -
    (256 : Int) ^ k.INT_SIZE.toNat / 2

/-- Function `add_field` with the sums `s->len + f->len`, `s->num_fields++` and
`s->len += f->len` computed in `int`.  It is `add_field` wherever the sums
stay in the range of `int`. -/
def add_field_int (k : consts) (s : schema_p) (f : field_desc) : Option (Int × schema_p) :=
  match s with
  | none => some (0, none)
  | some s =>
    if int_wrap k (s.len + f.len) > k.BLOCK_SIZE - k.PAGE_HEADER_SIZE then
      some (0, some s)
    else if s.num_fields = 0 then
      some (int_wrap k (s.num_fields + 1),
        some { s with fields := [{ f with offset := 0 }],
                      num_fields := int_wrap k (s.num_fields + 1),
                      len := int_wrap k (s.len + f.len) })
    else
      match s.fields with
      | [] => none
      | _ :: _ =>
        some (int_wrap k (s.num_fields + 1),
          some { s with fields := s.fields ++ [{ f with offset := s.len }],
                        num_fields := int_wrap k (s.num_fields + 1),
                        len := int_wrap k (s.len + f.len) })

/-- A run of `add_field` calls on one schema, in `int` arithmetic. -/
def add_fields_int (k : consts) : schema_p → List field_desc → Option schema_p
  | s, [] => some s
  | s, f :: fs =>
    match add_field_int k s f with
    | none => none
    | some (_, s') => add_fields_int k s' fs

/-- The size of a `char *` (a 64-bit platform). -/
def sizeof_ptr : Nat := 8

/-- The bytes `concat_names` allocates:
`(sizeof name1) + (sizeof sep) + (sizeof name2) + 1`, the sizes of three
pointers and one byte, whatever the strings are. -/
def concat_names_buf : Nat := sizeof_ptr + sizeof_ptr + sizeof_ptr + 1

/-- Function `concat_names` with its buffer: the joined string, or `none` when
`strcpy` and `strcat` write past the end of the buffer (the string and its
terminating NUL need more than `concat_names_buf` bytes). -/
def concat_names_in_buf (name1 sep name2 : String) : Option String :=
  if (cstr (concat_names name1 sep name2)).length + 1 ≤ concat_names_buf then
    some (concat_names name1 sep name2)
  else none

/-- Function `remove_table` with the buffer of `concat_names`: `none` when the
backup name does not fit it. -/
def remove_table_in_buf (d : db) (t : tbl_p) : Option db :=
  match t with
  | none => some d
  | some a =>
    match deref d a with
    | none => some d
    | some tb =>
      match concat_names_in_buf "_" "_" tb.sch.name with
      | none => none
      | some _ => some (remove_table d (some a))

/-- The schema `Organization{id}`. -/
def org : schema_struct :=
  { name := "Organization", fields := [new_int_field k0 "id"], num_fields := 1, len := 4 }

/-- A database whose catalog holds the empty table `Organization`. -/
def org_only : db :=
  { db_tables := [{ addr := 1, sch := org, num_records := 0, current_pg := none }],
    pager := { files := [] } }

/-- A database whose catalog holds the empty table
`OrganizationMemberships{id}`, a name of 23 characters. -/
def memberships_only : db :=
  { db_tables := [{ addr := 1, sch := { org with name := "OrganizationMemberships" },
                    num_records := 0, current_pg := none }],
    pager := { files := [] } }

/-- The field loop of `get_page_record` as line 587 of the source has it.
For an integer field the source passes `field_desc_p(p)` to
`assign_int_field`: the name of a pointer type applied to the page, not a
call of the page manager, so nothing is read from the page and its position
does not move.  `page_word` stands for the `int` that expression yields
(the page pointer converted). -/
def get_fields_as_written (page_word : Int) : List field_desc → record → page_struct →
    Option (record × page_struct)
  | [], r, v => some (r, v)
  | fd :: fds, b :: r, v =>
    if is_int_field (some fd) then
      match assign_int_field b page_word with
      | none => none
      | some b' =>
        match get_fields_as_written page_word fds r v with
        | none => none
        | some (r', v') => some (b' :: r', v')
    else
      match b with
      | field_buf.int_buf _ => none
      | field_buf.str_buf _ =>
        match get_fields_as_written page_word fds r (page_get_str v fd.len).2 with
        | none => none
        | some (r', v') => some (field_buf.str_buf (page_get_str v fd.len).1 :: r', v')
  | _ :: _, [], _ => none

/-- Block 0 of the file of `Person` after `append_record` of `(1, "Anna")`
to the empty table and `set_tbl_position(TBL_BEG)`. -/
def anna_page : Option page_struct :=
  match append_record k0 person_only anna 1 with
  | none => none
  | some d1 =>
    match set_tbl_position k0 d1 1 tbl_position.TBL_BEG with
    | none => none
    | some d2 => page_at d2.pager { fname := "Person", block_nr := 0 }

/-- The first read of the scan of `Person` holding `(1, "Anna")`, with the
field loop as the source has it: the record handed back, the position the
page is left at, and what the read-position check says there. -/
def anna_as_written (page_word : Int) : Option (record × Int × Option Bool) :=
  match anna_page with
  | none => none
  | some v =>
    match page_valid_pos_for_get_with_schema k0 v person with
    | some true =>
      match get_fields_as_written page_word person.fields person_blank v with
      | none => none
      | some (r, v') =>
        some (r, v'.current_pos, page_valid_pos_for_get_with_schema k0 v' person)
    | _ => none

/-! ## Theorems -/

/-! ### Helper lemmas about the layout -/

theorem sum_len_append (xs ys : List field_desc) :
    sum_len (xs ++ ys) = sum_len xs + sum_len ys := by
  simp [sum_len]

theorem packed_nil (s : schema_struct) (h : s.fields = []) : packed s := by
  intro i hi
  rw [h] at hi
  simp at hi

theorem packed_append (s : schema_struct) (g : field_desc)
    (hp : packed s) (hg : g.offset = sum_len s.fields) :
    packed { s with fields := s.fields ++ [g] } := by
  intro i hi
  simp only [List.length_append, List.length_singleton] at hi
  by_cases hlt : i < s.fields.length
  · have h1 := hp i hlt
    simp only [List.get_eq_getElem] at h1 ⊢
    rw [List.getElem_append_left hlt, List.take_append_of_le_length (Nat.le_of_lt hlt)]
    exact h1
  · have hi2 : i = s.fields.length := by omega
    subst hi2
    simp only [List.get_eq_getElem]
    rw [List.getElem_append_right (Nat.le_refl _)]
    simp [hg]

theorem add_field_layout (k : consts) (s : schema_struct) (f : field_desc)
    (h : layout_ok s) :
    ∃ n s', add_field k (some s) f = some (n, some s') ∧ layout_ok s' := by
  obtain ⟨hc, hl, hp⟩ := h
  unfold counted at hc
  by_cases hrej : s.len + f.len > k.BLOCK_SIZE - k.PAGE_HEADER_SIZE
  · exact ⟨0, s, by simp [add_field, hrej], hc, hl, hp⟩
  · by_cases h0 : s.num_fields = 0
    · have hnil : s.fields = [] := by
        rw [h0] at hc
        exact List.length_eq_zero.mp (by exact_mod_cast hc.symm)
      have hlen0 : s.len = 0 := by rw [hl, hnil]; rfl
      refine ⟨s.num_fields + 1, _, by simp only [add_field, hrej, h0]; rfl, ?_, ?_, ?_⟩
      · simp [counted, h0]
      · simp [sum_len, hlen0]
      · intro i hi
        have hi0 : i = 0 := by simpa using hi
        subst hi0
        simp [sum_len]
    · cases hf : s.fields with
      | nil => rw [hf] at hc; simp at hc; exact absurd hc h0
      | cons a as =>
        refine ⟨s.num_fields + 1, _, by simp only [add_field, hrej, h0, hf]; rfl, ?_, ?_, ?_⟩
        · simp only [counted, List.length_append, List.length_singleton]
          rw [hc, hf]; push_cast; rfl
        · show s.len + f.len = sum_len ((a :: as) ++ [{ f with offset := s.len }])
          rw [sum_len_append, ← hf, ← hl]; simp [sum_len]
        · have := packed_append s { f with offset := s.len } hp hl
          rw [hf] at this
          exact this

theorem add_fields_layout (k : consts) (fs : List field_desc) :
    ∀ s : schema_struct, layout_ok s →
      ∃ s', add_fields k (some s) fs = some (some s') ∧ layout_ok s' := by
  induction fs with
  | nil => intro s h; exact ⟨s, rfl, h⟩
  | cons f fs ih =>
    intro s h
    obtain ⟨n, s1, h1, hl1⟩ := add_field_layout k s f h
    obtain ⟨s2, h2, hl2⟩ := ih s1 hl1
    exact ⟨s2, by simp only [add_fields, h1]; exact h2, hl2⟩

/-! ### A successful `add_field`, with exact sums -/

/-- With exact sums: for a schema `s` whose `len` is the sum of its fields' lengths
(and whose `num_fields` counts its fields), `add_field` returns, and when
the returned value is non-zero the field was appended as the last field
with offset equal to the old `s.len`, the new `len` is the sum of the
lengths of all fields now in the schema, i.e. the old `len` plus `f.len`,
and the returned value is the new `num_fields`, the old one plus 1. -/
theorem add_field_success (k : consts) (s : schema_struct) (f : field_desc)
    (hc : counted s) (hl : s.len = sum_len s.fields) :
    ∃ n s', add_field k (some s) f = some (n, some s') ∧
      (n ≠ 0 →
        s'.fields = s.fields ++ [{ f with offset := s.len }] ∧
        s'.fields.getLast? = some { f with offset := s.len } ∧
        s'.len = sum_len s'.fields ∧
        s'.len = s.len + f.len ∧
        n = s'.num_fields ∧
        s'.num_fields = s.num_fields + 1) := by
  unfold counted at hc
  by_cases hrej : s.len + f.len > k.BLOCK_SIZE - k.PAGE_HEADER_SIZE
  · exact ⟨0, s, by simp [add_field, hrej], fun h => absurd rfl h⟩
  · by_cases h0 : s.num_fields = 0
    · have hnil : s.fields = [] := by
        rw [h0] at hc
        exact List.length_eq_zero.mp (by exact_mod_cast hc.symm)
      have hlen0 : s.len = 0 := by rw [hl, hnil]; rfl
      refine ⟨s.num_fields + 1, _, by simp only [add_field, hrej, h0]; rfl, fun _ => ?_⟩
      simp [hnil, hlen0, sum_len, h0]
    · cases hf : s.fields with
      | nil => rw [hf] at hc; simp at hc; exact absurd hc h0
      | cons a as =>
        refine ⟨s.num_fields + 1, _, by simp only [add_field, hrej, h0, hf]; rfl, fun _ => ?_⟩
        refine ⟨by simp, ?_, ?_, rfl, rfl, rfl⟩
        · show ((a :: as) ++ [{ f with offset := s.len }]).getLast? = _
          exact List.getLast?_concat _
        · show s.len + f.len = sum_len ((a :: as) ++ [{ f with offset := s.len }])
          rw [sum_len_append, ← hf, ← hl]; simp [sum_len]

/-- Example: adding `name : string(20)` to `Person{id}` succeeds with
return value 2, and the theorem applies to that call. -/
theorem add_field_success_witness :
    counted person_id ∧ person_id.len = sum_len person_id.fields ∧
    add_field k0 (some person_id) (new_str_field "name" 20) =
      some (2, some { name := "Person",
                      fields := [new_int_field k0 "id",
                                 { new_str_field "name" 20 with offset := 4 }],
                      num_fields := 2, len := 24 }) ∧
    ∃ n s', add_field k0 (some person_id) (new_str_field "name" 20) = some (n, some s') ∧
      (n ≠ 0 →
        s'.fields = person_id.fields ++ [{ new_str_field "name" 20 with offset := person_id.len }] ∧
        s'.fields.getLast? = some { new_str_field "name" 20 with offset := person_id.len } ∧
        s'.len = sum_len s'.fields ∧
        s'.len = person_id.len + (new_str_field "name" 20).len ∧
        n = s'.num_fields ∧
        s'.num_fields = person_id.num_fields + 1) :=
  ⟨by decide, by decide, by decide,
   add_field_success k0 person_id (new_str_field "name" 20) (by decide) (by decide)⟩

/-! ### Rejection by `add_field`, with exact sums -/

/-- With exact sums: on a non-null schema (whose `num_fields` counts its fields)
`add_field` returns 0 exactly when
`s.len + f.len + PAGE_HEADER_SIZE > BLOCK_SIZE`; when it returns 0 the
schema is unchanged, and otherwise the returned value is strictly
positive. -/
theorem add_field_reject_iff (k : consts) (s : schema_struct) (f : field_desc)
    (hc : counted s) :
    ∃ n s', add_field k (some s) f = some (n, some s') ∧
      (n = 0 ↔ s.len + f.len + k.PAGE_HEADER_SIZE > k.BLOCK_SIZE) ∧
      (n = 0 → s' = s) ∧
      (n ≠ 0 → 0 < n) := by
  unfold counted at hc
  have hnn : 0 ≤ s.num_fields := by rw [hc]; exact Int.natCast_nonneg _
  by_cases hrej : s.len + f.len > k.BLOCK_SIZE - k.PAGE_HEADER_SIZE
  · refine ⟨0, s, by simp [add_field, hrej], ?_, fun _ => rfl, fun h => absurd rfl h⟩
    constructor
    · intro _; omega
    · intro _; rfl
  · have hpos : s.num_fields + 1 ≠ 0 := by omega
    have hiff : (s.num_fields + 1 = 0 ↔ s.len + f.len + k.PAGE_HEADER_SIZE > k.BLOCK_SIZE) := by
      constructor
      · intro h; exact absurd h hpos
      · intro h; exfalso; omega
    by_cases h0 : s.num_fields = 0
    · exact ⟨s.num_fields + 1, _, by simp only [add_field, hrej, h0]; rfl, hiff,
        fun h => absurd h hpos, fun _ => by omega⟩
    · cases hf : s.fields with
      | nil => rw [hf] at hc; simp at hc; exact absurd hc h0
      | cons a as =>
        exact ⟨s.num_fields + 1, _, by simp only [add_field, hrej, h0, hf]; rfl, hiff,
          fun h => absurd h hpos, fun _ => by omega⟩

/-- Example: a 489-byte string field does not fit next to the 4-byte
`id` in a 512-byte block with a 20-byte header (4 + 489 + 20 = 513), and
the call returns 0 without touching the schema. -/
theorem add_field_reject_iff_witness :
    counted person_id ∧
    add_field k0 (some person_id) (new_str_field "blob" 489) = some (0, some person_id) ∧
    ∃ n s', add_field k0 (some person_id) (new_str_field "blob" 489) = some (n, some s') ∧
      (n = 0 ↔ person_id.len + (new_str_field "blob" 489).len + k0.PAGE_HEADER_SIZE
                > k0.BLOCK_SIZE) ∧
      (n = 0 → s' = person_id) ∧
      (n ≠ 0 → 0 < n) :=
  ⟨by decide, by decide, add_field_reject_iff k0 person_id (new_str_field "blob" 489) (by decide)⟩

/-! ### The packed-layout invariant, with exact sums -/

theorem deref_new_schema (d : db) (name : String) :
    deref (new_schema d name).2 (new_schema d name).1 =
      some { addr := fresh_addr d, sch := make_schema name,
             num_records := 0, current_pg := none } := by
  simp [deref, new_schema, List.find?]

/-- With exact sums and fresh descriptors: every schema obtained from `new_schema` by a finite sequence of
`add_field` calls, accepted or rejected, has its first field at offset 0,
every field at the sum of the lengths of the fields before it,
`num_fields` equal to the number of fields in its list and `len` equal to
the sum of all field lengths; none of the calls fails. -/
theorem packed_layout_invariant (k : consts) (d : db) (name : String)
    (fs : List field_desc) :
    ∃ tb, deref (new_schema d name).2 (new_schema d name).1 = some tb ∧
      ∃ s, add_fields k (some tb.sch) fs = some (some s) ∧
        (∀ h : 0 < s.fields.length, (s.fields.get ⟨0, h⟩).offset = 0) ∧
        (∀ (i : Nat) (h : i < s.fields.length),
          (s.fields.get ⟨i, h⟩).offset = sum_len (s.fields.take i)) ∧
        s.num_fields = (s.fields.length : Int) ∧
        s.len = sum_len s.fields := by
  refine ⟨_, deref_new_schema d name, ?_⟩
  have hinit : layout_ok (make_schema name) :=
    ⟨rfl, rfl, packed_nil _ rfl⟩
  obtain ⟨s, hs, hc, hl, hp⟩ := add_fields_layout k fs (make_schema name) hinit
  refine ⟨s, hs, ?_, hp, hc, hl⟩
  intro h
  have := hp 0 h
  simpa [sum_len] using this

/-! ### Helper lemmas about `strcmp` and `equal_record` -/

theorem strcmp_self (a : List Nat) : strcmp a a = 0 := by
  induction a with
  | nil => rfl
  | cons x xs ih => simp [strcmp, ih]

theorem strcmp_eq_zero_iff (a b : List Nat) :
    strcmp a b = 0 ↔ c_string a = c_string b := by
  induction a generalizing b with
  | nil =>
    cases b with
    | nil => simp [strcmp]
    | cons y ys =>
      by_cases hy : y = 0
      · simp [strcmp, c_string, hy]
      · simp [strcmp, c_string, hy]
  | cons x xs ih =>
    cases b with
    | nil =>
      by_cases hx : x = 0
      · simp [strcmp, c_string, hx]
      · simp [strcmp, c_string, hx]
    | cons y ys =>
      by_cases hxy : x = y
      · subst hxy
        by_cases hx : x = 0
        · simp [strcmp, c_string, hx]
        · have := ih ys
          simp [strcmp, c_string, hx] at this ⊢
          exact this
      · have hne : (x : Int) - (y : Int) ≠ 0 := by omega
        by_cases hx : x = 0
        · have hy : y ≠ 0 := fun h => hxy (by rw [hx, h])
          simp [strcmp, c_string, hx, hy, hxy]
          omega
        · by_cases hy : y = 0
          · simp [strcmp, c_string, hx, hy, hxy]
          · simp [strcmp, c_string, hx, hy, hxy, hne]

theorem equal_fields_refl (fds : List field_desc) :
    ∀ r : record, filled fds r = true → equal_fields fds r r = some 1 := by
  induction fds with
  | nil => intro r _; rfl
  | cons fd fds ih =>
    intro r h
    cases r with
    | nil => simp [filled] at h
    | cons b r =>
      simp only [filled, Bool.and_eq_true] at h
      obtain ⟨hb, hr⟩ := h
      cases b with
      | int_buf v =>
        simp only [buf_filled] at hb
        simp [equal_fields, hb, ih r hr]
      | str_buf bs =>
        simp only [buf_filled, Bool.and_eq_true, Bool.not_eq_true'] at hb
        simp [equal_fields, hb.1.1, strcmp_self, ih r hr]

theorem equal_fields_iff (fds : List field_desc) :
    ∀ r1 r2 : record, filled fds r1 = true → filled fds r2 = true →
      (equal_fields fds r1 r2 = some 1 ∨ equal_fields fds r1 r2 = some 0) ∧
      (equal_fields fds r1 r2 = some 1 ↔ same_values fds r1 r2) := by
  induction fds with
  | nil => intro r1 r2 _ _; simp [equal_fields, same_values]
  | cons fd fds ih =>
    intro r1 r2 h1 h2
    cases r1 with
    | nil => simp [filled] at h1
    | cons b1 r1 =>
      cases r2 with
      | nil => simp [filled] at h2
      | cons b2 r2 =>
        simp only [filled, Bool.and_eq_true] at h1 h2
        obtain ⟨hb1, hr1⟩ := h1
        obtain ⟨hb2, hr2⟩ := h2
        obtain ⟨ihv, ihi⟩ := ih r1 r2 hr1 hr2
        cases b1 with
        | int_buf x =>
          cases b2 with
          | int_buf y =>
            simp only [buf_filled] at hb1
            by_cases hxy : x = y
            · simp only [equal_fields, hb1, hxy, same_values, same_value, ne_eq, not_true_eq_false,
                if_true, if_false, true_and]
              exact ⟨ihv, ihi⟩
            · simp [equal_fields, hb1, hxy, same_values, same_value]
          | str_buf y =>
            simp only [buf_filled, Bool.and_eq_true, Bool.not_eq_true'] at hb1 hb2
            rw [hb1] at hb2
            simp at hb2
        | str_buf x =>
          cases b2 with
          | int_buf y =>
            simp only [buf_filled, Bool.and_eq_true, Bool.not_eq_true'] at hb1 hb2
            rw [hb2] at hb1
            simp at hb1
          | str_buf y =>
            simp only [buf_filled, Bool.and_eq_true, Bool.not_eq_true'] at hb1
            by_cases hxy : strcmp x y = 0
            · have hc := (strcmp_eq_zero_iff x y).mp hxy
              simp only [equal_fields, hb1.1.1, hxy, same_values, same_value, hc, ne_eq,
                not_true_eq_false, if_false, true_and, Bool.false_eq_true]
              exact ⟨ihv, ihi⟩
            · have hc : ¬ c_string x = c_string y :=
                fun h => hxy ((strcmp_eq_zero_iff x y).mpr h)
              simp [equal_fields, hb1.1.1, hxy, same_values, same_value, hc]

/-! ### C9 – `equal_record` is reflexive -/

/-- C9: for a non-null schema `s` and a non-null record `r` shaped by
`s` and filled (integer buffers set, string buffers holding a
NUL-terminated string), `equal_record(r, r, s)` returns 1. -/
theorem equal_record_refl (s : schema_struct) (r : record)
    (h : filled s.fields r = true) :
    equal_record (some r) (some r) (some s) = some 1 := by
  simp only [equal_record]
  exact equal_fields_refl s.fields r h

/-- Witness for C9: the record `(2, "Bo")` of `Person`. -/
theorem equal_record_refl_witness :
    filled person.fields bo_over_anna = true ∧
    equal_record (some bo_over_anna) (some bo_over_anna) (some person) = some 1 :=
  ⟨by decide, equal_record_refl person bo_over_anna (by decide)⟩

/-! ### C10 – what `equal_record` compares -/

/-- C10, as the code has it: for records `r1`, `r2` shaped by `s` and
filled, `equal_record` returns 1 or 0, and it returns 1 if and only if
every integer field has the same value in both and every string field
holds the same NUL-terminated string in both (the bytes up to the first
NUL agree); bytes behind the terminator are not compared. -/
theorem equal_record_iff_same_values (s : schema_struct) (r1 r2 : record)
    (h1 : filled s.fields r1 = true) (h2 : filled s.fields r2 = true) :
    (equal_record (some r1) (some r2) (some s) = some 1 ∨
      equal_record (some r1) (some r2) (some s) = some 0) ∧
    (equal_record (some r1) (some r2) (some s) = some 1 ↔ same_values s.fields r1 r2) := by
  simp only [equal_record]
  exact equal_fields_iff s.fields r1 r2 h1 h2

/-- Witness for C10 as amended, at two records of `Person`. -/
theorem equal_record_iff_same_values_witness :
    filled person.fields bo_over_anna = true ∧ filled person.fields bo_fresh = true ∧
    (equal_record (some bo_over_anna) (some bo_fresh) (some person) = some 1 ∨
      equal_record (some bo_over_anna) (some bo_fresh) (some person) = some 0) ∧
    (equal_record (some bo_over_anna) (some bo_fresh) (some person) = some 1 ↔
      same_values person.fields bo_over_anna bo_fresh) :=
  ⟨by decide, by decide,
   equal_record_iff_same_values person bo_over_anna bo_fresh (by decide) (by decide)⟩

/-- Counterexample to C10 as stated: `fill_record` writes `(2, "Bo")`
once over buffers that held `(1, "Anna")` and once into zeroed buffers;
the two records are shaped by `Person` and filled, their `name` buffers
differ in the fourth of their 20 declared bytes, and `equal_record`
returns 1. -/
theorem equal_record_ignores_bytes_behind_nul :
    fill_record (some person_blank) (some person)
      [field_val.int_val 1, field_val.str_val (cstr "Anna")] = some (1, some anna) ∧
    fill_record (some anna) (some person)
      [field_val.int_val 2, field_val.str_val (cstr "Bo")] = some (1, some bo_over_anna) ∧
    fill_record (some person_blank) (some person)
      [field_val.int_val 2, field_val.str_val (cstr "Bo")] = some (1, some bo_fresh) ∧
    filled person.fields bo_over_anna = true ∧ filled person.fields bo_fresh = true ∧
    equal_record (some bo_over_anna) (some bo_fresh) (some person) = some 1 ∧
    ¬ same_bytes person.fields bo_over_anna bo_fresh := by
  refine ⟨by decide, by decide, by decide, by decide, by decide, by decide, by decide⟩

/-! ### C5 – the operator dispatch of `table_search` -/

/-- C5, evaluated on the code: after the four `strcmp` tests `cmp_op`
holds `int_lessequal` for the operator `"="` and the null pointer for
`"<="`, `">="` and `"!="`; and whatever value a string comparison returns
for unequal strings, as long as it returns 0 for equal ones, `"<="` is not
bound to `int_lessequal`, `">="` not to `int_greatequal` and `"!="` not to
`int_unequal`, while `"="` is not bound to `int_equal` as soon as the
comparison returns 1 for `"="` against `"<="` or against `"!="`. -/
theorem table_search_cmp_op_eval :
    table_search_cmp_op "=" = some cmp_fn.int_lessequal ∧
    table_search_cmp_op "<=" = none ∧
    table_search_cmp_op ">=" = none ∧
    table_search_cmp_op "!=" = none ∧
    (∀ sc : List Nat → List Nat → Int, sc (cstr "<=") (cstr "<=") = 0 →
      cmp_op_with sc "<=" ≠ some cmp_fn.int_lessequal) ∧
    (∀ sc : List Nat → List Nat → Int, sc (cstr ">=") (cstr ">=") = 0 →
      cmp_op_with sc ">=" ≠ some cmp_fn.int_greatequal) ∧
    (∀ sc : List Nat → List Nat → Int, sc (cstr "!=") (cstr "!=") = 0 →
      cmp_op_with sc "!=" ≠ some cmp_fn.int_unequal) ∧
    (∀ sc : List Nat → List Nat → Int,
      sc (cstr "=") (cstr "<=") = 1 ∨ sc (cstr "=") (cstr "!=") = 1 →
      cmp_op_with sc "=" ≠ some cmp_fn.int_equal) := by
  refine ⟨by decide, by decide, by decide, by decide, ?_, ?_, ?_, ?_⟩
  · intro sc h
    simp only [cmp_op_with, h]
    split_ifs <;> simp_all
  · intro sc h
    simp only [cmp_op_with, h]
    split_ifs <;> simp_all
  · intro sc h
    simp only [cmp_op_with, h]
    split_ifs <;> simp_all
  · intro sc h
    simp only [cmp_op_with]
    rcases h with h | h
    · simp only [h]
      split_ifs <;> simp_all
    · simp only [h]
      split_ifs <;> simp_all

/-! ### C4 – selection with `=` -/

/-- C4, evaluated on the code: on `Person` holding `(1, "Ann")`,
`(2, "Bo")`, `(3, "Cy")`, `table_search(Person, "id", "=", 2)` returns a
table with the two records `(2, "Bo")` and `(3, "Cy")`. -/
theorem table_search_equal_eval :
    person_select "id" "=" 2 = some [some (2, cstr "Bo"), some (3, cstr "Cy")] := by
  decide

/-! ### C6 – the comparison in `find_record_int_val` -/

/-- C6, evaluated on the code: scanning `Person` from its beginning with
`int_greatequal` and the value 2, `find_record_int_val` finds `(1, "Ann")`,
then `(2, "Bo")`, then returns 0: it calls the comparison with the query
value on the left, `op(val, rec_val)`. -/
theorem find_record_int_val_greatequal_eval :
    person_find_all cmp_fn.int_greatequal 2 =
      some [some (1, cstr "Ann"), some (2, cstr "Bo")] := by
  decide

/-! ### C7 – unknown operators -/

/-- C7, evaluated on the code: the string `"<>"` is none of the four
operators, yet the dispatch binds it to `int_lessequal`, and
`table_search(Person, "id", "<>", 2)` returns a non-null table and leaves
a new table `select__Person_0` in the catalog. -/
theorem table_search_unknown_operator_eval :
    table_search_cmp_op "<>" = some cmp_fn.int_lessequal ∧
    person_select_catalog "id" "<>" 2 = some (some 2, ["select__Person_0", "Person"]) := by
  constructor <;> decide

/-! ### C8 – selection on a field that is not an integer field -/

theorem find_int_attr_none (fs : List field_desc) (attr : String)
    (h : (fs.find? (fun f => strcmp (cstr f.name) (cstr attr) == 0)) = none ∨
      ∃ f, (fs.find? (fun f => strcmp (cstr f.name) (cstr attr) == 0)) = some f ∧
        f.type ≠ field_type.INT_TYPE) :
    find_int_attr fs attr = none := by
  induction fs with
  | nil => rfl
  | cons g gs ih =>
    by_cases hg : strcmp (cstr g.name) (cstr attr) = 0
    · have hb : (strcmp (cstr g.name) (cstr attr) == 0) = true := by simp [hg]
      rcases h with h | ⟨f, hf, hty⟩
      · simp [List.find?, hb] at h
      · simp only [List.find?, hb, Option.some.injEq] at hf
        subst hf
        simp [find_int_attr, hg, hty]
    · have hb : (strcmp (cstr g.name) (cstr attr) == 0) = false := by simp [hg]
      simp only [List.find?, hb] at h
      simp only [find_int_attr, hg, if_false]
      exact ih h

/-- C8: for a table of the catalog and any operator string (the four
supported ones included), when `attr` names no field of the table, or the
field it names is not an integer field, `table_search` returns the null
table and the state after the call is the state before it: no result
schema is created and no page is read or written. -/
theorem table_search_non_int_attr (k : consts) (fuel : Nat) (d : db) (a : Nat)
    (tb : tbl_desc_struct) (attr op : String) (val : Int)
    (ht : deref d a = some tb)
    (hattr : get_field tb.sch attr = none ∨
      ∃ f, get_field tb.sch attr = some f ∧ f.type ≠ field_type.INT_TYPE) :
    table_search k fuel d (some a) attr op val = some (none, d) := by
  have hnone := find_int_attr_none tb.sch.fields attr hattr
  unfold table_search
  cases hop : table_search_cmp_op op with
  | none => rfl
  | some c => simp only [ht, hnone]

/-- Witness for C8: `name` is a string field of `Person`, and `zip` is not
a field of it. -/
theorem table_search_non_int_attr_witness :
    deref person_only 1 = some person_tbl ∧
    (∃ f, get_field person_tbl.sch "name" = some f ∧ f.type ≠ field_type.INT_TYPE) ∧
    get_field person_tbl.sch "zip" = none ∧
    table_search k0 10 person_only (some 1) "name" "=" 2 = some (none, person_only) ∧
    table_search k0 10 person_only (some 1) "zip" "=" 2 = some (none, person_only) :=
  ⟨by decide, ⟨{ new_str_field "name" 20 with offset := 4 }, by decide, by decide⟩, by decide,
   table_search_non_int_attr k0 10 person_only 1 person_tbl "name" "=" 2 (by decide)
     (Or.inr ⟨{ new_str_field "name" 20 with offset := 4 }, by decide, by decide⟩),
   table_search_non_int_attr k0 10 person_only 1 person_tbl "zip" "=" 2 (by decide)
     (Or.inl (by decide))⟩

/-! ### Helper lemmas about C strings and decimal numerals -/

theorem cstr_append (a b : String) : cstr (a ++ b) = cstr a ++ cstr b := by
  simp [cstr]

theorem c_string_of_no_nul (l : List Nat) (h : 0 ∉ l) : c_string l = l := by
  unfold c_string
  rw [List.takeWhile_eq_self_iff]
  intro x hx
  have : x ≠ 0 := fun h0 => h (h0 ▸ hx)
  simp [this]

theorem digitChar_toNat (m : Nat) (h : m < 10) : (Nat.digitChar m).toNat = m + 48 := by
  interval_cases m <;> rfl

theorem toDigitsCore_decode (fuel : Nat) :
    ∀ (n : Nat) (ds : List Char), n < fuel →
      ((Nat.toDigitsCore 10 fuel n ds).map Char.toNat).foldl (fun a c => 10 * a + (c - 48)) 0 =
        (ds.map Char.toNat).foldl (fun a c => 10 * a + (c - 48)) n := by
  induction fuel with
  | zero => intro n ds h; omega
  | succ fuel ih =>
    intro n ds h
    have hd : (Nat.digitChar (n % 10)).toNat = n % 10 + 48 :=
      digitChar_toNat _ (Nat.mod_lt _ (by decide))
    simp only [Nat.toDigitsCore]
    split_ifs with h0
    · simp only [List.map_cons, List.foldl_cons, hd]
      congr 1
      omega
    · rw [ih (n / 10) _ (by omega)]
      simp only [List.map_cons, List.foldl_cons, hd]
      congr 1
      omega

theorem toDigitsCore_no_nul (fuel : Nat) :
    ∀ (n : Nat) (ds : List Char), (∀ c ∈ ds, c.toNat ≠ 0) →
      ∀ c ∈ Nat.toDigitsCore 10 fuel n ds, c.toNat ≠ 0 := by
  induction fuel with
  | zero => intro n ds h; simpa [Nat.toDigitsCore] using h
  | succ fuel ih =>
    intro n ds h
    have hd : (Nat.digitChar (n % 10)).toNat ≠ 0 := by
      rw [digitChar_toNat _ (Nat.mod_lt _ (by decide))]; omega
    have hcons : ∀ c ∈ Nat.digitChar (n % 10) :: ds, c.toNat ≠ 0 := by
      intro c hc
      rcases List.mem_cons.mp hc with rfl | hc
      · exact hd
      · exact h c hc
    simp only [Nat.toDigitsCore]
    split_ifs with h0
    · exact hcons
    · exact ih _ _ hcons

theorem cstr_toString_decode (i : Nat) :
    (cstr (toString i)).foldl (fun a c => 10 * a + (c - 48)) 0 = i := by
  have := toDigitsCore_decode (i + 1) i [] (by omega)
  simpa [cstr, toString, Nat.repr, Nat.toDigits] using this

theorem cstr_toString_injective (i j : Nat) (h : cstr (toString i) = cstr (toString j)) :
    i = j := by
  rw [← cstr_toString_decode i, ← cstr_toString_decode j, h]

theorem is_c_string_toString (i : Nat) : is_c_string (toString i) := by
  unfold is_c_string
  intro h
  simp only [cstr, toString, Nat.repr, Nat.toDigits, List.mem_map] at h
  obtain ⟨c, hc, h0⟩ := h
  exact toDigitsCore_no_nul (i + 1) i [] (by simp) c (by simpa using hc) h0

theorem is_c_string_tmp_name (op_name name : String) (i : Nat)
    (hop : is_c_string op_name) (hname : is_c_string name) :
    is_c_string (tmp_name op_name name i) := by
  have hi := is_c_string_toString i
  unfold is_c_string at *
  simp only [tmp_name, cstr_append, List.mem_append, not_or]
  exact ⟨⟨⟨⟨hop, by decide⟩, hname⟩, by decide⟩, hi⟩

theorem tmp_name_key_injective (op_name name : String)
    (hop : is_c_string op_name) (hname : is_c_string name) (i j : Nat)
    (h : c_string (cstr (tmp_name op_name name i)) = c_string (cstr (tmp_name op_name name j))) :
    i = j := by
  rw [c_string_of_no_nul _ (is_c_string_tmp_name op_name name i hop hname),
    c_string_of_no_nul _ (is_c_string_tmp_name op_name name j hop hname)] at h
  simp only [tmp_name, cstr_append, List.append_assoc] at h
  have h1 := List.append_cancel_left h
  have h2 := List.append_cancel_left h1
  have h3 := List.append_cancel_left h2
  have h4 := List.append_cancel_left h3
  exact cstr_toString_injective i j h4

theorem get_schema_isSome_iff (d : db) (x : String) :
    (get_schema d x).isSome = true ↔
      ∃ t ∈ d.db_tables, strcmp (cstr x) (cstr t.sch.name) = 0 := by
  have hgs : (get_schema d x).isSome = (get_table d x).isSome := by
    unfold get_schema; cases get_table d x <;> rfl
  rw [hgs]
  unfold get_table
  rw [Option.isSome_map', List.find?_isSome]
  constructor
  · rintro ⟨t, ht, h⟩
    exact ⟨t, ht, by simpa using h⟩
  · rintro ⟨t, ht, h⟩
    exact ⟨t, ht, by simpa using h⟩

theorem get_schema_isSome_names (d1 d2 : db) (x : String)
    (h : d1.db_tables.map (fun t => t.sch.name) = d2.db_tables.map (fun t => t.sch.name)) :
    (get_schema d1 x).isSome = (get_schema d2 x).isSome := by
  have key : ∀ d : db, ((get_schema d x).isSome = true ↔
      ∃ n ∈ d.db_tables.map (fun t => t.sch.name), strcmp (cstr x) (cstr n) = 0) := by
    intro d
    rw [get_schema_isSome_iff]
    simp only [List.mem_map]
    constructor
    · rintro ⟨t, ht, h0⟩; exact ⟨_, ⟨t, ht, rfl⟩, h0⟩
    · rintro ⟨n, ⟨t, ht, rfl⟩, h0⟩; exact ⟨t, ht, h0⟩
  have h1 := key d1
  have h2 := key d2
  rw [h] at h1
  have h12 : (get_schema d1 x).isSome = true ↔ (get_schema d2 x).isSome = true := h1.trans h2.symm
  cases ha : (get_schema d1 x).isSome <;> cases hb : (get_schema d2 x).isSome
  · rfl
  · rw [ha, hb] at h12; exact absurd (h12.mpr rfl) (by simp)
  · rw [ha, hb] at h12; exact absurd (h12.mp rfl) (by simp)
  · rfl

theorem tmp_name_free_exists (d : db) (op_name name : String)
    (hop : is_c_string op_name) (hname : is_c_string name) :
    ∃ j, j < d.db_tables.length + 1 ∧ get_schema d (tmp_name op_name name j) = none := by
  by_contra hcon
  push_neg at hcon
  let f : Nat → List Nat := fun i => c_string (cstr (tmp_name op_name name i))
  let L : List (List Nat) := d.db_tables.map (fun t => c_string (cstr t.sch.name))
  have hinj : Function.Injective f := fun i j h => tmp_name_key_injective op_name name hop hname i j h
  have hsub : (Finset.range (d.db_tables.length + 1)).image f ⊆ L.toFinset := by
    intro x hx
    rw [Finset.mem_image] at hx
    obtain ⟨i, hi, rfl⟩ := hx
    have hs : (get_schema d (tmp_name op_name name i)).isSome = true := by
      have := hcon i (Finset.mem_range.mp hi)
      cases hg : get_schema d (tmp_name op_name name i) with
      | none => exact absurd hg this
      | some _ => rfl
    obtain ⟨t, ht, h0⟩ := (get_schema_isSome_iff d _).mp hs
    rw [List.mem_toFinset]
    exact List.mem_map.mpr ⟨t, ht, ((strcmp_eq_zero_iff _ _).mp h0).symm⟩
  have hcard : ((Finset.range (d.db_tables.length + 1)).image f).card = d.db_tables.length + 1 := by
    rw [Finset.card_image_of_injective _ hinj, Finset.card_range]
  have h1 := Finset.card_le_card hsub
  have h2 := List.toFinset_card_le L
  have h3 : L.length = d.db_tables.length := by simp [L]
  omega

theorem tmp_schema_name_from_spec (d : db) (op_name name : String) :
    ∀ (fuel i : Nat),
      (∃ j, i ≤ j ∧ j < i + fuel ∧ get_schema d (tmp_name op_name name j) = none) →
      ∃ j, i ≤ j ∧ tmp_schema_name_from d op_name name fuel i = some (tmp_name op_name name j) ∧
        get_schema d (tmp_name op_name name j) = none ∧
        ∀ m, i ≤ m → m < j → get_schema d (tmp_name op_name name m) ≠ none := by
  intro fuel
  induction fuel with
  | zero => rintro i ⟨j, h1, h2, _⟩; omega
  | succ fuel ih =>
    rintro i ⟨j, h1, h2, h3⟩
    cases hg : get_schema d (tmp_name op_name name i) with
    | none =>
      refine ⟨i, le_refl _, ?_, hg, fun m hm1 hm2 => by omega⟩
      simp only [tmp_schema_name_from]
      have : get_schema d (op_name ++ "__" ++ name ++ "_" ++ toString i) = none := hg
      simp [this, tmp_name]
    | some a =>
      have hij : i ≠ j := by
        intro h; subst h; rw [hg] at h3; exact absurd h3 (by simp)
      obtain ⟨j', hj1, hj2, hj3, hj4⟩ := ih (i + 1) ⟨j, by omega, by omega, h3⟩
      refine ⟨j', by omega, ?_, hj3, ?_⟩
      · simp only [tmp_schema_name_from]
        have : get_schema d (op_name ++ "__" ++ name ++ "_" ++ toString i) = some a := hg
        simp [this, hj2]
      · intro m hm1 hm2
        by_cases hmi : m = i
        · subst hmi; rw [hg]; simp
        · exact hj4 m (by omega) hm2

theorem tmp_schema_name_from_names (d1 d2 : db) (op_name name : String)
    (h : d1.db_tables.map (fun t => t.sch.name) = d2.db_tables.map (fun t => t.sch.name)) :
    ∀ (fuel i : Nat),
      tmp_schema_name_from d1 op_name name fuel i = tmp_schema_name_from d2 op_name name fuel i := by
  intro fuel
  induction fuel with
  | zero => intro i; rfl
  | succ fuel ih =>
    intro i
    simp only [tmp_schema_name_from]
    rw [get_schema_isSome_names d1 d2 _ h, ih (i + 1)]

theorem tmp_schema_name_spec (d : db) (op_name name : String)
    (hop : is_c_string op_name) (hname : is_c_string name) :
    ∃ i, tmp_schema_name d op_name name = some (tmp_name op_name name i) ∧
      get_schema d (tmp_name op_name name i) = none ∧
      (∀ j, j < i → get_schema d (tmp_name op_name name j) ≠ none) ∧
      (∀ t ∈ d.db_tables, t.sch.name ≠ tmp_name op_name name i) := by
  obtain ⟨j, hj1, hj2⟩ := tmp_name_free_exists d op_name name hop hname
  obtain ⟨i, _, hi1, hi2, hi3⟩ :=
    tmp_schema_name_from_spec d op_name name (d.db_tables.length + 1) 0 ⟨j, by omega, by omega, hj2⟩
  refine ⟨i, hi1, hi2, fun m hm => hi3 m (by omega) hm, ?_⟩
  intro t ht heq
  have hs : (get_schema d (tmp_name op_name name i)).isSome = true :=
    (get_schema_isSome_iff d _).mpr ⟨t, ht, by rw [heq]; exact strcmp_self _⟩
  rw [hi2] at hs
  exact absurd hs (by simp)

/-! ### C13 – `tmp_schema_name` -/

/-- C13: for every catalog and every operation tag and table name (C
strings), `tmp_schema_name` terminates and returns `<op>__<n>_<i>` for the
least `i ≥ 0` such that no table of the catalog has that name; the name
returned is the name of no table of the catalog, and the result depends on
the catalog only through the names of its tables. -/
theorem tmp_schema_name_least (d : db) (op_name name : String)
    (hop : is_c_string op_name) (hname : is_c_string name) :
    ∃ i, tmp_schema_name d op_name name = some (tmp_name op_name name i) ∧
      get_schema d (tmp_name op_name name i) = none ∧
      (∀ j, j < i → get_schema d (tmp_name op_name name j) ≠ none) ∧
      (∀ t ∈ d.db_tables, t.sch.name ≠ tmp_name op_name name i) ∧
      (∀ d2 : db, d2.db_tables.map (fun t => t.sch.name) =
          d.db_tables.map (fun t => t.sch.name) →
        tmp_schema_name d2 op_name name = tmp_schema_name d op_name name) := by
  obtain ⟨i, h1, h2, h3, h4⟩ := tmp_schema_name_spec d op_name name hop hname
  refine ⟨i, h1, h2, h3, h4, ?_⟩
  intro d2 h
  unfold tmp_schema_name
  have hl : d2.db_tables.length = d.db_tables.length := by
    have := congrArg List.length h
    simpa using this
  rw [hl]
  exact tmp_schema_name_from_names d2 d op_name name h _ _

/-- Witness for C13: with the tables `select__Person_0` and `Person` in
the catalog, the name for a selection on `Person` gets the suffix 1. -/
theorem tmp_schema_name_least_witness :
    is_c_string "select" ∧ is_c_string "Person" ∧
    tmp_schema_name two_tables "select" "Person" = some "select__Person_1" ∧
    ∃ i, tmp_schema_name two_tables "select" "Person" = some (tmp_name "select" "Person" i) ∧
      get_schema two_tables (tmp_name "select" "Person" i) = none ∧
      (∀ j, j < i → get_schema two_tables (tmp_name "select" "Person" j) ≠ none) ∧
      (∀ t ∈ two_tables.db_tables, t.sch.name ≠ tmp_name "select" "Person" i) ∧
      (∀ d2 : db, d2.db_tables.map (fun t => t.sch.name) =
          two_tables.db_tables.map (fun t => t.sch.name) →
        tmp_schema_name d2 "select" "Person" = tmp_schema_name two_tables "select" "Person") :=
  ⟨by decide, by decide, by decide,
   tmp_schema_name_least two_tables "select" "Person" (by decide) (by decide)⟩

/-! ### Helper lemmas about the catalog -/

theorem le_foldr_max (l : List Nat) : ∀ x ∈ l, x ≤ l.foldr max 0 := by
  induction l with
  | nil => intro x hx; simp at hx
  | cons a as ih =>
    intro x hx
    simp only [List.foldr_cons]
    rcases List.mem_cons.mp hx with rfl | h
    · exact le_max_left _ _
    · exact le_trans (ih x h) (le_max_right _ _)

theorem fresh_addr_ne (d : db) : ∀ u ∈ d.db_tables, u.addr ≠ fresh_addr d := by
  intro u hu
  have := le_foldr_max (d.db_tables.map (fun t => t.addr)) u.addr
    (List.mem_map.mpr ⟨u, hu, rfl⟩)
  unfold fresh_addr
  omega

theorem deref_cons_self (t : tbl_desc_struct) (rest : List tbl_desc_struct) (p : pager_state) :
    deref { db_tables := t :: rest, pager := p } t.addr = some t := by
  simp [deref, List.find?]

theorem map_replace_none (rest : List tbl_desc_struct) (t' : tbl_desc_struct)
    (h : ∀ u ∈ rest, u.addr ≠ t'.addr) :
    rest.map (fun u => if u.addr == t'.addr then t' else u) = rest := by
  induction rest with
  | nil => rfl
  | cons a as ih =>
    have ha : a.addr ≠ t'.addr := h a (List.mem_cons_self _ _)
    have : (a.addr == t'.addr) = false := by simp [ha]
    simp only [List.map_cons, this]
    rw [ih (fun u hu => h u (List.mem_cons_of_mem _ hu))]
    rfl

theorem store_cons_self (t t' : tbl_desc_struct) (rest : List tbl_desc_struct)
    (p : pager_state) (ha : t'.addr = t.addr) (h : ∀ u ∈ rest, u.addr ≠ t.addr) :
    store { db_tables := t :: rest, pager := p } t' =
      { db_tables := t' :: rest, pager := p } := by
  have hb : (t.addr == t'.addr) = true := by simp [ha]
  simp only [store, List.map_cons, hb, if_true]
  rw [map_replace_none rest t' (fun u hu => by rw [ha]; exact h u hu)]

/-! ### Helper lemmas about runs of `add_field` -/

theorem add_field_name (k : consts) (s s' : schema_struct) (f : field_desc) (n : Int)
    (h : add_field k (some s) f = some (n, some s')) : s'.name = s.name := by
  unfold add_field at h
  simp only at h
  split_ifs at h with h1 h2
  · simp only [Option.some.injEq, Prod.mk.injEq] at h; rw [← h.2]
  · simp only [Option.some.injEq, Prod.mk.injEq] at h; rw [← h.2]
  · cases hf : s.fields with
    | nil => simp [hf] at h
    | cons a as =>
      simp only [hf, Option.some.injEq, Prod.mk.injEq] at h
      rw [← h.2]

theorem add_field_accept (k : consts) (s : schema_struct) (f : field_desc)
    (hc : counted s) (hl : s.len = sum_len s.fields)
    (hfit : s.len + f.len ≤ k.BLOCK_SIZE - k.PAGE_HEADER_SIZE) :
    add_field k (some s) f =
      some (s.num_fields + 1,
        some { s with fields := s.fields ++ [{ f with offset := s.len }],
                      num_fields := s.num_fields + 1,
                      len := s.len + f.len }) := by
  unfold counted at hc
  have hrej : ¬ s.len + f.len > k.BLOCK_SIZE - k.PAGE_HEADER_SIZE := by omega
  by_cases h0 : s.num_fields = 0
  · have hnil : s.fields = [] := by
      rw [h0] at hc
      exact List.length_eq_zero.mp (by exact_mod_cast hc.symm)
    have hlen0 : s.len = 0 := by rw [hl, hnil]; rfl
    simp only [add_field, hrej, h0, if_true, if_false]
    simp only [hnil, hlen0, List.nil_append]
  · cases hf : s.fields with
    | nil => rw [hf] at hc; simp at hc; exact absurd hc h0
    | cons a as => simp only [add_field, hrej, h0, hf, if_false]

theorem sum_len_relocate (gs : List field_desc) : ∀ acc, sum_len (relocate acc gs) = sum_len gs := by
  induction gs with
  | nil => intro acc; rfl
  | cons g gs ih =>
    intro acc
    have := ih (acc + g.len)
    simp only [sum_len, relocate, List.map_cons, List.sum_cons] at this ⊢
    rw [this]

theorem length_relocate (gs : List field_desc) : ∀ acc, (relocate acc gs).length = gs.length := by
  induction gs with
  | nil => intro acc; rfl
  | cons g gs ih => intro acc; simp [relocate, ih]

theorem add_fields_relocate (k : consts) (gs : List field_desc) :
    ∀ s : schema_struct, layout_ok s → fits_from k s.len gs →
      add_fields k (some s) gs =
        some (some { s with fields := s.fields ++ relocate s.len gs,
                            num_fields := s.num_fields + (gs.length : Int),
                            len := s.len + sum_len gs }) := by
  induction gs with
  | nil =>
    intro s _ _
    simp [add_fields, relocate, sum_len]
  | cons g gs ih =>
    intro s hl hfit
    obtain ⟨hfit1, hfit2⟩ := hfit
    have hacc := add_field_accept k s g hl.1 hl.2.1 hfit1
    obtain ⟨n, s1, h1, hl1⟩ := add_field_layout k s g hl
    rw [hacc] at h1
    simp only [Option.some.injEq, Prod.mk.injEq] at h1
    rw [← h1.2] at hl1
    have := ih _ hl1 hfit2
    simp only [add_fields, hacc]
    rw [this]
    simp only [relocate, List.append_assoc, List.singleton_append, List.length_cons,
      Nat.cast_add, Nat.cast_one, sum_len, List.map_cons, List.sum_cons]
    congr 3 <;> ring

theorem relocate_dup_packed (fs : List field_desc) :
    ∀ acc : Int,
      (∀ (i : Nat) (h : i < fs.length), (fs.get ⟨i, h⟩).offset = acc + sum_len (fs.take i)) →
      relocate acc (fs.map dup_field) = fs := by
  induction fs with
  | nil => intro acc _; rfl
  | cons f fs ih =>
    intro acc h
    have h0 := h 0 (by simp)
    simp only [List.get_eq_getElem, List.getElem_cons_zero, List.take_zero, sum_len,
      List.map_nil, List.sum_nil, add_zero] at h0
    simp only [List.map_cons, relocate, dup_field]
    congr 1
    · cases f; simp only at h0; simp [h0]
    · apply ih
      intro i hi
      have := h (i + 1) (by simp; omega)
      simp only [List.get_eq_getElem, List.getElem_cons_succ, List.take_succ_cons, sum_len,
        List.map_cons, List.sum_cons] at this ⊢
      rw [this]; ring

theorem fits_from_dup (k : consts) (fs : List field_desc) :
    ∀ acc, fits_from k acc fs → fits_from k acc (fs.map dup_field) := by
  induction fs with
  | nil => intro acc h; exact h
  | cons f fs ih =>
    intro acc h
    exact ⟨h.1, ih _ h.2⟩

theorem sum_len_dup (fs : List field_desc) : sum_len (fs.map dup_field) = sum_len fs := by
  induction fs with
  | nil => rfl
  | cons f fs ih =>
    simp only [sum_len, List.map_cons, List.sum_cons] at ih ⊢
    rw [ih]; rfl

theorem add_field_in_head (k : consts) (t : tbl_desc_struct) (rest : List tbl_desc_struct)
    (p : pager_state) (f : field_desc) (hr : ∀ u ∈ rest, u.addr ≠ t.addr)
    (hl : layout_ok t.sch) :
    ∃ n s', add_field k (some t.sch) f = some (n, some s') ∧ layout_ok s' ∧
      s'.name = t.sch.name ∧
      add_field_in k { db_tables := t :: rest, pager := p } t.addr f =
        some (n, { db_tables := { t with sch := s' } :: rest, pager := p }) := by
  obtain ⟨n, s', h1, hl1⟩ := add_field_layout k t.sch f hl
  refine ⟨n, s', h1, hl1, add_field_name k _ _ _ _ h1, ?_⟩
  simp only [add_field_in, deref_cons_self, h1]
  rw [store_cons_self t { t with sch := s' } rest p rfl hr]

theorem copy_fields_head (k : consts) (fs : List field_desc) :
    ∀ (t : tbl_desc_struct) (rest : List tbl_desc_struct) (p : pager_state),
      (∀ u ∈ rest, u.addr ≠ t.addr) → layout_ok t.sch →
      ∃ s', add_fields k (some t.sch) (fs.map dup_field) = some (some s') ∧
        layout_ok s' ∧ s'.name = t.sch.name ∧
        copy_fields k { db_tables := t :: rest, pager := p } t.addr fs =
          some { db_tables := { t with sch := s' } :: rest, pager := p } := by
  induction fs with
  | nil =>
    intro t rest p _ hl
    exact ⟨t.sch, rfl, hl, rfl, rfl⟩
  | cons f fs ih =>
    intro t rest p hr hl
    obtain ⟨n, s1, h1, hl1, hn1, hin⟩ := add_field_in_head k t rest p (dup_field f) hr hl
    obtain ⟨s2, h2, hl2, hn2, hc2⟩ := ih { t with sch := s1 } rest p hr hl1
    refine ⟨s2, ?_, hl2, by rw [hn2]; exact hn1, ?_⟩
    · simp only [List.map_cons, add_fields, h1]
      exact h2
    · simp only [copy_fields, hin]
      exact hc2

/-! ### C14 – `copy_schema` -/

/-- C14: for a schema `s` that satisfies the packed-layout invariants
(`num_fields` and `len` agree with the field list, offsets are running
sums) and the capacity invariant (after every field addition the record
length plus the page header is at most the block size) and for every name
`dest_name`, `copy_schema` returns a new schema named `dest_name` with the
same field list (names, types, lengths and offsets, in order), the same
`num_fields` and the same record length; the catalog it is added to is
otherwise unchanged, and so is `s`. -/
theorem copy_schema_exact (k : consts) (d : db) (s : schema_struct) (dest_name : String)
    (hl : layout_ok s) (hfit : fits_from k 0 s.fields) :
    copy_schema k d (some s) dest_name =
      some (some (fresh_addr d),
        { db_tables :=
            { addr := fresh_addr d, sch := { s with name := dest_name },
              num_records := 0, current_pg := none } :: d.db_tables,
          pager := d.pager }) := by
  have hinit : layout_ok (make_schema dest_name) := ⟨rfl, rfl, packed_nil _ rfl⟩
  obtain ⟨s', h1, _, _, h2⟩ := copy_fields_head k s.fields
    { addr := fresh_addr d, sch := make_schema dest_name, num_records := 0, current_pg := none }
    d.db_tables d.pager (fresh_addr_ne d) hinit
  have h3 := add_fields_relocate k (s.fields.map dup_field) (make_schema dest_name) hinit
    (fits_from_dup k s.fields 0 hfit)
  have hpk : relocate 0 (s.fields.map dup_field) = s.fields :=
    relocate_dup_packed s.fields 0 (fun i h => by rw [hl.2.2 i h]; ring)
  simp only at h1
  rw [h3] at h1
  simp only [Option.some.injEq] at h1
  simp only [copy_schema, new_schema]
  simp only at h2
  rw [h2, ← h1]
  have hc : s.num_fields = (s.fields.length : Int) := hl.1
  have hs : s.len = sum_len s.fields := hl.2.1
  simp only [make_schema, hpk, List.nil_append, List.length_map, sum_len_dup, zero_add,
    ← hc, ← hs]

/-- Witness for C14: copying `Person` under the name `People`. -/
theorem copy_schema_exact_witness :
    layout_ok person ∧ fits_from k0 0 person.fields ∧
    copy_schema k0 person_only (some person) "People" =
      some (some (fresh_addr person_only),
        { db_tables :=
            { addr := fresh_addr person_only, sch := { person with name := "People" },
              num_records := 0, current_pg := none } :: person_only.db_tables,
          pager := person_only.pager }) :=
  ⟨by decide, by decide,
   copy_schema_exact k0 person_only person "People" (by decide) (by decide)⟩

/-! ### Helper lemmas about `make_sub_schema` -/

theorem make_sub_schema_loop_found (k : consts) (s : schema_struct) (names : List String)
    (hfound : ∀ n ∈ names, get_field s n ≠ none) :
    ∀ (t : tbl_desc_struct) (rest : List tbl_desc_struct) (p : pager_state),
      (∀ u ∈ rest, u.addr ≠ t.addr) → layout_ok t.sch →
      ∃ s', add_fields k (some t.sch) ((names.filterMap (get_field s)).map dup_field) =
          some (some s') ∧
        layout_ok s' ∧ s'.name = t.sch.name ∧
        make_sub_schema_loop k { db_tables := t :: rest, pager := p } t.addr s names =
          some (some t.addr, { db_tables := { t with sch := s' } :: rest, pager := p }) := by
  induction names with
  | nil =>
    intro t rest p _ hl
    exact ⟨t.sch, rfl, hl, rfl, rfl⟩
  | cons n ns ih =>
    intro t rest p hr hl
    cases hg : get_field s n with
    | none => exact absurd hg (hfound n (List.mem_cons_self _ _))
    | some f =>
      obtain ⟨m, s1, h1, hl1, hn1, hin⟩ := add_field_in_head k t rest p (dup_field f) hr hl
      obtain ⟨s2, h2, hl2, hn2, hc2⟩ :=
        ih (fun x hx => hfound x (List.mem_cons_of_mem _ hx)) { t with sch := s1 } rest p hr hl1
      refine ⟨s2, ?_, hl2, by rw [hn2]; exact hn1, ?_⟩
      · simp only [List.filterMap_cons, hg, List.map_cons, add_fields, h1]
        exact h2
      · simp only [make_sub_schema_loop, hg, hin]
        exact hc2

theorem make_sub_schema_loop_missing (k : consts) (s : schema_struct) (names : List String)
    (hmiss : ∃ n ∈ names, get_field s n = none) :
    ∀ (t : tbl_desc_struct) (rest : List tbl_desc_struct) (p : pager_state),
      (∀ u ∈ rest, u.addr ≠ t.addr) → layout_ok t.sch →
      make_sub_schema_loop k { db_tables := t :: rest, pager := p } t.addr s names =
        some (none, { db_tables := rest, pager := retire_file p t.sch.name }) := by
  induction names with
  | nil => obtain ⟨n, hn, _⟩ := hmiss; simp at hn
  | cons n ns ih =>
    intro t rest p hr hl
    cases hg : get_field s n with
    | none =>
      simp only [make_sub_schema_loop, hg, remove_schema, remove_table, deref_cons_self]
      simp [List.eraseP]
    | some f =>
      obtain ⟨m, s1, h1, hl1, hn1, hin⟩ := add_field_in_head k t rest p (dup_field f) hr hl
      have hmiss' : ∃ x ∈ ns, get_field s x = none := by
        obtain ⟨x, hx, hx0⟩ := hmiss
        rcases List.mem_cons.mp hx with rfl | hx'
        · rw [hg] at hx0; exact absurd hx0 (by simp)
        · exact ⟨x, hx', hx0⟩
      have := ih hmiss' { t with sch := s1 } rest p hr hl1
      simp only [make_sub_schema_loop, hg, hin]
      rw [this]
      simp only [hn1]

theorem copies_named_relocate (s : schema_struct) (names : List String)
    (hfound : ∀ n ∈ names, get_field s n ≠ none) :
    ∀ acc : Int, List.Forall₂ (copies_named s) names
      (relocate acc ((names.filterMap (get_field s)).map dup_field)) := by
  induction names with
  | nil => intro acc; exact List.Forall₂.nil
  | cons n ns ih =>
    intro acc
    cases hg : get_field s n with
    | none => exact absurd hg (hfound n (List.mem_cons_self _ _))
    | some f =>
      simp only [List.filterMap_cons, hg, List.map_cons, relocate]
      exact List.Forall₂.cons ⟨f, hg, rfl, rfl, rfl⟩
        (ih (fun x hx => hfound x (List.mem_cons_of_mem _ hx)) _)

theorem length_found (s : schema_struct) (names : List String)
    (hfound : ∀ n ∈ names, get_field s n ≠ none) :
    (names.filterMap (get_field s)).length = names.length := by
  induction names with
  | nil => rfl
  | cons n ns ih =>
    cases hg : get_field s n with
    | none => exact absurd hg (hfound n (List.mem_cons_self _ _))
    | some f =>
      simp only [List.filterMap_cons, hg, List.length_cons]
      rw [ih (fun x hx => hfound x (List.mem_cons_of_mem _ hx))]

/-! ### C11 – the schema `make_sub_schema` builds -/

/-- What `make_sub_schema` builds when no field is rejected: for a schema `s` and a list of names that all
name fields of `s`, provided that after each of the requested fields (in
the requested order, repeats included) the record length plus the page
header stays within the block size, `make_sub_schema` returns a schema
with exactly as many fields as names, whose `i`-th field has the name,
type and length of the field of `s` named by the `i`-th name, with offsets
that are the running sums of the preceding lengths and `len` the sum of
all lengths. -/
theorem make_sub_schema_fields (k : consts) (d : db) (s : schema_struct)
    (names : List String) (hname : is_c_string s.name)
    (hfound : ∀ n ∈ names, get_field s n ≠ none)
    (hfit : fits_from k 0 ((names.filterMap (get_field s)).map dup_field)) :
    ∃ a d' tb, make_sub_schema k d (some s) names = some (some a, d') ∧
      deref d' a = some tb ∧
      List.Forall₂ (copies_named s) names tb.sch.fields ∧
      tb.sch.num_fields = (names.length : Int) ∧
      (∀ (i : Nat) (h : i < tb.sch.fields.length),
        (tb.sch.fields.get ⟨i, h⟩).offset = sum_len (tb.sch.fields.take i)) ∧
      tb.sch.len = sum_len tb.sch.fields := by
  obtain ⟨i, hi, _⟩ := tmp_schema_name_spec d "project" s.name (by decide) hname
  have hinit : layout_ok (make_schema (tmp_name "project" s.name i)) :=
    ⟨rfl, rfl, packed_nil _ rfl⟩
  obtain ⟨s', h1, hl1, _, h2⟩ := make_sub_schema_loop_found k s names hfound
    { addr := fresh_addr d, sch := make_schema (tmp_name "project" s.name i),
      num_records := 0, current_pg := none }
    d.db_tables d.pager (fresh_addr_ne d) hinit
  have h3 := add_fields_relocate k ((names.filterMap (get_field s)).map dup_field)
    (make_schema (tmp_name "project" s.name i)) hinit hfit
  simp only at h1
  rw [h3] at h1
  simp only [Option.some.injEq] at h1
  refine ⟨fresh_addr d,
    { db_tables := { addr := fresh_addr d, sch := s', num_records := 0, current_pg := none } ::
        d.db_tables, pager := d.pager },
    { addr := fresh_addr d, sch := s', num_records := 0, current_pg := none },
    ?_, deref_cons_self _ _ _, ?_, ?_, hl1.2.2, hl1.2.1⟩
  · simp only [make_sub_schema, hi, new_schema]
    simp only at h2
    exact h2
  · rw [← h1]
    simp only [make_schema, List.nil_append]
    exact copies_named_relocate s names hfound 0
  · rw [← h1]
    simp [make_schema, length_found s names hfound]

/-- Example: projecting `Person` on `name`, `id`,
`name`. -/
theorem make_sub_schema_fields_witness :
    is_c_string person.name ∧
    (∀ n ∈ ["name", "id", "name"], get_field person n ≠ none) ∧
    fits_from k0 0 ((["name", "id", "name"].filterMap (get_field person)).map dup_field) ∧
    sub_schema_of k0 person_only person ["name", "id", "name"] =
      some { name := "project__Person_0",
             fields := [new_str_field "name" 20,
                        { new_int_field k0 "id" with offset := 20 },
                        { new_str_field "name" 20 with offset := 24 }],
             num_fields := 3, len := 44 } ∧
    ∃ a d' tb, make_sub_schema k0 person_only (some person) ["name", "id", "name"] =
        some (some a, d') ∧
      deref d' a = some tb ∧
      List.Forall₂ (copies_named person) ["name", "id", "name"] tb.sch.fields ∧
      tb.sch.num_fields = ((["name", "id", "name"] : List String).length : Int) ∧
      (∀ (i : Nat) (h : i < tb.sch.fields.length),
        (tb.sch.fields.get ⟨i, h⟩).offset = sum_len (tb.sch.fields.take i)) ∧
      tb.sch.len = sum_len tb.sch.fields :=
  ⟨by decide, by decide, by decide, by decide,
   make_sub_schema_fields k0 person_only person ["name", "id", "name"]
     (by decide) (by decide) (by decide)⟩

/-- C11, evaluated on the code: `Wide` has the single field
`a : string(300)`, which fits a 512-byte block with its 20-byte header;
both requested names name it, yet the schema `make_sub_schema` returns for
the names `a`, `a` has one field, not two: the second `add_field` is
rejected (300 + 300 + 20 > 512) and its result is not looked at. -/
theorem make_sub_schema_drops_field :
    layout_ok wide ∧ fits_from k0 0 wide.fields ∧
    (∀ n ∈ ["a", "a"], get_field wide n ≠ none) ∧
    sub_schema_of k0 wide_only wide ["a", "a"] =
      some { name := "project__Wide_0", fields := [new_str_field "a" 300],
             num_fields := 1, len := 300 } := by
  refine ⟨by decide, by decide, by decide, by decide⟩

/-! ### Function `make_sub_schema` on an unknown name, the buffer of `concat_names` apart -/

theorem lookup_filter_other (x a b : String) (h1 : x ≠ a) (h2 : x ≠ b) :
    ∀ l : List (String × List page_struct),
      List.lookup x (l.filter (fun e => e.1 != a && e.1 != b)) = List.lookup x l := by
  intro l
  induction l with
  | nil => rfl
  | cons e l ih =>
    obtain ⟨n, bs⟩ := e
    rw [List.filter_cons]
    split_ifs with hk
    · simp only [List.lookup_cons, ih]
    · rw [ih]
      have hx : (x == n) = false := by
        simp only [Bool.and_eq_true, bne_iff_ne, ne_eq, not_and_or, not_not] at hk
        rcases hk with hk | hk
        · simp [hk, h1]
        · simp [hk, h2]
      simp only [List.lookup_cons, hx]

theorem file_blocks_retire_other (p : pager_state) (nm x : String) (h1 : x ≠ nm)
    (h2 : x ≠ concat_names "_" "_" nm) :
    file_blocks (retire_file p nm) x = file_blocks p x := by
  unfold file_blocks retire_file
  cases hl : List.lookup nm p.files with
  | none => rfl
  | some bs =>
    have hx : (x == concat_names "_" "_" nm) = false := by simp [h2]
    simp only [List.lookup_cons, hx]
    rw [lookup_filter_other x nm _ h1 h2]

theorem mem_of_deref (d : db) (a : Nat) (tb : tbl_desc_struct) (h : deref d a = some tb) :
    tb ∈ d.db_tables := by
  unfold deref at h
  exact List.mem_of_find?_eq_some h

theorem name_ne_retired (x op_name : String) (i : Nat) :
    x ≠ concat_names "_" "_" (tmp_name op_name x i) := by
  intro h
  have := congrArg String.length h
  have h1 : "_".length = 1 := by decide
  have h2 : "__".length = 2 := by decide
  simp only [concat_names, tmp_name, String.length_append, h1, h2] at this
  omega

/-- With a buffer of `concat_names` that holds the backup name: for a table of the catalog with schema `s` and a list of names of
which at least one names no field of `s`, `make_sub_schema` returns null
and the catalog after the call is the catalog before it: the partly built
schema is no longer in it, and every descriptor, that of `s` included, is
as it was; `table_project` then returns null in that same state, so the
source table is not scanned (its cursor and its pages are untouched).  The
one trace left is that of `remove_table`: a page file that already bore the
name chosen for the temporary schema is retired. -/
theorem make_sub_schema_missing (k : consts) (fuel : Nat) (d : db) (a : Nat)
    (tb : tbl_desc_struct) (names : List String)
    (ht : deref d a = some tb) (hname : is_c_string tb.sch.name)
    (hmiss : ∃ n ∈ names, get_field tb.sch n = none) :
    ∃ d', make_sub_schema k d (some tb.sch) names = some (none, d') ∧
      table_project k fuel d (some a) names = some (none, d') ∧
      d'.db_tables = d.db_tables ∧
      (∃ i, get_schema d (tmp_name "project" tb.sch.name i) = none ∧
        d'.pager = retire_file d.pager (tmp_name "project" tb.sch.name i)) ∧
      file_blocks d'.pager tb.sch.name = file_blocks d.pager tb.sch.name := by
  obtain ⟨i, hi, hfree, _, hne⟩ := tmp_schema_name_spec d "project" tb.sch.name (by decide) hname
  have hinit : layout_ok (make_schema (tmp_name "project" tb.sch.name i)) :=
    ⟨rfl, rfl, packed_nil _ rfl⟩
  have hloop := make_sub_schema_loop_missing k tb.sch names hmiss
    { addr := fresh_addr d, sch := make_schema (tmp_name "project" tb.sch.name i),
      num_records := 0, current_pg := none }
    d.db_tables d.pager (fresh_addr_ne d) hinit
  have hms : make_sub_schema k d (some tb.sch) names =
      some (none, { db_tables := d.db_tables,
                    pager := retire_file d.pager (tmp_name "project" tb.sch.name i) }) := by
    simp only [make_sub_schema, hi, new_schema]
    simp only at hloop
    exact hloop
  refine ⟨_, hms, ?_, rfl, ⟨i, hfree, rfl⟩, ?_⟩
  · simp only [table_project, ht, hms]
  · exact file_blocks_retire_other d.pager _ _ (hne tb (mem_of_deref d a tb ht))
      (name_ne_retired _ _ _)

/-- Example: `zip` is not a field of `Person`. -/
theorem make_sub_schema_missing_witness :
    deref person_only 1 = some person_tbl ∧ is_c_string person_tbl.sch.name ∧
    (∃ n ∈ ["name", "zip"], get_field person_tbl.sch n = none) ∧
    make_sub_schema k0 person_only (some person_tbl.sch) ["name", "zip"] =
      some (none, person_only) ∧
    ∃ d', make_sub_schema k0 person_only (some person_tbl.sch) ["name", "zip"] =
        some (none, d') ∧
      table_project k0 10 person_only (some 1) ["name", "zip"] = some (none, d') ∧
      d'.db_tables = person_only.db_tables ∧
      (∃ i, get_schema person_only (tmp_name "project" person_tbl.sch.name i) = none ∧
        d'.pager = retire_file person_only.pager (tmp_name "project" person_tbl.sch.name i)) ∧
      file_blocks d'.pager person_tbl.sch.name =
        file_blocks person_only.pager person_tbl.sch.name :=
  ⟨by decide, by decide, ⟨"zip", by decide, by decide⟩, by rfl,
   make_sub_schema_missing k0 10 person_only 1 person_tbl ["name", "zip"]
     (by decide) (by decide) ⟨"zip", by decide, by decide⟩⟩

/-! ### C20 – field names within a schema -/

theorem add_field_fields (k : consts) (s : schema_struct) (f : field_desc)
    (hl : layout_ok s) :
    ∃ n s', add_field k (some s) f = some (n, some s') ∧ layout_ok s' ∧
      (s'.fields = s.fields ∨ s'.fields = s.fields ++ [{ f with offset := s.len }]) := by
  obtain ⟨n, s', h1, hl1⟩ := add_field_layout k s f hl
  refine ⟨n, s', h1, hl1, ?_⟩
  by_cases hfit : s.len + f.len ≤ k.BLOCK_SIZE - k.PAGE_HEADER_SIZE
  · rw [add_field_accept k s f hl.1 hl.2.1 hfit] at h1
    simp only [Option.some.injEq, Prod.mk.injEq] at h1
    right; rw [← h1.2]
  · have hrej : s.len + f.len > k.BLOCK_SIZE - k.PAGE_HEADER_SIZE := by omega
    simp only [add_field, hrej, if_true, Option.some.injEq, Prod.mk.injEq] at h1
    left; rw [← h1.2]

theorem add_fields_names (k : consts) (gs : List field_desc) :
    ∀ s : schema_struct, layout_ok s →
      ∃ s', add_fields k (some s) gs = some (some s') ∧
        ∃ l, List.Sublist l (gs.map (fun g => g.name)) ∧
          s'.fields.map (fun g => g.name) = s.fields.map (fun g => g.name) ++ l := by
  induction gs with
  | nil => intro s _; exact ⟨s, rfl, [], List.Sublist.slnil, by simp⟩
  | cons g gs ih =>
    intro s hl
    obtain ⟨n, s1, h1, hl1, hf⟩ := add_field_fields k s g hl
    obtain ⟨s2, h2, l, hsub, hnames⟩ := ih s1 hl1
    refine ⟨s2, by simp only [add_fields, h1]; exact h2, ?_⟩
    rcases hf with hf | hf
    · exact ⟨l, by simpa using hsub.cons g.name, by rw [hnames, hf]⟩
    · refine ⟨g.name :: l, by simpa using hsub.cons₂ g.name, ?_⟩
      rw [hnames, hf]
      simp

theorem get_field_name (s : schema_struct) (n : String) (f : field_desc)
    (h : get_field s n = some f) : strcmp (cstr f.name) (cstr n) = 0 := by
  unfold get_field at h
  have := List.find?_some h
  simpa using this

theorem found_names_distinct (s : schema_struct) (names : List String)
    (hd : names.Pairwise (fun a b => strcmp (cstr a) (cstr b) ≠ 0)) :
    (((names.filterMap (get_field s)).map dup_field).map (fun g => g.name)).Pairwise
      (fun a b => strcmp (cstr a) (cstr b) ≠ 0) := by
  rw [List.map_map, List.pairwise_map]
  refine List.Pairwise.filterMap (get_field s) ?_ hd
  intro a a' hne f hf f' hf' h0
  apply hne
  have h1 := (strcmp_eq_zero_iff _ _).mp (get_field_name s a f hf)
  have h2 := (strcmp_eq_zero_iff _ _).mp (get_field_name s a' f' hf')
  have h3 := (strcmp_eq_zero_iff _ _).mp h0
  simp only [Function.comp, dup_field] at h3
  exact (strcmp_eq_zero_iff _ _).mpr (by rw [← h1, h3, h2])

/-- C20, as the code has it: when the requested names are pairwise
distinct, the schema `make_sub_schema` returns (if it returns one) has
pairwise distinct field names; and `add_field` keeps the field names of a
schema pairwise distinct when the name of the field added differs from
the names of all fields of the schema.  Neither function compares names
itself. -/
theorem make_sub_schema_distinct (k : consts) (d : db) (s : schema_struct)
    (names : List String) (hname : is_c_string s.name)
    (hd : names.Pairwise (fun a b => strcmp (cstr a) (cstr b) ≠ 0)) :
    (∃ r d', make_sub_schema k d (some s) names = some (r, d') ∧
      ∀ a, r = some a → ∃ tb, deref d' a = some tb ∧ distinct_fields tb.sch) ∧
    (∀ (s0 : schema_struct) (f : field_desc), layout_ok s0 → distinct_fields s0 →
      (∀ g ∈ s0.fields, strcmp (cstr g.name) (cstr f.name) ≠ 0) →
      ∃ n s1, add_field k (some s0) f = some (n, some s1) ∧ distinct_fields s1) := by
  constructor
  · obtain ⟨i, hi, _⟩ := tmp_schema_name_spec d "project" s.name (by decide) hname
    have hinit : layout_ok (make_schema (tmp_name "project" s.name i)) :=
      ⟨rfl, rfl, packed_nil _ rfl⟩
    by_cases hfound : ∀ n ∈ names, get_field s n ≠ none
    · obtain ⟨s', h1, _, _, h2⟩ := make_sub_schema_loop_found k s names hfound
        { addr := fresh_addr d, sch := make_schema (tmp_name "project" s.name i),
          num_records := 0, current_pg := none }
        d.db_tables d.pager (fresh_addr_ne d) hinit
      obtain ⟨s'', h3, l, hsub, hnames⟩ := add_fields_names k
        ((names.filterMap (get_field s)).map dup_field)
        (make_schema (tmp_name "project" s.name i)) hinit
      simp only at h1
      rw [h3] at h1
      simp only [Option.some.injEq] at h1
      subst h1
      refine ⟨some (fresh_addr d), _, by
        simp only [make_sub_schema, hi, new_schema]
        simp only at h2
        exact h2, ?_⟩
      intro a ha
      simp only [Option.some.injEq] at ha
      subst ha
      refine ⟨{ addr := fresh_addr d, sch := s'', num_records := 0, current_pg := none },
        deref_cons_self _ _ _, ?_⟩
      have hp := (found_names_distinct s names hd).sublist hsub
      simp only [make_schema, List.map_nil, List.nil_append] at hnames
      rw [← hnames, List.pairwise_map] at hp
      exact hp
    · push_neg at hfound
      have hloop := make_sub_schema_loop_missing k s names hfound
        { addr := fresh_addr d, sch := make_schema (tmp_name "project" s.name i),
          num_records := 0, current_pg := none }
        d.db_tables d.pager (fresh_addr_ne d) hinit
      refine ⟨none, _, by
        simp only [make_sub_schema, hi, new_schema]
        simp only at hloop
        exact hloop, ?_⟩
      intro a ha
      exact absurd ha (by simp)
  · intro s0 f hl hdist hnew
    obtain ⟨n, s1, h1, _, hf⟩ := add_field_fields k s0 f hl
    refine ⟨n, s1, h1, ?_⟩
    unfold distinct_fields at *
    rcases hf with hf | hf
    · rw [hf]; exact hdist
    · rw [hf, List.pairwise_append]
      refine ⟨hdist, List.pairwise_singleton _ _, ?_⟩
      intro g hg g' hg'
      rw [List.mem_singleton] at hg'
      subst hg'
      exact hnew g hg

/-- Witness for C20 as amended: projecting `Person` on `name`, `id`. -/
theorem make_sub_schema_distinct_witness :
    is_c_string person.name ∧
    (["name", "id"] : List String).Pairwise (fun a b => strcmp (cstr a) (cstr b) ≠ 0) ∧
    (∃ r d', make_sub_schema k0 person_only (some person) ["name", "id"] = some (r, d') ∧
      ∀ a, r = some a → ∃ tb, deref d' a = some tb ∧ distinct_fields tb.sch) ∧
    (∀ (s0 : schema_struct) (f : field_desc), layout_ok s0 → distinct_fields s0 →
      (∀ g ∈ s0.fields, strcmp (cstr g.name) (cstr f.name) ≠ 0) →
      ∃ n s1, add_field k0 (some s0) f = some (n, some s1) ∧ distinct_fields s1) :=
  ⟨by decide, by decide,
   make_sub_schema_distinct k0 person_only person ["name", "id"] (by decide) (by decide)⟩

/-- Counterexample to C20 as stated: the field names of `Person` are
pairwise distinct, and the schema `make_sub_schema` returns for the names
`id`, `id` holds two fields named `id`; `add_field` likewise appends a
second field `id` to the schema `Person{id}`. -/
theorem make_sub_schema_repeats_name :
    distinct_fields person ∧
    sub_schema_of k0 person_only person ["id", "id"] =
      some { name := "project__Person_0",
             fields := [new_int_field k0 "id", { new_int_field k0 "id" with offset := 4 }],
             num_fields := 2, len := 8 } ∧
    distinct_fields person_id ∧
    add_field k0 (some person_id) (new_int_field k0 "id") =
      some (2, some { name := "Person",
                      fields := [new_int_field k0 "id",
                                 { new_int_field k0 "id" with offset := 4 }],
                      num_fields := 2, len := 8 }) := by
  refine ⟨by decide, by decide, by decide, by decide⟩

/-! ### C15 – `fill_sub_record` -/

theorem length_c_string_lt (bs : List Nat) (h : 0 ∈ bs) : (c_string bs).length < bs.length := by
  induction bs with
  | nil => simp at h
  | cons b bs ih =>
    by_cases hb : b = 0
    · simp [c_string, hb]
    · have h' : 0 ∈ bs := by
        rcases List.mem_cons.mp h with h0 | h0
        · exact absurd h0.symm hb
        · exact h0
      have := ih h'
      simp only [c_string, List.takeWhile_cons, hb, ne_eq, not_false_eq_true, decide_True,
        if_true, List.length_cons] at this ⊢
      omega

theorem c_string_append_nul (bs rest : List Nat) :
    c_string (c_string bs ++ 0 :: rest) = c_string bs := by
  induction bs with
  | nil => simp [c_string]
  | cons b bs ih =>
    by_cases hb : b = 0
    · simp [c_string, hb]
    · simp only [c_string, List.takeWhile_cons, hb, ne_eq, not_false_eq_true, decide_True,
        if_true, List.cons_append] at ih ⊢
      rw [ih]

theorem src_index_spec (fs : List field_desc) (name : String) :
    ∀ j, src_index fs name = some j →
      ∃ hj : j < fs.length,
        strcmp (cstr (fs.get ⟨j, hj⟩).name) (cstr name) = 0 ∧
        ∀ (i : Nat) (hi : i < fs.length), i < j →
          strcmp (cstr (fs.get ⟨i, hi⟩).name) (cstr name) ≠ 0 := by
  induction fs with
  | nil => intro j h; simp [src_index] at h
  | cons f fs ih =>
    intro j h
    by_cases hf : strcmp (cstr f.name) (cstr name) = 0
    · simp only [src_index, hf, ne_eq, not_true_eq_false, if_false, Option.some.injEq] at h
      subst h
      exact ⟨by simp, by simpa using hf, fun i _ hi => by omega⟩
    · simp only [src_index, hf, ne_eq, not_false_eq_true, if_true, Option.map_eq_some'] at h
      obtain ⟨j', hj', rfl⟩ := h
      obtain ⟨hlt, h0, hmin⟩ := ih j' hj'
      refine ⟨by simp; omega, by simpa using h0, ?_⟩
      intro i hi hij
      cases i with
      | zero => simpa using hf
      | succ i =>
        have := hmin i (by simp at hi; omega) (by omega)
        simpa using this

theorem src_index_of_get_field (s : schema_struct) (n : String) (f : field_desc)
    (h : get_field s n = some f) :
    ∃ j, src_index s.fields f.name = some j ∧ s.fields[j]? = some f := by
  have hfn := (strcmp_eq_zero_iff _ _).mp (get_field_name s n f h)
  unfold get_field at h
  generalize s.fields = fs at h
  induction fs with
  | nil => simp at h
  | cons g gs ih =>
    by_cases hg : strcmp (cstr g.name) (cstr n) = 0
    · have hb : (strcmp (cstr g.name) (cstr n) == 0) = true := by simp [hg]
      simp only [List.find?, hb, Option.some.injEq] at h
      subst h
      exact ⟨0, by simp [src_index, strcmp_self], by simp⟩
    · have hb : (strcmp (cstr g.name) (cstr n) == 0) = false := by simp [hg]
      simp only [List.find?, hb] at h
      obtain ⟨j, hj1, hj2⟩ := ih h
      have hg' : strcmp (cstr g.name) (cstr f.name) ≠ 0 := by
        intro h0
        apply hg
        exact (strcmp_eq_zero_iff _ _).mpr (by rw [(strcmp_eq_zero_iff _ _).mp h0, hfn])
      exact ⟨j + 1, by simp [src_index, hg', hj1], by simpa using hj2⟩

theorem filled_getElem (fs : List field_desc) :
    ∀ (r : record) (j : Nat) (f : field_desc), filled fs r = true → fs[j]? = some f →
      ∃ sb, r[j]? = some sb ∧ buf_filled f sb = true := by
  induction fs with
  | nil => intro r j f _ h; simp at h
  | cons g gs ih =>
    intro r j f hfill h
    cases r with
    | nil => simp [filled] at hfill
    | cons b r =>
      simp only [filled, Bool.and_eq_true] at hfill
      cases j with
      | zero =>
        simp only [List.getElem?_cons_zero, Option.some.injEq] at h
        subst h
        exact ⟨b, by simp, hfill.1⟩
      | succ j =>
        simp only [List.getElem?_cons_succ] at h
        obtain ⟨sb, h1, h2⟩ := ih r j f hfill.2 h
        exact ⟨sb, by simpa using h1, h2⟩

theorem add_fields_members (k : consts) (gs : List field_desc) :
    ∀ s : schema_struct, layout_ok s →
      ∃ s', add_fields k (some s) gs = some (some s') ∧
        ∀ g ∈ s'.fields, g ∈ s.fields ∨
          ∃ g0 ∈ gs, g.name = g0.name ∧ g.type = g0.type ∧ g.len = g0.len := by
  induction gs with
  | nil => intro s _; exact ⟨s, rfl, fun g hg => Or.inl hg⟩
  | cons g0 gs ih =>
    intro s hl
    obtain ⟨n, s1, h1, hl1, hf⟩ := add_field_fields k s g0 hl
    obtain ⟨s2, h2, hmem⟩ := ih s1 hl1
    refine ⟨s2, by simp only [add_fields, h1]; exact h2, ?_⟩
    intro g hg
    rcases hmem g hg with h | ⟨g1, hg1, hh⟩
    · rcases hf with hf | hf
      · left; rw [← hf]; exact h
      · rw [hf, List.mem_append, List.mem_singleton] at h
        rcases h with h | h
        · left; exact h
        · right
          exact ⟨g0, List.mem_cons_self _ _, by rw [h], by rw [h], by rw [h]⟩
    · right
      exact ⟨g1, List.mem_cons_of_mem _ hg1, hh⟩

theorem fill_sub_fields_ok (src_s : schema_struct) (src_r : record)
    (hsrc : filled src_s.fields src_r = true) (dfs : List field_desc) :
    ∀ dest_r : record, shaped dfs dest_r = true →
      (∀ g ∈ dfs, ∃ f n, get_field src_s n = some f ∧ g.name = f.name ∧ g.type = f.type ∧
        g.len = f.len) →
      ∃ r', fill_sub_fields dfs dest_r src_r src_s.fields = some r' ∧
        List.Forall₂ (holds_source_value src_s src_r) dfs r' := by
  induction dfs with
  | nil =>
    intro dest_r hd _
    cases dest_r with
    | nil => exact ⟨[], rfl, List.Forall₂.nil⟩
    | cons b r => simp [shaped] at hd
  | cons g dfs ih =>
    intro dest_r hd hcopy
    cases dest_r with
    | nil => simp [shaped] at hd
    | cons b r =>
      simp only [shaped, Bool.and_eq_true] at hd
      obtain ⟨hb, hr⟩ := hd
      obtain ⟨r', hr', hall⟩ := ih r hr (fun x hx => hcopy x (List.mem_cons_of_mem _ hx))
      obtain ⟨f, n, hget, hgn, hgt, hgl⟩ := hcopy g (List.mem_cons_self _ _)
      obtain ⟨j, hj, hjf⟩ := src_index_of_get_field src_s n f hget
      obtain ⟨sb, hsb, hfilled⟩ := filled_getElem src_s.fields src_r j f hsrc hjf
      rw [← hgn] at hj
      obtain ⟨hjlt, hj0, hjmin⟩ := src_index_spec src_s.fields g.name j hj
      have hint : is_int_field (some g) = is_int_field (some f) := by
        simp [is_int_field, hgt]
      cases sb with
      | int_buf x =>
        simp only [buf_filled] at hfilled
        have hgi : is_int_field (some g) = true := by rw [hint]; exact hfilled
        cases b with
        | int_buf y =>
          refine ⟨field_buf.int_buf x :: r', ?_, ?_⟩
          · simp [fill_sub_fields, hj, hsb, hgi, assign_int_field, hr']
          · exact List.Forall₂.cons
              ⟨j, hjlt, field_buf.int_buf x, hj0, hjmin, hsb, rfl⟩ hall
        | str_buf y =>
          simp only [buf_shaped, Bool.and_eq_true, Bool.not_eq_true'] at hb
          rw [hgi] at hb
          exact absurd hb.1 (by simp)
      | str_buf bs =>
        simp only [buf_filled, Bool.and_eq_true, Bool.not_eq_true', decide_eq_true_eq] at hfilled
        obtain ⟨⟨hfi, hlen⟩, hnul⟩ := hfilled
        have hgi : is_int_field (some g) = false := by rw [hint]; exact hfi
        cases b with
        | int_buf y =>
          simp only [buf_shaped] at hb
          rw [hgi] at hb
          exact absurd hb (by simp)
        | str_buf buf =>
          simp only [buf_shaped, Bool.and_eq_true, Bool.not_eq_true', decide_eq_true_eq] at hb
          have h0 : 0 ∈ bs := by simpa using hnul
          have hlt := length_c_string_lt bs h0
          have hle : (c_string bs ++ [0]).length ≤ buf.length := by
            have : (buf.length : Int) = (bs.length : Int) := by rw [hb.2, hgl, hlen]
            have : buf.length = bs.length := by exact_mod_cast this
            simp only [List.length_append, List.length_singleton]
            omega
          refine ⟨field_buf.str_buf (c_string bs ++ [0] ++ buf.drop (c_string bs ++ [0]).length)
            :: r', ?_, ?_⟩
          · simp only [fill_sub_fields, hj, hsb, hgi, assign_str_field, hle, if_true, hr']
            simp
          · refine List.Forall₂.cons ⟨j, hjlt, field_buf.str_buf bs, hj0, hjmin, hsb, ?_⟩ hall
            simp only [same_value, List.append_assoc, List.singleton_append]
            exact c_string_append_nul bs _

/-- C15: for a source schema `src_s`, a schema `dest_s` returned by
`make_sub_schema(src_s, …)`, a filled record `src_r` of `src_s` and a
record `dest_r` shaped by `dest_s`, `fill_sub_record` finds for every
destination field a source field of the same name (the inner search does
not run past the end of the source field list) and leaves in `dest_r[i]`
the value of `src_r[j]`, `j` being the index of the first field of `src_s`
whose name equals the name of the `i`-th field of `dest_s`. -/
theorem fill_sub_record_ok (k : consts) (d d' : db) (src_s : schema_struct)
    (names : List String) (a : Nat) (tb : tbl_desc_struct) (src_r dest_r : record)
    (hms : make_sub_schema k d (some src_s) names = some (some a, d'))
    (htb : deref d' a = some tb)
    (hsrc : filled src_s.fields src_r = true)
    (hdest : shaped tb.sch.fields dest_r = true) :
    ∃ r', fill_sub_record dest_r tb.sch src_r src_s = some r' ∧
      List.Forall₂ (holds_source_value src_s src_r) tb.sch.fields r' := by
  unfold fill_sub_record
  apply fill_sub_fields_ok src_s src_r hsrc tb.sch.fields dest_r hdest
  simp only [make_sub_schema] at hms
  cases hnm : tmp_schema_name d "project" src_s.name with
  | none => simp [hnm] at hms
  | some nm =>
    simp only [hnm] at hms
    have hinit : layout_ok (make_schema nm) := ⟨rfl, rfl, packed_nil _ rfl⟩
    by_cases hfound : ∀ n ∈ names, get_field src_s n ≠ none
    · obtain ⟨s', h1, _, _, h2⟩ := make_sub_schema_loop_found k src_s names hfound
        { addr := fresh_addr d, sch := make_schema nm, num_records := 0, current_pg := none }
        d.db_tables d.pager (fresh_addr_ne d) hinit
      obtain ⟨s'', h3, hmem⟩ := add_fields_members k
        ((names.filterMap (get_field src_s)).map dup_field) (make_schema nm) hinit
      simp only at h1
      rw [h3] at h1
      simp only [Option.some.injEq] at h1
      subst h1
      simp only [new_schema] at hms
      simp only at h2
      rw [h2] at hms
      simp only [Option.some.injEq, Prod.mk.injEq] at hms
      obtain ⟨ha, hd'⟩ := hms
      subst ha
      subst hd'
      rw [deref_cons_self] at htb
      simp only [Option.some.injEq] at htb
      subst htb
      intro g hg
      rcases hmem g hg with h | ⟨g0, hg0, hn, hty, hln⟩
      · simp [make_schema] at h
      · simp only [List.mem_map, List.mem_filterMap] at hg0
        obtain ⟨f, ⟨n, _, hget⟩, rfl⟩ := hg0
        exact ⟨f, n, hget, hn, hty, hln⟩
    · push_neg at hfound
      have hloop := make_sub_schema_loop_missing k src_s names hfound
        { addr := fresh_addr d, sch := make_schema nm, num_records := 0, current_pg := none }
        d.db_tables d.pager (fresh_addr_ne d) hinit
      simp only [new_schema] at hms
      simp only at hloop
      rw [hloop] at hms
      simp at hms

/-- Witness for C15: the record `(2, "Bo")` of `Person` copied into a new
record of the projection of `Person` on `name`, `id`. -/
theorem fill_sub_record_ok_witness :
    make_sub_schema k0 person_only (some person) ["name", "id"] =
      some (some 2, person_sub_db) ∧
    deref person_sub_db 2 = some person_sub_tbl ∧
    filled person.fields bo_over_anna = true ∧
    shaped person_sub_tbl.sch.fields (new_record person_sub_tbl.sch) = true ∧
    fill_sub_record (new_record person_sub_tbl.sch) person_sub_tbl.sch bo_over_anna person =
      some [field_buf.str_buf ([66, 111] ++ List.replicate 18 0), field_buf.int_buf 2] ∧
    ∃ r', fill_sub_record (new_record person_sub_tbl.sch) person_sub_tbl.sch bo_over_anna
        person = some r' ∧
      List.Forall₂ (holds_source_value person bo_over_anna) person_sub_tbl.sch.fields r' :=
  ⟨by rfl, by decide, by decide, by decide, by decide,
   fill_sub_record_ok k0 person_only person_sub_db person ["name", "id"] 2 person_sub_tbl
     bo_over_anna (new_record person_sub_tbl.sch) (by rfl) (by decide) (by decide) (by decide)⟩

/-! ### C16 – `append_record` -/

theorem addr_of_deref (d : db) (a : Nat) (tb : tbl_desc_struct) (h : deref d a = some tb) :
    tb.addr = a := by
  unfold deref at h
  have := List.find?_some h
  simpa using this

theorem find_map_replace (l : List tbl_desc_struct) (a : Nat) (tb t' : tbl_desc_struct)
    (h : l.find? (fun t => t.addr == a) = some tb) (ha : t'.addr = a) :
    (l.map (fun u => if u.addr == t'.addr then t' else u)).find? (fun t => t.addr == a) =
      some t' := by
  induction l with
  | nil => simp at h
  | cons u rest ih =>
    by_cases hu : u.addr = a
    · have h1 : (u.addr == t'.addr) = true := by simp [hu, ha]
      have h2 : (t'.addr == a) = true := by simp [ha]
      simp only [List.map_cons, h1, if_true, List.find?, h2]
    · have h1 : (u.addr == t'.addr) = false := by simp [hu, ha]
      have h2 : (u.addr == a) = false := by simp [hu]
      simp only [List.find?, h2] at h
      simp only [List.map_cons, h1, List.find?, h2, Bool.false_eq_true, if_false]
      exact ih h

theorem deref_store (d : db) (a : Nat) (tb t' : tbl_desc_struct)
    (h : deref d a = some tb) (ha : t'.addr = a) :
    deref (store d t') a = some t' := by
  unfold deref store
  exact find_map_replace d.db_tables a tb t' h ha

theorem put_page_record_tables (k : consts) (d d1 : db) (pg : page_ref) (r : record)
    (s : schema_struct) (n : Int) (h : put_page_record k d pg r s = some (n, d1)) :
    d1.db_tables = d.db_tables := by
  unfold put_page_record at h
  split at h
  · simp at h
  · split at h
    · simp at h
    · simp only [Option.some.injEq, Prod.mk.injEq] at h; rw [← h.2]
    · split at h
      · simp at h
      · simp only [Option.some.injEq, Prod.mk.injEq] at h; rw [← h.2]

/-- C16: a call `append_record(r, s)` that returns (takes no fatal exit)
leaves the table of `s` with `num_records` increased by exactly 1 and
with the same schema, and its current page is the page the record was
written to: the append page when `put_page_record` succeeded there, or
else the page after it; every other table descriptor is unchanged. -/
theorem append_record_counts (k : consts) (d d' : db) (r : record) (s : Nat)
    (tb : tbl_desc_struct) (ht : deref d s = some tb)
    (h : append_record k d r s = some d') :
    ∃ pg, deref d' s =
        some { tb with current_pg := some pg, num_records := tb.num_records + 1 } ∧
      d'.db_tables = d.db_tables.map (fun u =>
        if u.addr == s then
          { tb with current_pg := some pg, num_records := tb.num_records + 1 }
        else u) ∧
      (((get_page_for_append k d.pager tb.sch.name).1 = some pg ∧
        ∃ n d1, n ≠ 0 ∧
          put_page_record k { d with pager := (get_page_for_append k d.pager tb.sch.name).2 }
            pg r tb.sch = some (n, d1) ∧ d'.pager = d1.pager) ∨
       (∃ pg0 d1 n2 d2, (get_page_for_append k d.pager tb.sch.name).1 = some pg0 ∧
          put_page_record k { d with pager := (get_page_for_append k d.pager tb.sch.name).2 }
            pg0 r tb.sch = some (0, d1) ∧
          (get_next_page k d1.pager pg0).1 = some pg ∧ n2 ≠ 0 ∧
          put_page_record k { d1 with pager := (get_next_page k d1.pager pg0).2 }
            pg r tb.sch = some (n2, d2) ∧ d'.pager = d2.pager)) := by
  have haddr := addr_of_deref d s tb ht
  unfold append_record at h
  simp only [ht] at h
  cases hg : (get_page_for_append k d.pager tb.sch.name).1 with
  | none => simp [hg] at h
  | some pg0 =>
    simp only [hg] at h
    cases hp : put_page_record k
        { d with pager := (get_page_for_append k d.pager tb.sch.name).2 } pg0 r tb.sch with
    | none => simp [hp] at h
    | some res =>
      obtain ⟨n, d1⟩ := res
      simp only [hp] at h
      have ht1 : d1.db_tables = d.db_tables := by
        rw [put_page_record_tables k _ _ _ _ _ _ hp]
      have hd1 : deref d1 s = some tb := by unfold deref; rw [ht1]; exact ht
      by_cases hn : n = 0
      · subst hn
        simp only [ne_eq, not_true_eq_false, if_false] at h
        cases hg2 : (get_next_page k d1.pager pg0).1 with
        | none => simp [hg2] at h
        | some pg2 =>
          simp only [hg2] at h
          cases hp2 : put_page_record k
              { d1 with pager := (get_next_page k d1.pager pg0).2 } pg2 r tb.sch with
          | none => simp [hp2] at h
          | some res2 =>
            obtain ⟨n2, d2⟩ := res2
            simp only [hp2] at h
            have ht2 : d2.db_tables = d.db_tables := by
              rw [put_page_record_tables k _ _ _ _ _ _ hp2]; exact ht1
            have hd2 : deref d2 s = some tb := by unfold deref; rw [ht2]; exact ht
            by_cases hn2 : n2 = 0
            · simp [hn2] at h
            · simp only [ne_eq, hn2, not_false_eq_true, if_true, Option.some.injEq] at h
              subst h
              refine ⟨pg2, deref_store d2 s tb _ hd2 haddr, ?_, Or.inr
                ⟨pg0, d1, n2, d2, rfl, hp, hg2, hn2, hp2, rfl⟩⟩
              simp only [store, ht2, haddr]
      · simp only [ne_eq, hn, not_false_eq_true, if_true, Option.some.injEq] at h
        subst h
        refine ⟨pg0, deref_store d1 s tb _ hd1 haddr, ?_, Or.inl ⟨rfl, n, d1, hn, hp, rfl⟩⟩
        simp only [store, ht1, haddr]

theorem some_getD_of_isSome {α : Type} (o : Option α) (x : α) (h : o.isSome = true) :
    o = some (o.getD x) := by
  cases o with
  | none => simp at h
  | some v => rfl

/-- Witness for C16: with room for two records per page, the table
`Person` holds two records in block 0; the third `append_record` returns,
writes to block 1 and leaves `num_records` at 3. -/
theorem append_record_counts_witness :
    deref (person_two k1) 1 =
      some { person_tbl with num_records := 2,
                             current_pg := some { fname := "Person", block_nr := 0 } } ∧
    ∃ d', append_record k1 (person_two k1) bo_over_anna 1 = some d' ∧
      deref d' 1 =
        some { person_tbl with num_records := 3,
                               current_pg := some { fname := "Person", block_nr := 1 } } ∧
      ∃ pg, deref d' 1 =
          some { ({ person_tbl with
                      num_records := 2,
                      current_pg := some { fname := "Person", block_nr := 0 } } :
                    tbl_desc_struct) with
                 current_pg := some pg, num_records := 2 + 1 } ∧
        d'.db_tables = (person_two k1).db_tables.map (fun u =>
          if u.addr == 1 then
            { ({ person_tbl with
                   num_records := 2,
                   current_pg := some { fname := "Person", block_nr := 0 } } :
                 tbl_desc_struct) with
              current_pg := some pg, num_records := 2 + 1 }
          else u) ∧
        (((get_page_for_append k1 (person_two k1).pager "Person").1 = some pg ∧
          ∃ n d1, n ≠ 0 ∧
            put_page_record k1
              { (person_two k1) with
                pager := (get_page_for_append k1 (person_two k1).pager "Person").2 }
              pg bo_over_anna person = some (n, d1) ∧ d'.pager = d1.pager) ∨
         (∃ pg0 d1 n2 d2, (get_page_for_append k1 (person_two k1).pager "Person").1 = some pg0 ∧
            put_page_record k1
              { (person_two k1) with
                pager := (get_page_for_append k1 (person_two k1).pager "Person").2 }
              pg0 bo_over_anna person = some (0, d1) ∧
            (get_next_page k1 d1.pager pg0).1 = some pg ∧ n2 ≠ 0 ∧
            put_page_record k1 { d1 with pager := (get_next_page k1 d1.pager pg0).2 }
              pg bo_over_anna person = some (n2, d2) ∧ d'.pager = d2.pager)) :=
  ⟨by decide,
   (append_record k1 (person_two k1) bo_over_anna 1).getD person_only,
   some_getD_of_isSome _ _ (by decide),
   by decide,
   append_record_counts k1 (person_two k1) _ bo_over_anna 1
     { person_tbl with num_records := 2,
                       current_pg := some { fname := "Person", block_nr := 0 } }
     (by decide) (some_getD_of_isSome _ _ (by decide))⟩

/-! ### C19 – table names in the catalog -/

theorem distinct_new_schema (d : db) (name : String) (hd : distinct_names d)
    (hfresh : get_table d name = none) : distinct_names (new_schema d name).2 := by
  unfold distinct_names at *
  simp only [new_schema, List.pairwise_cons]
  refine ⟨?_, hd⟩
  intro u hu
  unfold get_table at hfresh
  rw [Option.map_eq_none', List.find?_eq_none] at hfresh
  have := hfresh u hu
  simpa [make_schema] using this

theorem distinct_remove_table (d : db) (t : tbl_p) (hd : distinct_names d) :
    distinct_names (remove_table d t) := by
  unfold remove_table
  cases t with
  | none => exact hd
  | some a =>
    cases hdr : deref d a with
    | none => simpa [hdr] using hd
    | some tb =>
      simp only [hdr]
      unfold distinct_names at *
      exact hd.sublist (List.eraseP_sublist _)

/-- C19, as the code has it: `new_schema` has no failure path; it puts a
new table of the given name at the head of the catalog whether or not a
table of that name exists.  The table names in the catalog stay pairwise
distinct after every sequence of `new_schema` and `remove_table` calls in
which each `new_schema` call is made with a name that no table of the
catalog has at that moment. -/
theorem catalog_names_distinct (d : db) (cs : List catalog_call)
    (hd : distinct_names d) (hfresh : fresh_calls d cs = true) :
    distinct_names (run_calls d cs) ∧
    ∀ (d0 : db) (name : String),
      (new_schema d0 name).2.db_tables =
        { addr := fresh_addr d0, sch := make_schema name, num_records := 0,
          current_pg := none } :: d0.db_tables := by
  refine ⟨?_, fun d0 name => rfl⟩
  induction cs generalizing d with
  | nil => exact hd
  | cons c cs ih =>
    cases c with
    | create name =>
      simp only [fresh_calls, Bool.and_eq_true, Option.isNone_iff_eq_none] at hfresh
      exact ih (new_schema d name).2 (distinct_new_schema d name hd hfresh.1) hfresh.2
    | drop t =>
      simp only [fresh_calls] at hfresh
      exact ih (remove_table d t) (distinct_remove_table d t hd) hfresh

/-- Witness for C19 as amended: tables `A`, `B` are created, `A` is
dropped and created again. -/
theorem catalog_names_distinct_witness :
    distinct_names empty_db ∧
    fresh_calls empty_db
      [catalog_call.create "A", catalog_call.create "B", catalog_call.drop (some 1),
       catalog_call.create "A"] = true ∧
    (distinct_names (run_calls empty_db
      [catalog_call.create "A", catalog_call.create "B", catalog_call.drop (some 1),
       catalog_call.create "A"]) ∧
     ∀ (d0 : db) (name : String),
      (new_schema d0 name).2.db_tables =
        { addr := fresh_addr d0, sch := make_schema name, num_records := 0,
          current_pg := none } :: d0.db_tables) :=
  ⟨by decide, by decide,
   catalog_names_distinct empty_db _ (by decide) (by decide)⟩

/-- Counterexample to C19 as stated: the catalog holds a table `Person`;
`new_schema("Person")` returns a new table all the same, and the catalog
then holds two tables named `Person`. -/
theorem new_schema_accepts_existing_name :
    get_table person_only "Person" = some 1 ∧
    (new_schema person_only "Person").1 = 2 ∧
    (new_schema person_only "Person").2.db_tables.map (fun t => t.sch.name) =
      ["Person", "Person"] ∧
    ¬ distinct_names (new_schema person_only "Person").2 := by
  refine ⟨by decide, by decide, by decide, by decide⟩

/-! ### Helper lemmas about the catalog file -/

theorem digitChar_isDigit (m : Nat) (h : m < 10) : (Nat.digitChar m).isDigit = true := by
  interval_cases m <;> rfl

theorem toDigitsCore_isDigit (fuel : Nat) :
    ∀ (n : Nat) (ds : List Char), (∀ c ∈ ds, c.isDigit = true) →
      ∀ c ∈ Nat.toDigitsCore 10 fuel n ds, c.isDigit = true := by
  induction fuel with
  | zero => intro n ds h; simpa [Nat.toDigitsCore] using h
  | succ fuel ih =>
    intro n ds h
    have hcons : ∀ c ∈ Nat.digitChar (n % 10) :: ds, c.isDigit = true := by
      intro c hc
      rcases List.mem_cons.mp hc with rfl | hc
      · exact digitChar_isDigit _ (Nat.mod_lt _ (by decide))
      · exact h c hc
    simp only [Nat.toDigitsCore]
    split_ifs with h0
    · exact hcons
    · exact ih _ _ hcons

theorem toString_isDigit (n : Nat) : ∀ c ∈ (toString n).data, c.isDigit = true := by
  intro c hc
  exact toDigitsCore_isDigit (n + 1) n [] (by simp) c
    (by simpa [toString, Nat.repr, Nat.toDigits] using hc)

theorem digits_value_toString (n : Nat) : digits_value (toString n).data = n := by
  have := cstr_toString_decode n
  simpa [digits_value, cstr, List.foldl_map] using this

theorem toString_ne_nil (n : Nat) : (toString n).data ≠ [] := by
  intro h
  have := digits_value_toString n
  rw [h] at this
  simp only [digits_value, List.foldl_nil] at this
  subst this
  exact absurd h (by decide)

theorem not_space_of_isDigit (c : Char) (h : c.isDigit = true) : is_space c = false := by
  by_contra hs
  simp only [Bool.not_eq_false, is_space, Bool.or_eq_true, decide_eq_true_eq] at hs
  rcases hs with ((((rfl | rfl) | rfl) | rfl) | rfl) | rfl <;> exact absurd h (by decide)

theorem not_isDigit_of_space (c : Char) (h : is_space c = true) : c.isDigit = false := by
  cases hd : c.isDigit with
  | false => rfl
  | true => rw [not_space_of_isDigit c hd] at h; exact absurd h (by simp)

theorem skip_space_cons_space (c : Char) (l : List Char) (h : is_space c = true) :
    skip_space (c :: l) = skip_space l := by
  simp [skip_space, List.dropWhile, h]

theorem skip_space_cons_not (c : Char) (l : List Char) (h : is_space c = false) :
    skip_space (c :: l) = c :: l := by
  simp [skip_space, List.dropWhile, h]

theorem scan_str_cons_space (c : Char) (l : List Char) (h : is_space c = true) :
    scan_str (c :: l) = scan_str l := by
  simp only [scan_str, skip_space_cons_space c l h]

theorem scan_int_cons_space (c : Char) (l : List Char) (h : is_space c = true) :
    scan_int (c :: l) = scan_int l := by
  simp only [scan_int, skip_space_cons_space c l h]

theorem takeWhile_append_stop {p : Char → Bool} (a : List Char) (c : Char) (rest : List Char)
    (ha : ∀ x ∈ a, p x = true) (hc : p c = false) :
    (a ++ c :: rest).takeWhile p = a ∧ (a ++ c :: rest).dropWhile p = c :: rest := by
  induction a with
  | nil => simp [List.takeWhile, List.dropWhile, hc]
  | cons x xs ih =>
    have hx : p x = true := ha x (List.mem_cons_self _ _)
    obtain ⟨h1, h2⟩ := ih (fun y hy => ha y (List.mem_cons_of_mem _ hy))
    simp [List.takeWhile, List.dropWhile, hx, h1, h2]

theorem scan_str_name (s : String) (c : Char) (rest : List Char)
    (hs : valid_name s = true) (hc : is_space c = true) :
    scan_str (s.data ++ c :: rest) = some (s, c :: rest) := by
  simp only [valid_name, Bool.and_eq_true, Bool.not_eq_true', decide_eq_true_eq,
    List.all_eq_true] at hs
  obtain ⟨⟨hne, hlen⟩, hall⟩ := hs
  have hne' : s.data ≠ [] := by
    intro h; rw [h] at hne; simp at hne
  obtain ⟨x, xs, hx⟩ := List.exists_cons_of_ne_nil hne'
  have hxs : is_space x = false := by
    have := hall x (by rw [hx]; exact List.mem_cons_self _ _)
    simpa using this
  have hskip : skip_space (s.data ++ c :: rest) = s.data ++ c :: rest := by
    rw [hx]; exact skip_space_cons_not x _ hxs
  obtain ⟨h1, h2⟩ := takeWhile_append_stop (p := fun c => !is_space c) s.data c rest
    (fun y hy => by simp [hall y hy]) (by simp [hc])
  simp only [scan_str, hskip, h1, h2]
  have : ¬ (s.data = [] ∨ 30 ≤ s.data.length) := by
    push_neg; exact ⟨hne', hlen⟩
  rw [if_neg this]

theorem scan_int_print (x : Int) (c : Char) (rest : List Char) (hc : is_space c = true) :
    scan_int (print_int x ++ c :: rest) = some (x, c :: rest) := by
  have hcd : c.isDigit = false := not_isDigit_of_space c hc
  by_cases hx : x < 0
  · have hp : print_int x = '-' :: (toString x.natAbs).data := by simp [print_int, hx]
    obtain ⟨h1, h2⟩ := takeWhile_append_stop (p := Char.isDigit) (toString x.natAbs).data c rest
      (toString_isDigit _) hcd
    have hskip : skip_space (print_int x ++ c :: rest) =
        '-' :: ((toString x.natAbs).data ++ c :: rest) := by
      rw [hp]; exact skip_space_cons_not '-' _ (by decide)
    simp only [scan_int, hskip, List.head?_cons, true_or, if_true, List.tail_cons, h1, h2,
      toString_ne_nil, if_false, digits_value_toString]
    congr 2
    omega
  · have hp : print_int x = (toString x.toNat).data := by simp [print_int, hx]
    obtain ⟨h1, h2⟩ := takeWhile_append_stop (p := Char.isDigit) (toString x.toNat).data c rest
      (toString_isDigit _) hcd
    obtain ⟨y, ys, hy⟩ := List.exists_cons_of_ne_nil (toString_ne_nil x.toNat)
    have hyd : y.isDigit = true := toString_isDigit x.toNat y (by rw [hy]; exact List.mem_cons_self _ _)
    have hskip : skip_space (print_int x ++ c :: rest) = print_int x ++ c :: rest := by
      rw [hp, hy]; exact skip_space_cons_not y _ (not_space_of_isDigit y hyd)
    have hm : y ≠ '-' := by intro h; rw [h] at hyd; exact absurd hyd (by decide)
    have hpl : y ≠ '+' := by intro h; rw [h] at hyd; exact absurd hyd (by decide)
    have hhead : (print_int x ++ c :: rest).head? = some y := by rw [hp, hy]; rfl
    simp only [scan_int, hskip, hhead, Option.some.injEq, hm, hpl, or_self, if_false]
    rw [hp, h1, h2]
    simp only [toString_ne_nil, if_false, digits_value_toString]
    congr 2
    omega

theorem relocate_dup (fs : List field_desc) :
    ∀ acc, relocate acc (fs.map dup_field) = relocate acc fs := by
  induction fs with
  | nil => intro acc; rfl
  | cons f fs ih =>
    intro acc
    simp only [List.map_cons, relocate, dup_field]
    rw [← ih]

theorem print_int_clean (x : Int) (rest : List Char) :
    skip_space (print_int x ++ rest) = print_int x ++ rest := by
  by_cases hx : x < 0
  · have hp : print_int x = '-' :: (toString x.natAbs).data := by simp [print_int, hx]
    rw [hp]
    exact skip_space_cons_not '-' _ (by decide)
  · have hp : print_int x = (toString x.toNat).data := by simp [print_int, hx]
    obtain ⟨y, ys, hy⟩ := List.exists_cons_of_ne_nil (toString_ne_nil x.toNat)
    have hyd : y.isDigit = true :=
      toString_isDigit x.toNat y (by rw [hy]; exact List.mem_cons_self _ _)
    rw [hp, hy]
    exact skip_space_cons_not y _ (not_space_of_isDigit y hyd)

theorem name_clean (s : String) (rest : List Char) (hs : valid_name s = true) :
    skip_space (s.data ++ rest) = s.data ++ rest := by
  simp only [valid_name, Bool.and_eq_true, Bool.not_eq_true', decide_eq_true_eq,
    List.all_eq_true] at hs
  obtain ⟨⟨hne, _⟩, hall⟩ := hs
  have hne' : s.data ≠ [] := by
    intro h; rw [h] at hne; simp at hne
  obtain ⟨x, xs, hx⟩ := List.exists_cons_of_ne_nil hne'
  have hxs : is_space x = false := by
    have := hall x (by rw [hx]; exact List.mem_cons_self _ _)
    simpa using this
  rw [hx]
  exact skip_space_cons_not x _ hxs

theorem fields_text_clean (fs : List field_desc) (tail : List Char)
    (hfs : ∀ f ∈ fs, valid_name f.name = true) (ht : skip_space tail = tail) :
    skip_space ((fs.map save_field).flatten ++ tail) = (fs.map save_field).flatten ++ tail := by
  cases fs with
  | nil => simpa using ht
  | cons f fs =>
    simp only [List.map_cons, List.flatten_cons, save_field, List.append_assoc]
    exact name_clean f.name _ (hfs f (List.mem_cons_self _ _))

theorem read_fields_saved (k : consts) (fs : List field_desc)
    (hfs : ∀ f ∈ fs, valid_name f.name = true ∧
      (f.type = field_type.INT_TYPE → f.len = k.INT_SIZE)) :
    ∀ (t : tbl_desc_struct) (rest : List tbl_desc_struct) (p : pager_state)
      (tail : List Char),
      (∀ u ∈ rest, u.addr ≠ t.addr) → layout_ok t.sch → skip_space tail = tail →
      ∃ s', add_fields k (some t.sch) fs = some (some s') ∧ layout_ok s' ∧
        s'.name = t.sch.name ∧
        read_fields k fs.length { db_tables := t :: rest, pager := p } t.addr
            ((fs.map save_field).flatten ++ tail) =
          some ({ db_tables := { t with sch := s' } :: rest, pager := p }, tail) := by
  induction fs with
  | nil =>
    intro t rest p tail _ hl _
    exact ⟨t.sch, rfl, hl, rfl, rfl⟩
  | cons f fs ih =>
    intro t rest p tail hr hl htail
    have hf := hfs f (List.mem_cons_self _ _)
    have hfs' : ∀ g ∈ fs, valid_name g.name = true ∧
        (g.type = field_type.INT_TYPE → g.len = k.INT_SIZE) :=
      fun g hg => hfs g (List.mem_cons_of_mem _ hg)
    obtain ⟨m, s1, h1, hl1, hn1, hin⟩ := add_field_in_head k t rest p f hr hl
    obtain ⟨s2, h2, hl2, hn2, hr2⟩ := ih hfs' { t with sch := s1 } rest p tail hr hl1 htail
    refine ⟨s2, by simp only [add_fields, h1]; exact h2, hl2, by rw [hn2]; exact hn1, ?_⟩
    have hsp : is_space ' ' = true := by decide
    have hnl : is_space '\n' = true := by decide
    have hfld : (if type_code f.type = type_code field_type.INT_TYPE then
          some (new_int_field k f.name)
        else if type_code f.type = type_code field_type.STR_TYPE then
          some (new_str_field f.name f.len)
        else none) =
        some { f with offset := 0 } := by
      cases hty : f.type with
      | INT_TYPE =>
        have := hf.2 hty
        simp [type_code, new_int_field, this]
      | STR_TYPE => simp [type_code, new_str_field]
    have hclean := fields_text_clean fs tail (fun g hg => (hfs' g hg).1) htail
    simp only [List.map_cons, List.flatten_cons, save_field, List.append_assoc,
      List.cons_append, List.nil_append, List.length_cons, read_fields]
    rw [scan_str_name f.name ' ' _ hf.1 hsp]
    simp only []
    rw [scan_int_cons_space ' ' _ hsp, scan_int_print _ ' ' _ hsp]
    simp only []
    rw [scan_int_cons_space ' ' _ hsp, scan_int_print _ ' ' _ hsp]
    simp only [hfld]
    rw [scan_int_cons_space ' ' _ hsp, scan_int_print _ '\n' _ hnl]
    simp only []
    rw [hin]
    simp only []
    rw [skip_space_cons_space '\n' _ hnl, hclean]
    exact hr2

theorem save_tbl_desc_ne_nil (t : tbl_desc_struct) : save_tbl_desc t ≠ [] := by
  intro h
  have := congrArg List.length h
  simp [save_tbl_desc] at this

theorem tables_text_clean (k : consts) (ts : List tbl_desc_struct)
    (hts : ∀ t ∈ ts, saved_ok k t) :
    skip_space ((ts.map save_tbl_desc).flatten) = (ts.map save_tbl_desc).flatten := by
  cases ts with
  | nil => rfl
  | cons t ts =>
    simp only [List.map_cons, List.flatten_cons, save_tbl_desc, List.append_assoc]
    exact name_clean t.sch.name _ (hts t (List.mem_cons_self _ _)).1

theorem tables_text_nil_iff (ts : List tbl_desc_struct) :
    (ts.map save_tbl_desc).flatten = [] ↔ ts = [] := by
  cases ts with
  | nil => simp
  | cons t ts =>
    simp only [List.map_cons, List.flatten_cons, List.append_eq_nil, reduceCtorEq, iff_false,
      not_and]
    intro h
    exact absurd h (save_tbl_desc_ne_nil t)

theorem read_tables_saved (k : consts) :
    ∀ (ts : List tbl_desc_struct) (d : db) (fuel : Nat), ts.length < fuel →
      (∀ t ∈ ts, saved_ok k t) →
      ∃ d', read_tables k fuel d ((ts.map save_tbl_desc).flatten) = some d' ∧
        d'.db_tables.map tbl_view = ts.reverse.map tbl_view ++ d.db_tables.map tbl_view ∧
        d'.pager = d.pager := by
  intro ts
  induction ts with
  | nil =>
    intro d fuel hfuel _
    cases fuel with
    | zero => omega
    | succ fuel => exact ⟨d, by simp [read_tables, scan_str, skip_space], by simp, rfl⟩
  | cons t ts ih =>
    intro d fuel hfuel hts
    cases fuel with
    | zero => omega
    | succ fuel =>
      obtain ⟨hname, hl, hfit, hfs⟩ := hts t (List.mem_cons_self _ _)
      have hts' : ∀ u ∈ ts, saved_ok k u := fun u hu => hts u (List.mem_cons_of_mem _ hu)
      have hsp : is_space ' ' = true := by decide
      have hnl : is_space '\n' = true := by decide
      have hinit : layout_ok (make_schema t.sch.name) := ⟨rfl, rfl, packed_nil _ rfl⟩
      have hrest := tables_text_clean k ts hts'
      have htail : skip_space (print_int t.num_records ++ '\n' :: (ts.map save_tbl_desc).flatten) =
          print_int t.num_records ++ '\n' :: (ts.map save_tbl_desc).flatten :=
        print_int_clean _ _
      obtain ⟨s', h1, _, _, h2⟩ := read_fields_saved k t.sch.fields hfs
        { addr := fresh_addr d, sch := make_schema t.sch.name, num_records := 0,
          current_pg := none }
        d.db_tables d.pager _ (fresh_addr_ne d) hinit htail
      have h3 := add_fields_relocate k t.sch.fields (make_schema t.sch.name) hinit hfit
      have hpk : relocate 0 t.sch.fields = t.sch.fields := by
        rw [← relocate_dup]
        exact relocate_dup_packed t.sch.fields 0 (fun i h => by rw [hl.2.2 i h]; ring)
      simp only at h1
      rw [h3] at h1
      simp only [Option.some.injEq] at h1
      have hs' : s' = t.sch := by
        rw [← h1]
        have hc : t.sch.num_fields = (t.sch.fields.length : Int) := hl.1
        have hs : t.sch.len = sum_len t.sch.fields := hl.2.1
        simp only [make_schema, hpk, List.nil_append, zero_add, ← hc, ← hs]
      subst hs'
      have hnum : t.sch.num_fields = (t.sch.fields.length : Int) := hl.1
      have hnn : ¬ t.sch.num_fields < 0 := by rw [hnum]; omega
      have htonat : t.sch.num_fields.toNat = t.sch.fields.length := by rw [hnum]; simp
      obtain ⟨d', hd', hview, hpg⟩ := ih
        { db_tables :=
            { addr := fresh_addr d, sch := t.sch, num_records := t.num_records,
              current_pg := none } :: d.db_tables,
          pager := d.pager } fuel (by simp at hfuel; omega) hts'
      refine ⟨d', ?_, ?_, hpg⟩
      · simp only [List.map_cons, List.flatten_cons, save_tbl_desc, List.append_assoc,
          List.cons_append, List.nil_append, read_tables]
        rw [scan_str_name t.sch.name ' ' _ hname hsp]
        simp only []
        rw [scan_int_cons_space ' ' _ hsp, scan_int_print _ '\n' _ hnl]
        simp only [hnn, if_false, htonat, new_schema]
        rw [skip_space_cons_space '\n' _ hnl,
          fields_text_clean t.sch.fields _ (fun g hg => (hfs g hg).1) htail]
        simp only at h2
        rw [h2]
        have hderef : deref
            { db_tables := { addr := fresh_addr d, sch := t.sch, num_records := 0,
                             current_pg := none } :: d.db_tables,
              pager := d.pager } (fresh_addr d) =
            some { addr := fresh_addr d, sch := t.sch, num_records := 0, current_pg := none } :=
          deref_cons_self
            { addr := fresh_addr d, sch := t.sch, num_records := 0, current_pg := none } _ _
        have hstore : store
            { db_tables := { addr := fresh_addr d, sch := t.sch, num_records := 0,
                             current_pg := none } :: d.db_tables,
              pager := d.pager }
            { addr := fresh_addr d, sch := t.sch, num_records := t.num_records,
              current_pg := none } =
            { db_tables := { addr := fresh_addr d, sch := t.sch,
                             num_records := t.num_records, current_pg := none } :: d.db_tables,
              pager := d.pager } :=
          store_cons_self
            { addr := fresh_addr d, sch := t.sch, num_records := 0, current_pg := none }
            _ _ _ rfl (fresh_addr_ne d)
        simp only []
        rw [hderef]
        simp only []
        rw [scan_int_print _ '\n' _ hnl]
        simp only []
        rw [hstore, skip_space_cons_space '\n' _ hnl, hrest]
        by_cases hnil : ts = []
        · subst hnil
          simp only [List.map_nil, List.flatten_nil, if_true]
          simp only [List.map_nil, List.flatten_nil, read_tables] at hd'
          cases fuel with
          | zero => simp [read_tables] at hd'
          | succ fuel =>
            simp only [read_tables, scan_str, skip_space, List.dropWhile, List.takeWhile,
              true_or, if_true] at hd'
            exact hd'
        · have : (ts.map save_tbl_desc).flatten ≠ [] := fun h =>
            hnil ((tables_text_nil_iff ts).mp h)
          simp only [this, if_false]
          exact hd'
      · rw [hview]
        simp [tbl_view]

theorem length_le_tables_text (ts : List tbl_desc_struct) :
    ts.length ≤ ((ts.map save_tbl_desc).flatten).length := by
  induction ts with
  | nil => simp
  | cons t ts ih =>
    have : 1 ≤ (save_tbl_desc t).length := by
      have := save_tbl_desc_ne_nil t
      cases h : save_tbl_desc t with
      | nil => exact absurd h this
      | cons c cs => simp
    simp only [List.map_cons, List.flatten_cons, List.length_append, List.length_cons]
    omega

/-! ### C18 – the catalog round trip -/

/-- C18: for a catalog whose table and field names are words free of
white space and shorter than 30 characters and whose schemas satisfy the
layout invariants (with integer fields of the length of an `int`), the
text `save_tbl_descs` writes is read by `read_tbl_descs`, starting from an
empty catalog, into a catalog that holds the same tables: each with the
identical schema (name, field list with names, types, lengths and
offsets in order, field count, record length) and the identical record
count.  The loaded catalog lists them in the reverse of the saved order,
`new_schema` putting each table read at the head. -/
theorem catalog_round_trip (k : consts) (d : db) (p0 : pager_state)
    (h : ∀ t ∈ d.db_tables, saved_ok k t) :
    ∃ d', read_tbl_descs k { db_tables := [], pager := p0 } (save_tbl_descs d) = some d' ∧
      d'.db_tables.map tbl_view = d.db_tables.reverse.map tbl_view ∧
      d'.db_tables.map (fun t => t.sch.name) =
        d.db_tables.reverse.map (fun t => t.sch.name) := by
  obtain ⟨d', h1, h2, _⟩ := read_tables_saved k d.db_tables { db_tables := [], pager := p0 }
    ((save_tbl_descs d).length + 1)
    (Nat.lt_succ_of_le (length_le_tables_text d.db_tables)) h
  refine ⟨d', h1, by simpa using h2, ?_⟩
  have h3 : d'.db_tables.map tbl_view = d.db_tables.reverse.map tbl_view := by simpa using h2
  have := congrArg (List.map (fun v : schema_struct × Int => v.1.name)) h3
  simpa [List.map_map, Function.comp, tbl_view] using this

/-- Witness for C18: the catalog with the tables `select__Person_0` and
`Person`. -/
theorem catalog_round_trip_witness :
    (∀ t ∈ two_tables.db_tables, saved_ok k0 t) ∧
    String.mk (save_tbl_descs two_tables) =
      "select__Person_0 2\nid 0 4 0\nname 1 20 4\n0\nPerson 2\nid 0 4 0\nname 1 20 4\n0\n" ∧
    ∃ d', read_tbl_descs k0 { db_tables := [], pager := { files := [] } }
        (save_tbl_descs two_tables) = some d' ∧
      d'.db_tables.map tbl_view = two_tables.db_tables.reverse.map tbl_view ∧
      d'.db_tables.map (fun t => t.sch.name) =
        two_tables.db_tables.reverse.map (fun t => t.sch.name) :=
  ⟨by decide, by decide, catalog_round_trip k0 two_tables { files := [] } (by decide)⟩

/-! ### Helper lemmas about the bytes of an `int` -/

theorem ediv_emod_256 (x M : Int) (hM : 0 < M) :
    x / (256 * M) = x / 256 / M ∧ x % (256 * M) = x % 256 + 256 * (x / 256 % M) := by
  have h1 := Int.emod_add_ediv x 256
  have h2 := Int.emod_add_ediv (x / 256) M
  have h3 := Int.emod_nonneg x (show (256 : Int) ≠ 0 by norm_num)
  have h4 := Int.emod_lt_of_pos x (show (0 : Int) < 256 by norm_num)
  have h5 := Int.emod_nonneg (x / 256) (ne_of_gt hM)
  have h6 := Int.emod_lt_of_pos (x / 256) hM
  refine (Int.ediv_emod_unique (a := x) (b := 256 * M)
    (r := x % 256 + 256 * (x / 256 % M)) (q := x / 256 / M) (by positivity)).mpr ⟨?_, ?_, ?_⟩
  · nlinarith
  · nlinarith
  · nlinarith

theorem int_to_bytes_succ (n : Nat) (x : Int) :
    int_to_bytes (n + 1) x = (x % 256).toNat :: int_to_bytes n (x / 256) := by
  unfold int_to_bytes
  rw [List.range_succ_eq_map]
  simp only [List.map_cons, List.map_map, pow_zero, Int.ediv_one]
  congr 1
  apply List.map_congr_left
  intro i _
  simp only [Function.comp]
  rw [pow_succ, mul_comm, (ediv_emod_256 x (256 ^ i) (by positivity)).1]

theorem length_int_to_bytes (n : Nat) (x : Int) : (int_to_bytes n x).length = n := by
  simp [int_to_bytes]

theorem unsigned_int_to_bytes (n : Nat) :
    ∀ x : Int, List.foldr (fun (b : Nat) (acc : Int) => (b : Int) + 256 * acc) 0
      (int_to_bytes n x) = x % (256 : Int) ^ n := by
  induction n with
  | zero => intro x; simp [int_to_bytes]
  | succ n ih =>
    intro x
    rw [int_to_bytes_succ]
    simp only [List.foldr_cons, ih]
    have hb : (((x % 256).toNat : Nat) : Int) = x % 256 :=
      Int.toNat_of_nonneg (Int.emod_nonneg _ (by norm_num))
    rw [hb, pow_succ, mul_comm ((256 : Int) ^ n), (ediv_emod_256 x (256 ^ n) (by positivity)).2]

theorem bytes_to_int_eq (bs : List Nat) :
    bytes_to_int bs =
      (if 2 * List.foldr (fun (b : Nat) (acc : Int) => (b : Int) + 256 * acc) 0 bs
          ≥ (256 : Int) ^ bs.length
       then List.foldr (fun (b : Nat) (acc : Int) => (b : Int) + 256 * acc) 0 bs
          - (256 : Int) ^ bs.length
       else List.foldr (fun (b : Nat) (acc : Int) => (b : Int) + 256 * acc) 0 bs) := by
  have h : ∀ l : List Nat, List.foldr (fun (b : Int) (acc : Int) => b + 256 * acc) 0
      (do let a ← l; pure (a : Int)) =
      List.foldr (fun (b : Nat) (acc : Int) => (b : Int) + 256 * acc) 0 l := by
    intro l
    induction l with
    | nil => rfl
    | cons a l ih =>
      simp only [List.foldr_cons, ← ih]
      rfl
  unfold bytes_to_int
  simp only [h]

theorem bytes_to_int_to_bytes (n : Nat) (x : Int)
    (h1 : -(256 : Int) ^ n ≤ 2 * x) (h2 : 2 * x < (256 : Int) ^ n) :
    bytes_to_int (int_to_bytes n x) = x := by
  rw [bytes_to_int_eq]
  simp only [unsigned_int_to_bytes, length_int_to_bytes]
  have hM : (0 : Int) < 256 ^ n := by positivity
  by_cases hx : 0 ≤ x
  · have : x % 256 ^ n = x := Int.emod_eq_of_lt hx (by linarith)
    rw [this]
    have : ¬ (2 * x ≥ 256 ^ n) := by linarith
    simp [this]
  · have hx' : x < 0 := by linarith
    have : x % 256 ^ n = x + 256 ^ n := by
      have := (Int.ediv_emod_unique (a := x) (b := 256 ^ n) (r := x + 256 ^ n) (q := -1)
        hM).mpr ⟨by ring, by linarith, by linarith⟩
      exact this.2
    rw [this]
    have : 2 * (x + 256 ^ n) ≥ 256 ^ n := by linarith
    simp [this]
/-! ### Helper lemmas about the bytes of a page -/

theorem page_bytes_eq (v : page_struct) (p : Int) (n : Nat) :
    page_bytes v p n = (List.range n).map (fun (i : Nat) => v.content (p + (i : Int))) := by
  have h : ∀ l : List Nat, (do let a ← l; pure (a : Int)) = l.map (fun (a : Nat) => (a : Int)) := by
    intro l
    induction l with
    | nil => rfl
    | cons a l ih => rw [List.map_cons, ← ih]; rfl
  unfold page_bytes
  rw [h, List.map_map]
  rfl

theorem page_bytes_add (v : page_struct) (p : Int) (m n : Nat) :
    page_bytes v p (m + n) = page_bytes v p m ++ page_bytes v (p + (m : Int)) n := by
  simp only [page_bytes_eq]
  rw [List.range_add, List.map_append, List.map_map]
  congr 1
  apply List.map_congr_left
  intro i _
  simp only [Function.comp, Nat.cast_add, add_assoc]

theorem page_bytes_congr (v w : page_struct) (p : Int) (n : Nat)
    (h : ∀ q, p ≤ q → q < p + (n : Int) → w.content q = v.content q) :
    page_bytes w p n = page_bytes v p n := by
  simp only [page_bytes_eq]
  apply List.map_congr_left
  intro i hi
  have hi' := List.mem_range.mp hi
  exact h _ (by omega) (by omega)

theorem getD_range (bs : List Nat) :
    (List.range bs.length).map (fun i => bs.getD i 0) = bs := by
  apply List.ext_getElem
  · simp
  · intro i h1 h2
    simp [List.getD_eq_getElem?_getD, List.getElem?_eq_getElem h2]

theorem page_bytes_store (v : page_struct) (p : Int) (bs : List Nat) :
    page_bytes (page_store v p bs) p bs.length = bs := by
  rw [page_bytes_eq]
  unfold page_store
  conv_rhs => rw [← getD_range bs]
  apply List.map_congr_left
  intro i hi
  have hi' := List.mem_range.mp hi
  have h : p ≤ p + (i : Int) ∧ p + (i : Int) < p + (bs.length : Int) := by omega
  simp only [h, and_self, if_true]
  congr 1
  omega

theorem page_store_below (v : page_struct) (p : Int) (bs : List Nat) (q : Int) (h : q < p) :
    (page_store v p bs).content q = v.content q := by
  unfold page_store
  have : ¬ (p ≤ q ∧ q < p + (bs.length : Int)) := by omega
  simp only [this, if_false]
theorem length_page_bytes (v : page_struct) (p : Int) (n : Nat) :
    (page_bytes v p n).length = n := by
  simp [page_bytes_eq]

theorem sum_len_cons (f : field_desc) (fs : List field_desc) :
    sum_len (f :: fs) = f.len + sum_len fs := by
  simp [sum_len]

/-- One write of the page manager at the end of the used part of a page. -/
theorem write_step (v : page_struct) (bytes : List Nat) (len : Int)
    (hlen : (bytes.length : Int) = len) (hv : v.current_pos = v.free_pos) :
    (page_advance (page_store v v.current_pos bytes) len).current_pos = v.current_pos + len ∧
    (page_advance (page_store v v.current_pos bytes) len).free_pos = v.current_pos + len ∧
    (∀ q, q < v.current_pos →
      (page_advance (page_store v v.current_pos bytes) len).content q = v.content q) ∧
    page_bytes (page_advance (page_store v v.current_pos bytes) len) v.current_pos
      len.toNat = bytes := by
  have hn : len.toNat = bytes.length := by omega
  refine ⟨rfl, ?_, ?_, ?_⟩
  · show max v.free_pos (v.current_pos + len) = v.current_pos + len
    rw [← hv]
    exact max_eq_right (by omega)
  · intro q hq
    exact page_store_below v _ bytes q hq
  · rw [hn]
    exact (page_bytes_congr (page_store v v.current_pos bytes) _ _ _ (fun _ _ _ => rfl)).trans
      (page_bytes_store v _ bytes)

theorem filled_len_nonneg (k : consts) (hI : 0 ≤ k.INT_SIZE) :
    ∀ (fds : List field_desc) (r : record), filled fds r = true →
      (∀ f ∈ fds, f.type = field_type.INT_TYPE → f.len = k.INT_SIZE) →
      0 ≤ sum_len fds := by
  intro fds
  induction fds with
  | nil => intro r _ _; simp [sum_len]
  | cons fd fds ih =>
    intro r hf hint
    cases r with
    | nil => simp [filled] at hf
    | cons b r =>
      simp only [filled, Bool.and_eq_true] at hf
      have h1 := ih r hf.2 (fun f hf' => hint f (List.mem_cons_of_mem _ hf'))
      rw [sum_len_cons]
      have : 0 ≤ fd.len := by
        cases b with
        | int_buf x =>
          have := hf.1
          simp only [buf_filled, is_int_field, decide_eq_true_eq] at this
          rw [hint fd (List.mem_cons_self _ _) this]; exact hI
        | str_buf bs =>
          have := hf.1
          simp only [buf_filled, Bool.and_eq_true, decide_eq_true_eq] at this
          omega
      omega

theorem length_rec_bytes (k : consts) (hI : 0 ≤ k.INT_SIZE) :
    ∀ (fds : List field_desc) (r : record), filled fds r = true →
      (∀ f ∈ fds, f.type = field_type.INT_TYPE → f.len = k.INT_SIZE) →
      ((rec_bytes k fds r).length : Int) = sum_len fds := by
  intro fds
  induction fds with
  | nil => intro r _ _; cases r <;> simp [rec_bytes, sum_len]
  | cons fd fds ih =>
    intro r hf hint
    cases r with
    | nil => simp [filled] at hf
    | cons b r =>
      simp only [filled, Bool.and_eq_true] at hf
      have h1 := ih r hf.2 (fun f hf' => hint f (List.mem_cons_of_mem _ hf'))
      rw [sum_len_cons]
      cases b with
      | int_buf x =>
        have := hf.1
        simp only [buf_filled, is_int_field, decide_eq_true_eq] at this
        have hl := hint fd (List.mem_cons_self _ _) this
        simp only [rec_bytes, List.length_append, length_int_to_bytes, Nat.cast_add]
        omega
      | str_buf bs =>
        have := hf.1
        simp only [buf_filled, Bool.and_eq_true, decide_eq_true_eq] at this
        simp only [rec_bytes, List.length_append, List.length_map, List.length_range,
          Nat.cast_add]
        omega

/-- The field loop of `put_page_record` at the end of the used part of a
page: it writes the bytes of the record there and moves both positions
behind them. -/
theorem put_fields_spec (k : consts) (hI : 0 ≤ k.INT_SIZE) :
    ∀ (fds : List field_desc) (r : record) (v : page_struct), filled fds r = true →
      (∀ f ∈ fds, f.type = field_type.INT_TYPE → f.len = k.INT_SIZE) →
      v.current_pos = v.free_pos →
      ∃ w, put_fields k fds r v = some w ∧
        w.current_pos = v.current_pos + sum_len fds ∧
        w.free_pos = v.current_pos + sum_len fds ∧
        (∀ q, q < v.current_pos → w.content q = v.content q) ∧
        page_bytes w v.current_pos (sum_len fds).toNat = rec_bytes k fds r := by
  intro fds
  induction fds with
  | nil =>
    intro r v hf _ hv
    cases r with
    | nil =>
      refine ⟨v, rfl, by simp [sum_len], by simp [sum_len, hv], fun _ _ => rfl, ?_⟩
      simp [sum_len, rec_bytes, page_bytes_eq]
    | cons b r => simp [filled] at hf
  | cons fd fds ih =>
    intro r v hf hint hv
    cases r with
    | nil => simp [filled] at hf
    | cons b r =>
      simp only [filled, Bool.and_eq_true] at hf
      have hint' : ∀ f ∈ fds, f.type = field_type.INT_TYPE → f.len = k.INT_SIZE :=
        fun f hf' => hint f (List.mem_cons_of_mem _ hf')
      have hsum := filled_len_nonneg k hI fds r hf.2 hint'
      -- the write of the first field
      have step : ∃ (bytes : List Nat),
          ((bytes.length : Int) = fd.len) ∧
          put_fields k (fd :: fds) (b :: r) v =
            put_fields k fds r (page_advance (page_store v v.current_pos bytes) fd.len) ∧
          rec_bytes k (fd :: fds) (b :: r) = bytes ++ rec_bytes k fds r := by
        cases b with
        | int_buf x =>
          have hb := hf.1
          simp only [buf_filled] at hb
          have hl : fd.len = k.INT_SIZE := by
            apply hint fd (List.mem_cons_self _ _)
            simpa [is_int_field] using hb
          refine ⟨int_to_bytes k.INT_SIZE.toNat x, ?_, ?_, ?_⟩
          · rw [length_int_to_bytes, hl]; omega
          · simp only [put_fields, hb, if_true, page_put_int, hl]
          · simp only [rec_bytes]
        | str_buf bs =>
          have hb := hf.1
          simp only [buf_filled, Bool.and_eq_true, decide_eq_true_eq, Bool.not_eq_true'] at hb
          refine ⟨(List.range fd.len.toNat).map (fun i => bs.getD i 0), ?_, ?_, ?_⟩
          · simp only [List.length_map, List.length_range]; omega
          · simp only [put_fields, hb.1.1, Bool.false_eq_true, if_false, page_put_str]
          · simp only [rec_bytes]
      obtain ⟨bytes, hbl, hput, hrec⟩ := step
      obtain ⟨h1, h2, h3, h4⟩ := write_step v bytes fd.len hbl hv
      obtain ⟨w, hw, hw1, hw2, hw3, hw4⟩ := ih r _ hf.2 hint' (h1.trans h2.symm)
      have hfd : 0 ≤ fd.len := by omega
      refine ⟨w, hput.trans hw, ?_, ?_, ?_, ?_⟩
      · rw [hw1, h1, sum_len_cons]; ring
      · rw [hw2, h1, sum_len_cons]; ring
      · intro q hq
        rw [hw3 q (by rw [h1]; omega), h3 q hq]
      · rw [sum_len_cons, hrec]
        have : (fd.len + sum_len fds).toNat = fd.len.toNat + (sum_len fds).toNat := by omega
        rw [this, page_bytes_add]
        congr 1
        · rw [← h4]
          apply page_bytes_congr
          intro q _ hq2
          apply hw3
          rw [h1]; omega
        · rw [← hw4, h1]
          congr 1
          omega

theorem kinded_of_filled : ∀ (fds : List field_desc) (r : record),
    filled fds r = true → kinded fds r = true := by
  intro fds
  induction fds with
  | nil => intro r h; cases r with
    | nil => rfl
    | cons b r => simp [filled] at h
  | cons fd fds ih =>
    intro r h
    cases r with
    | nil => simp [filled] at h
    | cons b r =>
      simp only [filled, Bool.and_eq_true] at h
      simp only [kinded, Bool.and_eq_true]
      refine ⟨?_, ih r h.2⟩
      cases b with
      | int_buf x => exact h.1
      | str_buf bs =>
        have := h.1
        simp only [buf_filled, Bool.and_eq_true] at this
        exact this.1.1

theorem kinded_new_record (s : schema_struct) : kinded s.fields (new_record s) = true := by
  unfold new_record
  induction s.fields with
  | nil => rfl
  | cons fd fds ih =>
    simp only [List.map_cons, kinded, Bool.and_eq_true]
    refine ⟨?_, ih⟩
    by_cases h : is_int_field (some fd) = true
    · simp [h, buf_kind]
    · simp [h, buf_kind]

/-- The field loop of `get_page_record` over the bytes of a record gives
the record back and moves the position behind it. -/
theorem get_fields_spec (k : consts) (hI : 0 ≤ k.INT_SIZE) :
    ∀ (fds : List field_desc) (r blank : record) (v : page_struct), filled fds r = true →
      ints_in_range k r →
      (∀ f ∈ fds, f.type = field_type.INT_TYPE → f.len = k.INT_SIZE) →
      kinded fds blank = true →
      page_bytes v v.current_pos (sum_len fds).toNat = rec_bytes k fds r →
      get_fields k fds blank v =
        some (r, { v with current_pos := v.current_pos + sum_len fds }) := by
  intro fds
  induction fds with
  | nil =>
    intro r blank v hf _ _ hk _
    cases r with
    | cons b r => simp [filled] at hf
    | nil =>
      cases blank with
      | cons c blank => simp [kinded] at hk
      | nil => simp [get_fields, sum_len]
  | cons fd fds ih =>
    intro r blank v hf hr hint hk hbytes
    cases r with
    | nil => simp [filled] at hf
    | cons b r =>
      cases blank with
      | nil => simp [kinded] at hk
      | cons c blank =>
        simp only [filled, Bool.and_eq_true] at hf
        simp only [kinded, Bool.and_eq_true] at hk
        have hint' : ∀ f ∈ fds, f.type = field_type.INT_TYPE → f.len = k.INT_SIZE :=
          fun f hf' => hint f (List.mem_cons_of_mem _ hf')
        have hr' : ints_in_range k r := fun b hb => hr b (List.mem_cons_of_mem _ hb)
        have hsum := filled_len_nonneg k hI fds r hf.2 hint'
        have hfd : 0 ≤ fd.len := by
          have := filled_len_nonneg k hI [fd] [b] (by simp [filled, hf.1])
            (fun f hf' => hint f (by simp at hf'; simp [hf']))
          simpa [sum_len] using this
        have hsplit : (fd.len + sum_len fds).toNat = fd.len.toNat + (sum_len fds).toNat := by
          omega
        rw [sum_len_cons, hsplit, page_bytes_add] at hbytes
        cases b with
        | int_buf x =>
          have hb := hf.1
          simp only [buf_filled] at hb
          have hl : fd.len = k.INT_SIZE := by
            apply hint fd (List.mem_cons_self _ _)
            simpa [is_int_field] using hb
          simp only [rec_bytes] at hbytes
          have happ := List.append_inj hbytes
            (by rw [length_page_bytes, length_int_to_bytes, hl])
          have hx : int_in_range k x := hr _ (List.mem_cons_self _ _)
          have hval : (page_get_int k v).1 = x := by
            show bytes_to_int (page_bytes v v.current_pos k.INT_SIZE.toNat) = x
            rw [← hl, happ.1]
            exact bytes_to_int_to_bytes _ x hx.1 hx.2
          have hc : ∃ y, c = field_buf.int_buf y := by
            cases c with
            | int_buf y => exact ⟨y, rfl⟩
            | str_buf bs => simp [buf_kind, hb] at hk
          obtain ⟨y, rfl⟩ := hc
          have hrest := ih r blank (page_get_int k v).2 hf.2 hr' hint' hk.2 (by
            show page_bytes _ (v.current_pos + k.INT_SIZE) _ = _
            rw [← happ.2]
            have : v.current_pos + (fd.len.toNat : Int) = v.current_pos + k.INT_SIZE := by
              omega
            rw [this]
            exact page_bytes_congr _ _ _ _ (fun _ _ _ => rfl))
          simp only [get_fields, hb, if_true, assign_int_field, hval, hrest, sum_len_cons]
          simp only [page_get_int, hl, add_assoc]
        | str_buf bs =>
          have hb := hf.1
          simp only [buf_filled, Bool.and_eq_true, decide_eq_true_eq, Bool.not_eq_true'] at hb
          simp only [rec_bytes] at hbytes
          have happ := List.append_inj hbytes (by simp [length_page_bytes])
          have hn : fd.len.toNat = bs.length := by omega
          have hval : (page_get_str v fd.len).1 = bs := by
            show page_bytes v v.current_pos fd.len.toNat = bs
            rw [happ.1, hn]
            exact getD_range bs
          have hc : ∃ y, c = field_buf.str_buf y := by
            cases c with
            | str_buf y => exact ⟨y, rfl⟩
            | int_buf y => simp [buf_kind, hb.1.1] at hk
          obtain ⟨y, rfl⟩ := hc
          have hrest := ih r blank (page_get_str v fd.len).2 hf.2 hr' hint' hk.2 (by
            show page_bytes _ (v.current_pos + fd.len) _ = _
            rw [← happ.2]
            have : v.current_pos + (fd.len.toNat : Int) = v.current_pos + fd.len := by
              omega
            rw [this]
            exact page_bytes_congr _ _ _ _ (fun _ _ _ => rfl))
          simp only [get_fields, hb.1.1, Bool.false_eq_true, if_false, hval, hrest,
            sum_len_cons]
          simp only [page_get_str, add_assoc]
/-! ### Helper lemmas about the files of the page manager -/

theorem file_blocks_set (pg : pager_state) (f : String) (bs : List page_struct) :
    file_blocks (set_file_blocks pg f bs) f = bs := by
  simp [file_blocks, set_file_blocks, List.lookup]

theorem page_at_nat (pg : pager_state) (f : String) (j : Nat) :
    page_at pg { fname := f, block_nr := (j : Int) } = (file_blocks pg f)[j]? := by
  have : ¬ ((j : Int) < 0) := by omega
  simp [page_at, this]

theorem file_blocks_set_page (pg : pager_state) (f : String) (j : Nat) (v : page_struct) :
    file_blocks (set_page pg { fname := f, block_nr := (j : Int) } v) f =
      (file_blocks pg f).set j v := by
  simp [set_page, file_blocks_set]

theorem get_page_old (k : consts) (pg : pager_state) (f : String) (j : Nat)
    (h : j < (file_blocks pg f).length) :
    get_page k pg f (j : Int) = (some { fname := f, block_nr := (j : Int) }, pg) := by
  have : ¬ ((j : Int) < 0) := by omega
  simp [get_page, this, h]

theorem get_page_new (k : consts) (pg : pager_state) (f : String) (j : Nat)
    (h : j = (file_blocks pg f).length) :
    get_page k pg f (j : Int) =
      (some { fname := f, block_nr := (j : Int) },
       set_file_blocks pg f (file_blocks pg f ++ [empty_page k])) := by
  have : ¬ ((j : Int) < 0) := by omega
  simp [get_page, this, h]

theorem set_length_append (l : List page_struct) (v w : page_struct)
    (l2 : List page_struct) : (l ++ v :: l2).set l.length w = l ++ w :: l2 := by
  induction l with
  | nil => rfl
  | cons a l ih => simp [List.set, ih]

theorem getElem?_length_append (l : List page_struct) (v : page_struct)
    (l2 : List page_struct) : (l ++ v :: l2)[l.length]? = some v := by
  induction l with
  | nil => simp
  | cons a l ih => simpa using ih

theorem fits_from_total (k : consts) : ∀ (fs : List field_desc) (acc : Int),
    fits_from k acc fs → fs ≠ [] → acc + sum_len fs ≤ k.BLOCK_SIZE - k.PAGE_HEADER_SIZE := by
  intro fs
  induction fs with
  | nil => intro _ _ h; exact absurd rfl h
  | cons g gs ih =>
    intro acc h _
    cases gs with
    | nil => simpa [sum_len] using h.1
    | cons g2 gs2 =>
      have := ih (acc + g.len) h.2 (by simp)
      rw [sum_len_cons]
      omega

theorem page_holds_nil (k : consts) (s : schema_struct) : page_holds k s (empty_page k) [] := by
  refine ⟨by simp [empty_page], ?_⟩
  intro i r h
  simp at h

/-- Function `put_page_record` at the end of the used part of a page that holds
`recs`: when one more record fits the block it is written behind them,
otherwise 0 is returned and nothing changes. -/
theorem put_page_record_end (k : consts) (d : db) (p : page_ref) (v : page_struct)
    (s : schema_struct) (recs : List record) (r : record)
    (hI : 0 ≤ k.INT_SIZE)
    (hint : ∀ f ∈ s.fields, f.type = field_type.INT_TYPE → f.len = k.INT_SIZE)
    (hsum : s.len = sum_len s.fields) (hpos : 0 < s.len)
    (hp : page_at d.pager p = some v) (hv : v.current_pos = v.free_pos)
    (hh : page_holds k s v recs) (hf : filled s.fields r = true) :
    (k.PAGE_HEADER_SIZE + s.len * ((recs.length : Int) + 1) ≤ k.BLOCK_SIZE →
      ∃ w, put_page_record k d p r s = some (1, { d with pager := set_page d.pager p w }) ∧
        page_holds k s w (recs ++ [r])) ∧
    (¬ (k.PAGE_HEADER_SIZE + s.len * ((recs.length : Int) + 1) ≤ k.BLOCK_SIZE) →
      put_page_record k d p r s = some (0, d)) := by
  have hcur : v.current_pos = k.PAGE_HEADER_SIZE + s.len * (recs.length : Int) :=
    hv.trans hh.1
  have hm : 0 ≤ s.len * (recs.length : Int) := mul_nonneg (le_of_lt hpos) (by omega)
  have hne : s.len ≠ 0 := ne_of_gt hpos
  have htmod : (v.current_pos - k.PAGE_HEADER_SIZE).tmod s.len = 0 := by
    rw [hcur, add_sub_cancel_left, Int.mul_tmod_right]
  constructor
  · intro hfit
    have hvalid : page_valid_pos_for_put k v v.current_pos s.len = true := by
      simp only [page_valid_pos_for_put, Bool.and_eq_true, decide_eq_true_eq]
      constructor
      · omega
      · rw [hcur]; linarith
    obtain ⟨w, hw, hw1, hw2, hw3, hw4⟩ := put_fields_spec k hI s.fields r v hf hint hv
    refine ⟨w, ?_, ?_, ?_⟩
    · simp only [put_page_record, hp, page_valid_pos_for_put_with_schema, hvalid, if_true,
        hne, if_false, htmod, decide_True, hw]
    · rw [hw2, ← hsum, hcur, List.length_append, List.length_singleton]
      push_cast; ring
    · intro i r' hi
      by_cases hlt : i < recs.length
      · rw [List.getElem?_append_left hlt] at hi
        rw [← hh.2 i r' hi]
        apply page_bytes_congr
        intro q _ hq2
        apply hw3
        rw [hcur]
        have : s.len * ((i : Int) + 1) ≤ s.len * (recs.length : Int) :=
          mul_le_mul_of_nonneg_left (by omega) (le_of_lt hpos)
        have h3 : ((s.len.toNat : Nat) : Int) = s.len := Int.toNat_of_nonneg (le_of_lt hpos)
        rw [h3] at hq2
        linarith
      · have hi2 : i = recs.length := by
          have := (List.getElem?_eq_some.mp hi).1
          simp only [List.length_append, List.length_singleton] at this
          omega
        subst hi2
        rw [List.getElem?_concat_length] at hi
        cases hi
        rw [← hcur, hsum]
        exact hw4
  · intro hfit
    have hvalid : page_valid_pos_for_put k v v.current_pos s.len = false := by
      simp only [page_valid_pos_for_put, Bool.and_eq_false_iff, decide_eq_false_iff_not]
      right
      rw [hcur]
      intro h
      apply hfit
      linarith
    simp only [put_page_record, hp, page_valid_pos_for_put_with_schema, hvalid,
      Bool.false_eq_true, if_false]

/-- Function `get_page_record` at slot `i` of a page that holds `recs` gives
record `i` and moves to slot `i + 1`. -/
theorem get_page_record_slot (k : consts) (d : db) (p : page_ref) (v : page_struct)
    (s : schema_struct) (recs : List record) (i : Nat) (r blank : record)
    (hI : 0 ≤ k.INT_SIZE)
    (hint : ∀ f ∈ s.fields, f.type = field_type.INT_TYPE → f.len = k.INT_SIZE)
    (hsum : s.len = sum_len s.fields) (hpos : 0 < s.len)
    (hp : page_at d.pager p = some v)
    (hcur : v.current_pos = k.PAGE_HEADER_SIZE + s.len * (i : Int))
    (hh : page_holds k s v recs) (hi : recs[i]? = some r)
    (hf : filled s.fields r = true) (hr : ints_in_range k r)
    (hk : kinded s.fields blank = true) :
    get_page_record k d (some p) blank s =
      some (1, r, { d with pager := (set_page d.pager p
        { v with current_pos := k.PAGE_HEADER_SIZE + s.len * ((i : Int) + 1) }) }) := by
  have hlt : i < recs.length := (List.getElem?_eq_some.mp hi).1
  have hm : 0 ≤ s.len * (i : Int) := mul_nonneg (le_of_lt hpos) (by omega)
  have hne : s.len ≠ 0 := ne_of_gt hpos
  have htmod : (v.current_pos - k.PAGE_HEADER_SIZE).tmod s.len = 0 := by
    rw [hcur, add_sub_cancel_left, Int.mul_tmod_right]
  have hvalid : page_valid_pos_for_get k v v.current_pos = true := by
    simp only [page_valid_pos_for_get, Bool.and_eq_true, decide_eq_true_eq]
    constructor
    · omega
    · rw [hcur, hh.1]
      have : s.len * (i : Int) < s.len * (recs.length : Int) :=
        mul_lt_mul_of_pos_left (by omega) hpos
      linarith
  have hget := get_fields_spec k hI s.fields r blank v hf hr hint hk (by
    rw [hcur, ← hsum]; exact hh.2 i r hi)
  have hnext : v.current_pos + s.len = k.PAGE_HEADER_SIZE + s.len * ((i : Int) + 1) := by
    rw [hcur]; ring
  simp only [get_page_record, hp, page_valid_pos_for_get_with_schema, hvalid, if_true, hne,
    if_false, htmod, decide_True, hget, ← hsum, hnext]

theorem forall₂_concat_left {α β : Type} {R : α → β → Prop} {L : List α} {b : α}
    {l₂ : List β} (h : List.Forall₂ R (L ++ [b]) l₂) :
    ∃ M c, l₂ = M ++ [c] ∧ List.Forall₂ R L M ∧ R b c := by
  have h1 := List.forall₂_reverse_iff.mpr h
  rw [List.reverse_append, List.reverse_singleton, List.singleton_append,
    List.forall₂_cons_left_iff] at h1
  obtain ⟨c, t, hbc, ht, hl⟩ := h1
  refine ⟨t.reverse, c, ?_, ?_, hbc⟩
  · have := congrArg List.reverse hl
    simpa using this
  · have := List.forall₂_reverse_iff.mpr ht
    simpa using this

/-- Function `get_page_for_append` on a file without blocks creates block 0. -/
theorem get_page_for_append_nil (k : consts) (pg : pager_state) (f : String)
    (h : file_blocks pg f = []) :
    ∃ pg1, get_page_for_append k pg f = (some { fname := f, block_nr := ((0 : Nat) : Int) }, pg1) ∧
      file_blocks pg1 f = [empty_page k] := by
  have h1 := get_page_new k pg f 0 (by simp [h])
  have h2 := page_at_nat (set_file_blocks pg f (file_blocks pg f ++ [empty_page k])) f 0
  rw [file_blocks_set, h] at h2
  simp only [List.nil_append, List.getElem?_cons_zero] at h2
  rw [h] at h1
  simp only [Nat.cast_zero, List.nil_append] at h1 h2
  refine ⟨set_page (set_file_blocks pg f [empty_page k]) { fname := f, block_nr := 0 }
    { empty_page k with current_pos := (empty_page k).free_pos }, ?_, ?_⟩
  · simp only [get_page_for_append, h, List.length_nil, if_true, h1, h2, Nat.cast_zero]
  · have := file_blocks_set_page (set_file_blocks pg f [empty_page k]) f 0
      { empty_page k with current_pos := (empty_page k).free_pos }
    simp only [Nat.cast_zero] at this
    rw [this, file_blocks_set]
    rfl

/-- Function `get_page_for_append` on a file with blocks gives the last one,
positioned at the end of its used part. -/
theorem get_page_for_append_concat (k : consts) (pg : pager_state) (f : String)
    (L : List page_struct) (v : page_struct) (h : file_blocks pg f = L ++ [v]) :
    ∃ pg1, get_page_for_append k pg f =
        (some { fname := f, block_nr := (L.length : Int) }, pg1) ∧
      file_blocks pg1 f = L ++ [{ v with current_pos := v.free_pos }] := by
  have h1 := get_page_old k pg f L.length (by simp [h])
  have h2 := page_at_nat pg f L.length
  rw [h, getElem?_length_append] at h2
  have hn : ((L ++ [v]).length = 0) = False := by simp
  have hb : (((L ++ [v]).length : Nat) : Int) - 1 = (L.length : Int) := by
    simp
  refine ⟨set_page pg { fname := f, block_nr := (L.length : Int) }
    { v with current_pos := v.free_pos }, ?_, ?_⟩
  · simp only [get_page_for_append, h, hn, if_false, hb, h1, h2]
  · rw [file_blocks_set_page, h, set_length_append]
theorem schema_ok_cap (k : consts) (s : schema_struct) (hs : schema_ok k s)
    (hpos : 0 < s.len) : s.len ≤ k.BLOCK_SIZE - k.PAGE_HEADER_SIZE := by
  have hsum := hs.1.2.1
  have hne : s.fields ≠ [] := by
    intro h
    rw [hsum, h] at hpos
    simp [sum_len] at hpos
  have := fits_from_total k s.fields 0 hs.2.1 hne
  rw [hsum]
  omega

/-- One `append_record` on a table whose file holds `chunks`: it returns,
the schema of the table is left alone, and the file holds the records of
`chunks` followed by the new record. -/
theorem append_record_step (k : consts) (d : db) (a : Nat) (tb : tbl_desc_struct)
    (chunks : List (List record)) (r : record)
    (hI : 0 ≤ k.INT_SIZE) (hs : schema_ok k tb.sch) (hpos : 0 < tb.sch.len)
    (hd : deref d a = some tb) (hfile : file_holds k tb.sch d.pager chunks)
    (hf : filled tb.sch.fields r = true) :
    ∃ d1 tb1 chunks1, append_record k d r a = some d1 ∧ deref d1 a = some tb1 ∧
      tb1.sch = tb.sch ∧ file_holds k tb.sch d1.pager chunks1 ∧
      chunks1.flatten = chunks.flatten ++ [r] := by
  have hsum := hs.1.2.1
  have hint := hs.2.2
  have hcap := schema_ok_cap k tb.sch hs hpos
  have haddr := addr_of_deref d a tb hd
  -- the page `get_page_for_append` gives
  have stage1 : ∃ (L : List page_struct) (v : page_struct) (c : List record)
      (cs0 : List (List record)) (pg1 : pager_state),
      get_page_for_append k d.pager tb.sch.name =
        (some { fname := tb.sch.name, block_nr := (L.length : Int) }, pg1) ∧
      file_blocks pg1 tb.sch.name = L ++ [v] ∧ v.current_pos = v.free_pos ∧
      page_holds k tb.sch v c ∧ List.Forall₂ (page_holds k tb.sch) L cs0 ∧
      (∀ c1 ∈ cs0, c1 ≠ []) ∧ chunks.flatten = cs0.flatten ++ c := by
    rcases List.eq_nil_or_concat (file_blocks d.pager tb.sch.name) with hnil | ⟨L, v, hL⟩
    · obtain ⟨pg1, h1, h2⟩ := get_page_for_append_nil k d.pager tb.sch.name hnil
      have hch : chunks = [] := by
        have := hfile.1
        rw [hnil] at this
        cases this
        rfl
      refine ⟨[], empty_page k, [], [], pg1, h1, by simpa using h2, rfl, page_holds_nil k _,
        List.Forall₂.nil, by simp, by simp [hch]⟩
    · rw [List.concat_eq_append] at hL
      obtain ⟨pg1, h1, h2⟩ := get_page_for_append_concat k d.pager tb.sch.name L v hL
      have h3 := hfile.1
      rw [hL] at h3
      obtain ⟨M, c, hM, hLM, hvc⟩ := forall₂_concat_left h3
      refine ⟨L, { v with current_pos := v.free_pos }, c, M, pg1, h1, h2, rfl, hvc, hLM, ?_, ?_⟩
      · intro c1 hc1
        exact hfile.2 c1 (by rw [hM]; simp [hc1])
      · rw [hM]; simp
  obtain ⟨L, v, c, cs0, pg1, hg, hfb, hv, hh, hL, hcs0, hflat⟩ := stage1
  have hpage : page_at ({ d with pager := pg1 } : db).pager
      { fname := tb.sch.name, block_nr := (L.length : Int) } = some v := by
    show page_at pg1 _ = some v
    rw [page_at_nat, hfb, getElem?_length_append]
  have hput := put_page_record_end k { d with pager := pg1 }
    { fname := tb.sch.name, block_nr := (L.length : Int) } v tb.sch c r hI hint hsum hpos
    hpage hv hh hf
  by_cases hfit : k.PAGE_HEADER_SIZE + tb.sch.len * ((c.length : Int) + 1) ≤ k.BLOCK_SIZE
  · obtain ⟨w, hw, hwh⟩ := hput.1 hfit
    refine ⟨store { d with pager := set_page pg1 ⟨tb.sch.name, (L.length : Int)⟩ w }
        { tb with current_pg := some ⟨tb.sch.name, (L.length : Int)⟩,
                  num_records := tb.num_records + 1 },
      { tb with current_pg := some ⟨tb.sch.name, (L.length : Int)⟩,
                num_records := tb.num_records + 1 }, cs0 ++ [c ++ [r]], ?_, ?_, rfl, ?_, ?_⟩
    · simp only [append_record, hd, hg, hw]
      rfl
    · exact deref_store _ a tb _ hd haddr
    · constructor
      · show List.Forall₂ _ (file_blocks (set_page pg1 _ w) _) _
        rw [file_blocks_set_page, hfb, set_length_append]
        exact List.rel_append hL (List.Forall₂.cons hwh List.Forall₂.nil)
      · intro c1 hc1
        rcases List.mem_append.mp hc1 with h | h
        · exact hcs0 c1 h
        · simp only [List.mem_singleton] at h
          rw [h]; simp
    · rw [hflat]; simp
  · have hw := hput.2 hfit
    have hcne : c ≠ [] := by
      intro hc
      apply hfit
      rw [hc]
      simp only [List.length_nil, Nat.cast_zero, zero_add, mul_one]
      omega
    have hnext := get_page_new k pg1 tb.sch.name (L.length + 1) (by simp [hfb])
    rw [hfb] at hnext
    have hpage2 : page_at (set_file_blocks pg1 tb.sch.name (L ++ [v] ++ [empty_page k]))
        ⟨tb.sch.name, ((L.length + 1 : Nat) : Int)⟩ = some (empty_page k) := by
      rw [page_at_nat, file_blocks_set]
      have := getElem?_length_append (L ++ [v]) (empty_page k) []
      simpa using this
    have hput2 := (put_page_record_end k
      { d with pager := (set_file_blocks pg1 tb.sch.name (L ++ [v] ++ [empty_page k])) }
      ⟨tb.sch.name, ((L.length + 1 : Nat) : Int)⟩ (empty_page k)
      tb.sch [] r hI hint hsum hpos hpage2 rfl (page_holds_nil k _) hf).1 (by
        simp only [List.length_nil, Nat.cast_zero, zero_add, mul_one]; omega)
    obtain ⟨w, hw2, hwh⟩ := hput2
    have hcast : ((L.length : Int) + 1) = ((L.length + 1 : Nat) : Int) := by push_cast; rfl
    refine ⟨store { d with pager := (set_page
            (set_file_blocks pg1 tb.sch.name (L ++ [v] ++ [empty_page k]))
            ⟨tb.sch.name, ((L.length + 1 : Nat) : Int)⟩ w) }
        { tb with current_pg := some ⟨tb.sch.name, ((L.length + 1 : Nat) : Int)⟩,
                  num_records := tb.num_records + 1 },
      { tb with current_pg := some ⟨tb.sch.name, ((L.length + 1 : Nat) : Int)⟩,
                num_records := tb.num_records + 1 }, cs0 ++ [c] ++ [[r]], ?_, ?_, rfl, ?_, ?_⟩
    · simp only [append_record, hd, hg, hw, get_next_page, hcast, hnext, hw2]
      rfl
    · exact deref_store _ a tb _ hd haddr
    · constructor
      · show List.Forall₂ _ (file_blocks (set_page (set_file_blocks pg1 _ _) _ w) _) _
        rw [file_blocks_set_page, file_blocks_set]
        have := set_length_append (L ++ [v]) (empty_page k) w []
        simp only [List.length_append, List.length_singleton] at this
        rw [List.append_assoc, List.singleton_append] at this ⊢
        rw [List.append_assoc] at this
        rw [this]
        have h2 : List.Forall₂ (page_holds k tb.sch) (L ++ [v, w]) (cs0 ++ [c, [r]]) :=
          List.rel_append hL (List.Forall₂.cons hh (List.Forall₂.cons hwh List.Forall₂.nil))
        simpa using h2
      · intro c1 hc1
        simp only [List.mem_append, List.mem_singleton] at hc1
        rcases hc1 with (h | h) | h
        · exact hcs0 c1 h
        · rw [h]; exact hcne
        · rw [h]; simp
    · rw [hflat]; simp

/-- A run of `append_record` calls on a table whose file holds `chunks`:
every call returns, and the file holds the records of `chunks` followed by
the appended ones. -/
theorem append_all_holds (k : consts) (a : Nat) (hI : 0 ≤ k.INT_SIZE) :
    ∀ (rs : List record) (d : db) (tb : tbl_desc_struct) (chunks : List (List record)),
      schema_ok k tb.sch → 0 < tb.sch.len → deref d a = some tb →
      file_holds k tb.sch d.pager chunks →
      (∀ r ∈ rs, filled tb.sch.fields r = true) →
      ∃ d1 tb1 chunks1, append_all k d rs a = some d1 ∧ deref d1 a = some tb1 ∧
        tb1.sch = tb.sch ∧ file_holds k tb.sch d1.pager chunks1 ∧
        chunks1.flatten = chunks.flatten ++ rs := by
  intro rs
  induction rs with
  | nil =>
    intro d tb chunks _ _ hd hfile _
    exact ⟨d, tb, chunks, rfl, hd, rfl, hfile, by simp⟩
  | cons r rs ih =>
    intro d tb chunks hs hpos hd hfile hrs
    obtain ⟨d1, tb1, chunks1, h1, h2, h3, h4, h5⟩ :=
      append_record_step k d a tb chunks r hI hs hpos hd hfile (hrs r (List.mem_cons_self _ _))
    obtain ⟨d2, tb2, chunks2, g1, g2, g3, g4, g5⟩ :=
      ih d1 tb1 chunks1 (h3 ▸ hs) (h3 ▸ hpos) h2 (h3 ▸ h4)
        (fun r' hr' => h3 ▸ hrs r' (List.mem_cons_of_mem _ hr'))
    refine ⟨d2, tb2, chunks2, ?_, g2, g3.trans h3, h3 ▸ g4, ?_⟩
    · simp only [append_all, h1, g1]
    · rw [g5, h5]; simp

theorem get_page_for_next_record_same (k : consts) (d : db) (a : Nat) (tb : tbl_desc_struct)
    (pg : page_ref) (v : page_struct) (hd : deref d a = some tb)
    (hc : tb.current_pg = some pg) (hp : page_at d.pager pg = some v)
    (he : eop k v = false) :
    get_page_for_next_record k d a = some (some pg, d) := by
  simp [get_page_for_next_record, hd, hc, hp, peof, he]

theorem get_page_for_next_record_end (k : consts) (d : db) (a : Nat) (tb : tbl_desc_struct)
    (pg : page_ref) (v : page_struct) (hd : deref d a = some tb)
    (hc : tb.current_pg = some pg) (hp : page_at d.pager pg = some v)
    (he : eop k v = true)
    (hl : pg.block_nr + 1 = ((file_blocks d.pager pg.fname).length : Int)) :
    get_page_for_next_record k d a = some (none, d) := by
  simp [get_page_for_next_record, hd, hc, hp, peof, he, hl]

theorem get_page_for_next_record_next (k : consts) (d : db) (a : Nat) (tb : tbl_desc_struct)
    (pg pg2 : page_ref) (v v2 : page_struct) (pgr : pager_state) (hd : deref d a = some tb)
    (hc : tb.current_pg = some pg) (hp : page_at d.pager pg = some v)
    (he : eop k v = true)
    (hl : pg.block_nr + 1 ≠ ((file_blocks d.pager pg.fname).length : Int))
    (hn : get_next_page k d.pager pg = (some pg2, pgr)) (hp2 : page_at pgr pg2 = some v2) :
    get_page_for_next_record k d a =
      some (some pg2, store { d with pager := set_page pgr pg2 (page_set_pos_begin k v2) }
        { tb with current_pg := some pg2 }) := by
  simp [get_page_for_next_record, hd, hc, hp, peof, he, hl, hn, hp2]

theorem page_holds_move (k : consts) (s : schema_struct) (v : page_struct)
    (c : List record) (pos : Int) (h : page_holds k s v c) :
    page_holds k s { v with current_pos := pos } c :=
  ⟨h.1, fun i r hi => (page_bytes_congr v _ _ _ (fun _ _ _ => rfl)).trans (h.2 i r hi)⟩
theorem getElem?_succ_length_append (l : List page_struct) (v w : page_struct)
    (l2 : List page_struct) : (l ++ v :: w :: l2)[l.length + 1]? = some w := by
  have := getElem?_length_append (l ++ [v]) w l2
  simpa using this

theorem set_succ_length_append (l : List page_struct) (v w x : page_struct)
    (l2 : List page_struct) :
    (l ++ v :: w :: l2).set (l.length + 1) x = (l ++ [v]) ++ x :: l2 := by
  simp

/-- The scan loop from slot `i` of a block on: it hands over the records
left in the block and those of the blocks behind it, in order, and then
`get_record` returns 0. -/
theorem display_loop_reads (k : consts) (s : schema_struct) (a : Nat)
    (hI : 0 ≤ k.INT_SIZE) (hs : schema_ok k s) (hpos : 0 < s.len) :
    ∀ (n : Nat) (cs : List (List record)) (after : List page_struct) (ch : List record)
      (v : page_struct) (before : List page_struct) (i : Nat) (d : db)
      (tb : tbl_desc_struct) (blank : record) (fuel : Nat),
      (ch.drop i ++ cs.flatten).length = n → n < fuel →
      deref d a = some tb → tb.sch = s →
      tb.current_pg = some { fname := s.name, block_nr := (before.length : Int) } →
      file_blocks d.pager s.name = before ++ v :: after →
      page_holds k s v ch → v.current_pos = k.PAGE_HEADER_SIZE + s.len * (i : Int) →
      i ≤ ch.length →
      List.Forall₂ (page_holds k s) after cs → (∀ c1 ∈ cs, c1 ≠ []) →
      (∀ r ∈ ch, filled s.fields r = true ∧ ints_in_range k r) →
      (∀ c1 ∈ cs, ∀ r ∈ c1, filled s.fields r = true ∧ ints_in_range k r) →
      kinded s.fields blank = true →
      ∃ d1, display_loop k fuel d blank a = some (ch.drop i ++ cs.flatten, d1) := by
  have hsum := hs.1.2.1
  have hint := hs.2.2
  intro n
  induction n with
  | zero =>
    intro cs after ch v before i d tb blank fuel hn hfuel hd hsch hcur hfile hh hv hi hafter
      hcs hc hcsr hk
    obtain ⟨fuel, rfl⟩ : ∃ f, fuel = f + 1 := ⟨fuel - 1, by omega⟩
    have hnil := List.length_eq_zero.mp hn
    have hdrop : ch.drop i = [] := (List.append_eq_nil.mp hnil).1
    have hflat : cs.flatten = [] := (List.append_eq_nil.mp hnil).2
    have hcs_nil : cs = [] := by
      cases cs with
      | nil => rfl
      | cons c1 cs1 =>
        have h1 := hcs c1 (List.mem_cons_self _ _)
        simp only [List.flatten_cons, List.append_eq_nil] at hflat
        exact absurd hflat.1 h1
    subst hcs_nil
    cases hafter
    have hic : i = ch.length := by
      have := List.drop_eq_nil_iff.mp hdrop
      omega
    have hp : page_at d.pager { fname := s.name, block_nr := (before.length : Int) } =
        some v := by
      rw [page_at_nat, hfile, getElem?_length_append]
    have he : eop k v = true := by
      simp only [eop, page_valid_pos_for_get, Bool.not_eq_true', Bool.and_eq_false_iff,
        decide_eq_false_iff_not]
      right
      rw [hv, hh.1, hic]
      omega
    have hgp := get_page_for_next_record_end k d a tb _ v hd hcur hp he (by
      show (before.length : Int) + 1 = ((file_blocks d.pager s.name).length : Int)
      rw [hfile]; simp)
    refine ⟨d, ?_⟩
    simp only [display_loop, get_record, hd, hgp, hdrop, hnil]
    simp
  | succ n ih =>
    intro cs after ch v before i d tb blank fuel hn hfuel hd hsch hcur hfile hh hv hi hafter
      hcs hc hcsr hk
    obtain ⟨fuel, rfl⟩ : ∃ f, fuel = f + 1 := ⟨fuel - 1, by omega⟩
    have hp : page_at d.pager { fname := s.name, block_nr := (before.length : Int) } =
        some v := by
      rw [page_at_nat, hfile, getElem?_length_append]
    by_cases hlt : i < ch.length
    · -- the next record is in the current block
      have hir : ch[i]? = some (ch[i]) := List.getElem?_eq_getElem hlt
      have hmem : ch[i] ∈ ch := List.getElem_mem hlt
      have he : eop k v = false := by
        simp only [eop, page_valid_pos_for_get, Bool.not_eq_false', Bool.and_eq_true,
          decide_eq_true_eq]
        have h1 : 0 ≤ s.len * (i : Int) := mul_nonneg (le_of_lt hpos) (by omega)
        have h2 : s.len * (i : Int) < s.len * (ch.length : Int) :=
          mul_lt_mul_of_pos_left (by omega) hpos
        rw [hv, hh.1]
        constructor <;> linarith
      have hgp := get_page_for_next_record_same k d a tb _ v hd hcur hp he
      have hrec := get_page_record_slot k d _ v s ch i (ch[i]) blank hI hint hsum hpos hp hv hh
        hir (hc _ hmem).1 (hc _ hmem).2 hk
      have hdrop : ch.drop i = ch[i] :: ch.drop (i + 1) := List.drop_eq_getElem_cons hlt
      obtain ⟨d1, hd1⟩ := ih cs after ch
        { v with current_pos := k.PAGE_HEADER_SIZE + s.len * ((i : Int) + 1) } before (i + 1)
        { d with pager := (set_page d.pager
            { fname := s.name, block_nr := (before.length : Int) }
            { v with current_pos := k.PAGE_HEADER_SIZE + s.len * ((i : Int) + 1) }) }
        tb (ch[i]) fuel
        (by rw [hdrop] at hn; simp only [List.cons_append, List.length_cons] at hn; omega)
        (by omega) hd hsch hcur
        (by
          show file_blocks (set_page d.pager _ _) s.name = _
          rw [file_blocks_set_page, hfile, set_length_append])
        (page_holds_move k s v ch _ hh) (by push_cast; rfl) hlt hafter hcs hc hcsr
        (kinded_of_filled _ _ (hc _ hmem).1)
      refine ⟨d1, ?_⟩
      rw [hdrop]
      simp only [display_loop, get_record, hd, hgp, hsch, hrec, hd1, List.cons_append, ne_eq,
        one_ne_zero, not_false_eq_true, if_true]
    · -- the current block is read: the next record is the first of the next block
      have hic : i = ch.length := by omega
      have hdrop : ch.drop i = [] := by rw [hic]; simp
      have he : eop k v = true := by
        simp only [eop, page_valid_pos_for_get, Bool.not_eq_true', Bool.and_eq_false_iff,
          decide_eq_false_iff_not]
        right
        rw [hv, hh.1, hic]
        omega
      cases hafter with
      | nil => rw [hdrop] at hn; simp at hn
      | @cons v2 c2 after2 cs2 hh2 hafter2 =>
        have hc2ne : c2 ≠ [] := hcs c2 (List.mem_cons_self _ _)
        obtain ⟨r0, c2t, rfl⟩ := List.exists_cons_of_ne_nil hc2ne
        have hr0 := hcsr _ (List.mem_cons_self _ _) r0 (List.mem_cons_self _ _)
        have hl : ({ fname := s.name, block_nr := (before.length : Int) } : page_ref).block_nr
            + 1 ≠ ((file_blocks d.pager s.name).length : Int) := by
          show (before.length : Int) + 1 ≠ _
          rw [hfile]
          simp only [List.length_append, List.length_cons]
          push_cast
          omega
        have hnext : get_next_page k d.pager
            { fname := s.name, block_nr := (before.length : Int) } =
            (some { fname := s.name, block_nr := ((before.length + 1 : Nat) : Int) },
              d.pager) := by
          have := get_page_old k d.pager s.name (before.length + 1) (by rw [hfile]; simp)
          rw [← this]
          simp only [get_next_page]
          push_cast
          rfl
        have hp2 : page_at d.pager
            { fname := s.name, block_nr := ((before.length + 1 : Nat) : Int) } = some v2 := by
          rw [page_at_nat, hfile, getElem?_succ_length_append]
        have hgp := get_page_for_next_record_next k d a tb _ _ v v2 d.pager hd hcur hp he hl
          hnext hp2
        have hfile2 : file_blocks (set_page d.pager
            { fname := s.name, block_nr := ((before.length + 1 : Nat) : Int) }
            (page_set_pos_begin k v2)) s.name =
            (before ++ [v]) ++ page_set_pos_begin k v2 :: after2 := by
          rw [file_blocks_set_page, hfile, set_succ_length_append]
        have hp3 : page_at (set_page d.pager
            { fname := s.name, block_nr := ((before.length + 1 : Nat) : Int) }
            (page_set_pos_begin k v2))
            { fname := s.name, block_nr := ((before.length + 1 : Nat) : Int) } =
            some (page_set_pos_begin k v2) := by
          rw [page_at_nat, hfile2]
          have := getElem?_length_append (before ++ [v]) (page_set_pos_begin k v2) after2
          simpa using this
        have haddr := addr_of_deref d a tb hd
        obtain ⟨dA, hdA⟩ : ∃ x : db, x = store { d with pager := (set_page d.pager
              { fname := s.name, block_nr := ((before.length + 1 : Nat) : Int) }
              (page_set_pos_begin k v2)) }
            { tb with current_pg := some ⟨s.name, ((before.length + 1 : Nat) : Int)⟩ } :=
          ⟨_, rfl⟩
        rw [← hdA] at hgp
        have hpgA : dA.pager = set_page d.pager
            { fname := s.name, block_nr := ((before.length + 1 : Nat) : Int) }
            (page_set_pos_begin k v2) := by rw [hdA]; rfl
        have hdrA : deref dA a =
            some { tb with current_pg := some ⟨s.name, ((before.length + 1 : Nat) : Int)⟩ } := by
          rw [hdA]; exact deref_store _ a tb _ hd haddr
        have hrec := get_page_record_slot k dA
          { fname := s.name, block_nr := ((before.length + 1 : Nat) : Int) }
          (page_set_pos_begin k v2) s (r0 :: c2t) 0 r0 blank hI hint hsum hpos
          (by rw [hpgA]; exact hp3)
          (by simp [page_set_pos_begin]) (page_holds_move k s v2 _ _ hh2) (by simp) hr0.1 hr0.2
          hk
        obtain ⟨d1, hd1⟩ := ih cs2 after2 (r0 :: c2t)
          { page_set_pos_begin k v2 with
            current_pos := k.PAGE_HEADER_SIZE + s.len * (((0 : Nat) : Int) + 1) }
          (before ++ [v]) 1
          { dA with pager := (set_page dA.pager
              { fname := s.name, block_nr := ((before.length + 1 : Nat) : Int) }
              { page_set_pos_begin k v2 with
                current_pos := k.PAGE_HEADER_SIZE + s.len * (((0 : Nat) : Int) + 1) }) }
          { tb with current_pg := some ⟨s.name, ((before.length + 1 : Nat) : Int)⟩ }
          r0 fuel
          (by
            rw [hdrop] at hn
            simp only [List.flatten_cons, List.nil_append, List.length_append,
              List.length_cons, List.drop_succ_cons, List.drop_zero] at hn ⊢
            omega)
          (by omega)
          hdrA hsch
          (by simp)
          (by
            show file_blocks (set_page dA.pager _ _) s.name = _
            rw [file_blocks_set_page, hpgA, hfile2]
            simp)
          (page_holds_move k s _ _ _ (page_holds_move k s v2 _ _ hh2)) (by push_cast; rfl)
          (by simp) hafter2
          (fun c1 h1 => hcs c1 (List.mem_cons_of_mem _ h1))
          (hcsr _ (List.mem_cons_self _ _))
          (fun c1 h1 => hcsr c1 (List.mem_cons_of_mem _ h1))
          (kinded_of_filled _ _ hr0.1)
        refine ⟨d1, ?_⟩
        rw [hdrop]
        simp only [display_loop, get_record, hd, hgp, hsch, hrec]
        simp only [List.drop_succ_cons, List.drop_zero] at hd1
        rw [hd1]
        simp only [List.nil_append, List.flatten_cons, List.cons_append, ne_eq,
          one_ne_zero, not_false_eq_true, if_true]

/-- Function `set_tbl_position(t, TBL_BEG)` on a table whose file holds `chunks`:
block 0 is the current page, positioned at its first slot. -/
theorem set_tbl_position_beg (k : consts) (d : db) (a : Nat) (tb : tbl_desc_struct)
    (chunks : List (List record)) (hd : deref d a = some tb)
    (hfile : file_holds k tb.sch d.pager chunks) :
    ∃ (d2 : db) (tb2 : tbl_desc_struct) (v : page_struct) (after : List page_struct)
      (ch : List record) (cs : List (List record)),
      set_tbl_position k d a tbl_position.TBL_BEG = some d2 ∧ deref d2 a = some tb2 ∧
      tb2.sch = tb.sch ∧
      tb2.current_pg = some { fname := tb.sch.name, block_nr := ((0 : Nat) : Int) } ∧
      file_blocks d2.pager tb.sch.name = v :: after ∧ page_holds k tb.sch v ch ∧
      v.current_pos = k.PAGE_HEADER_SIZE ∧ List.Forall₂ (page_holds k tb.sch) after cs ∧
      (∀ c1 ∈ cs, c1 ≠ []) ∧ ch ++ cs.flatten = chunks.flatten := by
  have haddr := addr_of_deref d a tb hd
  have hF := hfile.1
  cases hvs : file_blocks d.pager tb.sch.name with
  | nil =>
    rw [hvs] at hF
    cases hF
    have h1 := get_page_new k d.pager tb.sch.name 0 (by simp [hvs])
    rw [hvs] at h1
    simp only [Nat.cast_zero, List.nil_append] at h1
    have h2 : page_at (set_file_blocks d.pager tb.sch.name [empty_page k])
        { fname := tb.sch.name, block_nr := 0 } = some (empty_page k) := by
      have := page_at_nat (set_file_blocks d.pager tb.sch.name [empty_page k]) tb.sch.name 0
      rw [file_blocks_set] at this
      simpa using this
    refine ⟨store { d with pager := (set_page
          (set_file_blocks d.pager tb.sch.name [empty_page k])
          { fname := tb.sch.name, block_nr := 0 } (page_set_pos_begin k (empty_page k))) }
        { tb with current_pg := some ⟨tb.sch.name, 0⟩ },
      { tb with current_pg := some ⟨tb.sch.name, 0⟩ },
      page_set_pos_begin k (empty_page k), [], [], [], ?_, ?_, rfl, by simp, ?_,
      page_holds_move k _ _ _ _ (page_holds_nil k _), rfl, List.Forall₂.nil, by simp,
      by simp⟩
    · simp only [set_tbl_position, hd, h1, h2]
    · exact deref_store _ a tb _ hd haddr
    · show file_blocks (set_page _ _ _) _ = _
      have := file_blocks_set_page (set_file_blocks d.pager tb.sch.name [empty_page k])
        tb.sch.name 0 (page_set_pos_begin k (empty_page k))
      simp only [Nat.cast_zero] at this
      rw [this, file_blocks_set]
      rfl
  | cons v0 rest =>
    rw [hvs] at hF
    cases hF with
    | @cons _ c0 _ cs0 hh0 hrest =>
      have h1 := get_page_old k d.pager tb.sch.name 0 (by simp [hvs])
      have h2 := page_at_nat d.pager tb.sch.name 0
      rw [hvs] at h2
      simp only [Nat.cast_zero, List.getElem?_cons_zero] at h1 h2
      refine ⟨store { d with pager := (set_page d.pager
            { fname := tb.sch.name, block_nr := 0 } (page_set_pos_begin k v0)) }
          { tb with current_pg := some ⟨tb.sch.name, 0⟩ },
        { tb with current_pg := some ⟨tb.sch.name, 0⟩ },
        page_set_pos_begin k v0, rest, c0, cs0, ?_, ?_, rfl, by simp, ?_,
        page_holds_move k _ _ _ _ hh0, rfl, hrest,
        fun c1 h => hfile.2 c1 (List.mem_cons_of_mem _ h), by simp⟩
      · simp only [set_tbl_position, hd, h1, h2]
      · exact deref_store _ a tb _ hd haddr
      · show file_blocks (set_page _ _ _) _ = _
        have := file_blocks_set_page d.pager tb.sch.name 0 (page_set_pos_begin k v0)
        simp only [Nat.cast_zero] at this
        rw [this, hvs]
        rfl

/-! ### Appended records are read back in order, with line 587 repaired -/

/-- With the integer fields read by `page_get_int` (line 587 repaired): for a table of the catalog whose schema `s` has a positive record
length and the invariants of a built schema, whose file is empty, and for
every list `rs` of filled records of `s` holding `int` values: the
`append_record` calls for `rs` all return; `set_tbl_position(TBL_BEG)`
returns; and the loop that calls `get_record` until it returns 0 makes
exactly `rs.length` successful reads, whose records are those of `rs` in
order, each equal to the appended one for `equal_record`. -/
theorem append_scan_round_trip (k : consts) (d : db) (a : Nat) (tb : tbl_desc_struct)
    (rs : List record) (fuel : Nat)
    (hI : 0 ≤ k.INT_SIZE) (hd : deref d a = some tb) (hs : schema_ok k tb.sch)
    (hpos : 0 < tb.sch.len) (hempty : file_blocks d.pager tb.sch.name = [])
    (hrs : ∀ r ∈ rs, filled tb.sch.fields r = true ∧ ints_in_range k r)
    (hfuel : rs.length < fuel) :
    ∃ (d1 d2 d3 : db) (out : List record),
      append_all k d rs a = some d1 ∧
      set_tbl_position k d1 a tbl_position.TBL_BEG = some d2 ∧
      display_loop k fuel d2 (new_record tb.sch) a = some (out, d3) ∧
      out = rs ∧
      List.Forall₂ (fun x y => equal_record (some x) (some y) (some tb.sch) = some 1)
        out rs := by
  have hfile0 : file_holds k tb.sch d.pager [] := by
    constructor
    · rw [hempty]; exact List.Forall₂.nil
    · intro c1 h; simp at h
  obtain ⟨d1, tb1, chunks1, h1, h2, h3, h4, h5⟩ :=
    append_all_holds k a hI rs d tb [] hs hpos hd hfile0 (fun r hr => (hrs r hr).1)
  rw [← h3] at h4
  obtain ⟨d2, tb2, v, after, ch, cs, g1, g2, g3, g4, g5, g6, g7, g8, g9, g10⟩ :=
    set_tbl_position_beg k d1 a tb1 chunks1 h2 h4
  rw [h3] at g3 g4 g5 g6 g8
  have hall : ch ++ cs.flatten = rs := by rw [g10, h5]; simp
  obtain ⟨d3, hd3⟩ := display_loop_reads k tb.sch a hI hs hpos rs.length cs after ch v [] 0
    d2 tb2 (new_record tb.sch) fuel (by rw [List.drop_zero, hall]) hfuel g2 g3
    (by simpa using g4) (by simpa using g5) g6 (by simpa using g7) (by omega) g8 g9
    (fun r hr => hrs r (by rw [← hall]; exact List.mem_append_left _ hr))
    (fun c1 hc1 r hr => hrs r (by
      rw [← hall]
      exact List.mem_append_right _ (List.mem_flatten.mpr ⟨c1, hc1, hr⟩)))
    (kinded_new_record tb.sch)
  rw [List.drop_zero, hall] at hd3
  refine ⟨d1, d2, d3, rs, h1, g1, hd3, rfl, ?_⟩
  exact List.forall₂_same.mpr (fun r hr => equal_fields_refl tb.sch.fields r (hrs r hr).1)

/-- Example: with room for two records per page, three records
appended to the empty table `Person` fill block 0 and start block 1, and
the scan reads the three back. -/
theorem append_scan_round_trip_witness :
    (0 : Int) ≤ k1.INT_SIZE ∧ deref person_only 1 = some person_tbl ∧
    schema_ok k1 person_tbl.sch ∧ 0 < person_tbl.sch.len ∧
    file_blocks person_only.pager person_tbl.sch.name = [] ∧
    (∀ r ∈ [anna, bo_fresh, bo_over_anna],
      filled person_tbl.sch.fields r = true ∧ ints_in_range k1 r) ∧
    ∃ (d1 d2 d3 : db) (out : List record),
      append_all k1 person_only [anna, bo_fresh, bo_over_anna] 1 = some d1 ∧
      set_tbl_position k1 d1 1 tbl_position.TBL_BEG = some d2 ∧
      display_loop k1 4 d2 (new_record person_tbl.sch) 1 = some (out, d3) ∧
      out = [anna, bo_fresh, bo_over_anna] ∧
      List.Forall₂
        (fun x y => equal_record (some x) (some y) (some person_tbl.sch) = some 1)
        out [anna, bo_fresh, bo_over_anna] :=
  ⟨by decide, by decide, by decide, by decide, rfl, by decide,
    append_scan_round_trip k1 person_only 1 person_tbl [anna, bo_fresh, bo_over_anna] 4
      (by decide) (by decide) (by decide) (by decide) rfl (by decide) (by decide)⟩

/-! ### Function `remove_table` removes exactly one entry, the buffer of `concat_names` apart -/

theorem eraseP_addr_eq_filter (a : Nat) : ∀ (l : List tbl_desc_struct),
    (l.map (fun u => u.addr)).Nodup →
    l.eraseP (fun u => u.addr == a) = l.filter (fun u => decide (some u.addr ≠ some a)) := by
  intro l
  induction l with
  | nil => intro _; rfl
  | cons u rest ih =>
    intro hnd
    rw [List.map_cons, List.nodup_cons] at hnd
    by_cases hu : u.addr = a
    · have h1 : (u.addr == a) = true := by simp [hu]
      have h2 : decide (some u.addr ≠ some a) = false := by simp [hu]
      rw [List.eraseP_cons, List.filter_cons]
      simp only [h1, h2, cond_true, Bool.false_eq_true, if_false]
      symm
      rw [List.filter_eq_self]
      intro v hv
      have : v.addr ≠ a := by
        intro h
        apply hnd.1
        rw [hu, ← h]
        exact List.mem_map.mpr ⟨v, hv, rfl⟩
      simp [this]
    · have h1 : (u.addr == a) = false := by simp [hu]
      have h2 : decide (some u.addr ≠ some a) = true := by simp [hu]
      rw [List.eraseP_cons, List.filter_cons]
      simp only [h1, h2, cond_false, if_true, ih hnd.2]

theorem eq_of_addr_eq (l : List tbl_desc_struct) (hnd : (l.map (fun u => u.addr)).Nodup)
    (x y : tbl_desc_struct) (hx : x ∈ l) (hy : y ∈ l) (h : x.addr = y.addr) : x = y :=
  List.inj_on_of_nodup_map hnd hx hy h

/-- With a buffer of `concat_names` that holds the backup name: in a catalog whose descriptors are distinct nodes (no two have
the same address), `remove_table(t)` leaves the list of the descriptors
whose address is not `t`, in their order.  When no descriptor has the
address `t`, which includes the null pointer, the whole state is
unchanged.  When the descriptor `x` has it, the catalog `l1 ++ x :: l2`
becomes `l1 ++ l2` and the page file of `x` is retired.  Function
`remove_schema` does the same for the table of its schema. -/
theorem remove_table_exact (d : db) (t : tbl_p)
    (hnd : (d.db_tables.map (fun u => u.addr)).Nodup) :
    (remove_table d t).db_tables =
      d.db_tables.filter (fun u => decide (some u.addr ≠ t)) ∧
    ((∀ x ∈ d.db_tables, some x.addr ≠ t) → remove_table d t = d) ∧
    (∀ x ∈ d.db_tables, some x.addr = t →
      ∃ l1 l2, d.db_tables = l1 ++ x :: l2 ∧
        (remove_table d t).db_tables = l1 ++ l2 ∧
        (remove_table d t).pager = retire_file d.pager x.sch.name) ∧
    remove_schema d t = remove_table d t := by
  cases t with
  | none =>
    refine ⟨?_, fun _ => rfl, ?_, rfl⟩
    · simp [remove_table]
    · intro x _ hx; simp at hx
  | some a =>
    cases hdr : deref d a with
    | none =>
      have hno : ∀ x ∈ d.db_tables, x.addr ≠ a := by
        intro x hx
        unfold deref at hdr
        have := List.find?_eq_none.mp hdr x hx
        simpa using this
      refine ⟨?_, fun _ => by simp [remove_table, hdr], ?_, rfl⟩
      · simp only [remove_table, hdr]
        symm
        rw [List.filter_eq_self]
        intro x hx
        simp [hno x hx]
      · intro x hx h
        exact absurd (Option.some.inj h) (hno x hx)
    | some tb =>
      have htb_mem := mem_of_deref d a tb hdr
      have htb_addr := addr_of_deref d a tb hdr
      refine ⟨?_, ?_, ?_, rfl⟩
      · simp only [remove_table, hdr]
        exact eraseP_addr_eq_filter a d.db_tables hnd
      · intro h
        exact absurd (congrArg some htb_addr) (h tb htb_mem)
      · intro x hx h
        have hxa : x.addr = a := Option.some.inj h
        have hxtb : x = tb := eq_of_addr_eq d.db_tables hnd x tb hx htb_mem
          (hxa.trans htb_addr.symm)
        obtain ⟨y, l1, l2, _, hy, hsplit, herase⟩ :=
          List.exists_of_eraseP (p := fun u => u.addr == a) hx (by simp [hxa])
        have hya : y.addr = a := by simpa using hy
        have hy_mem : y ∈ d.db_tables := by rw [hsplit]; simp
        have hyx : y = x := eq_of_addr_eq d.db_tables hnd y x hy_mem hx (hya.trans hxa.symm)
        subst hyx
        refine ⟨l1, l2, hsplit, ?_, ?_⟩
        · simp only [remove_table, hdr]
          exact herase
        · simp only [remove_table, hdr, hxtb]

/-- Example: dropping `Person` from the catalog
`[select__Person_0, Person]`. -/
theorem remove_table_exact_witness :
    (two_tables.db_tables.map (fun u => u.addr)).Nodup ∧
    (remove_table two_tables (some 1)).db_tables =
      two_tables.db_tables.filter (fun u => decide (some u.addr ≠ some 1)) ∧
    ((∀ x ∈ two_tables.db_tables, some x.addr ≠ some 1) →
      remove_table two_tables (some 1) = two_tables) ∧
    (∀ x ∈ two_tables.db_tables, some x.addr = some 1 →
      ∃ l1 l2, two_tables.db_tables = l1 ++ x :: l2 ∧
        (remove_table two_tables (some 1)).db_tables = l1 ++ l2 ∧
        (remove_table two_tables (some 1)).pager =
          retire_file two_tables.pager x.sch.name) ∧
    remove_schema two_tables (some 1) = remove_table two_tables (some 1) :=
  ⟨by decide, remove_table_exact two_tables (some 1) (by decide)⟩

/-! ### C21 – the read-position check and a zero record length -/

/-- The read-position check divides by zero exactly at a position the page
manager accepts for reading when the record length is zero. -/
theorem page_valid_pos_for_get_with_schema_none_iff (k : consts) (v : page_struct)
    (s : schema_struct) :
    page_valid_pos_for_get_with_schema k v s = none ↔
      (page_valid_pos_for_get k v v.current_pos = true ∧ s.len = 0) := by
  unfold page_valid_pos_for_get_with_schema
  by_cases hv : page_valid_pos_for_get k v v.current_pos = true
  · by_cases hl : s.len = 0
    · simp [hv, hl]
    · simp [hv, hl]
  · simp [hv]

/-- For a record length other than zero the read-position check accepts
exactly when the page manager accepts the position for reading and the
position lies a whole number of records behind the page header. -/
theorem page_valid_pos_for_get_with_schema_accepts (k : consts) (v : page_struct)
    (s : schema_struct) (hl : s.len ≠ 0) :
    page_valid_pos_for_get_with_schema k v s =
      some (page_valid_pos_for_get k v v.current_pos &&
        decide (s.len ∣ v.current_pos - k.PAGE_HEADER_SIZE)) := by
  have hdvd : ((v.current_pos - k.PAGE_HEADER_SIZE).tmod s.len = 0) ↔
      s.len ∣ v.current_pos - k.PAGE_HEADER_SIZE :=
    ⟨Int.dvd_of_tmod_eq_zero, Int.tmod_eq_zero_of_dvd⟩
  unfold page_valid_pos_for_get_with_schema
  by_cases hv : page_valid_pos_for_get k v v.current_pos = true
  · simp [hv, hl, hdvd]
  · simp [hv]

/-- Function `get_page_record` on a non-null page hands back a record only when
the read-position check accepts; in every other case it does not return
and the caller's record is not written. -/
theorem get_page_record_decodes (k : consts) (d : db) (pg : page_ref) (r : record)
    (s : schema_struct) (v : page_struct) (hp : page_at d.pager pg = some v)
    (h : page_valid_pos_for_get_with_schema k v s ≠ some true) :
    get_page_record k d (some pg) r s = none := by
  unfold get_page_record
  simp only [hp]

/-- C21, evaluated on the code: a schema fresh from `new_schema` has
record length 0, and so has one whose only field was added as a string
field of length 0.  On a table without fields whose page file holds
records, the cursor position the page manager accepts for reading makes
the read-position check of `get_page_record` divide by zero (`none`), and
`get_record` does not return. -/
theorem get_page_record_zero_len_eval :
    (make_schema "T").len = 0 ∧
    (add_field k0 (some (make_schema "T")) (new_str_field "x" 0)).map
      (fun r => (r.1, r.2.map (fun s => s.len))) = some (1, some 0) ∧
    zero_len_scan = some (0, true, none, false) := by
  refine ⟨rfl, by decide, by decide⟩

/-! ### The sums of `add_field` in `int` -/

theorem int_wrap_of_in_range (k : consts) (x : Int) (h : int_in_range k x) :
    int_wrap k x = x := by
  unfold int_in_range at h
  unfold int_wrap
  cases hn : k.INT_SIZE.toNat with
  | zero =>
    rw [hn] at h
    simp only [pow_zero] at h ⊢
    have : x = 0 := by omega
    subst this
    decide
  | succ n =>
    rw [hn] at h
    have hm : (256 : Int) ^ (n + 1) = 2 * (128 * 256 ^ n) := by rw [pow_succ]; ring
    have hpos : (0 : Int) < 128 * 256 ^ n := by positivity
    rw [hm] at h ⊢
    have hhalf : (2 * (128 * (256 : Int) ^ n)) / 2 = 128 * 256 ^ n := by
      rw [Int.mul_ediv_cancel_left _ (by norm_num)]
    rw [hhalf, Int.emod_eq_of_lt (by linarith [h.1]) (by linarith [h.2])]
    ring

/-- Where the sums stay in the range of `int`, `add_field` in `int`
arithmetic is `add_field` with exact sums. -/
theorem add_field_int_of_in_range (k : consts) (s : schema_struct) (f : field_desc)
    (h1 : int_in_range k (s.len + f.len)) (h2 : int_in_range k (s.num_fields + 1)) :
    add_field_int k (some s) f = add_field k (some s) f := by
  simp only [add_field_int, add_field, int_wrap_of_in_range k _ h1,
    int_wrap_of_in_range k _ h2]

/-- Where the backup name fits the buffer of `concat_names`, `remove_table`
with the buffer is `remove_table`. -/
theorem remove_table_in_buf_of_fits (d : db) (t : tbl_p)
    (h : ∀ a tb, t = some a → deref d a = some tb →
      (cstr (concat_names "_" "_" tb.sch.name)).length + 1 ≤ concat_names_buf) :
    remove_table_in_buf d t = some (remove_table d t) := by
  cases t with
  | none => rfl
  | some a =>
    cases hd : deref d a with
    | none => simp [remove_table_in_buf, remove_table, hd]
    | some tb =>
      have := h a tb rfl hd
      simp [remove_table_in_buf, concat_names_in_buf, hd, this]

/-! ### C1 – a successful `add_field` -/

/-- C1, evaluated on the code: `Person{id}` has `len` 4, the sum of its
field lengths.  For the field `blob : string(2147483647)` the sum
`s->len + f->len` leaves the range of `int` and wraps to -2147483645, so
`add_field` succeeds, returning 2, and the schema it leaves has `len`
-2147483645, while the lengths of its two fields sum to 2147483651. -/
theorem add_field_int_overflow_len :
    person_id.len = sum_len person_id.fields ∧
    add_field_int k0 (some person_id) (new_str_field "blob" 2147483647) =
      some (2, some { person_id with
        fields := person_id.fields ++ [{ new_str_field "blob" 2147483647 with offset := 4 }],
        num_fields := 2, len := -2147483645 }) ∧
    sum_len (person_id.fields ++ [{ new_str_field "blob" 2147483647 with offset := 4 }]) =
      2147483651 ∧
    person_id.len + (new_str_field "blob" 2147483647).len = 2147483651 := by
  decide

/-! ### C2 – rejection by `add_field` -/

/-- C2, evaluated on the code: for `Person{id}` and the field
`blob : string(2147483647)`, `s.len + f.len + PAGE_HEADER_SIZE` is far above
`BLOCK_SIZE`, yet `add_field` does not return 0: the sum in its test wraps
to a negative `int`, the test does not fire, and the call returns 2 with
the field appended. -/
theorem add_field_int_overflow_accepts :
    person_id.len + (new_str_field "blob" 2147483647).len + k0.PAGE_HEADER_SIZE >
      k0.BLOCK_SIZE ∧
    int_wrap k0 (person_id.len + (new_str_field "blob" 2147483647).len) = -2147483645 ∧
    (add_field_int k0 (some person_id) (new_str_field "blob" 2147483647)).map
      (fun r => (r.1, r.2.map (fun s => s.fields.length))) = some (2, some 2) := by
  decide

/-! ### C3 – the packed-layout invariant -/

/-- C3, evaluated on the code: the schema obtained from `new_schema("T")`
by `add_field` of `id : int` and then of `blob : string(2147483647)` (both
accepted) has `len` -2147483645, which is not the sum 2147483651 of the
lengths of its fields. -/
theorem add_fields_int_overflow_layout :
    (deref (new_schema empty_db "T").2 (new_schema empty_db "T").1).map (fun tb => tb.sch) =
      some (make_schema "T") ∧
    (add_fields_int k0 (some (make_schema "T"))
        [new_int_field k0 "id", new_str_field "blob" 2147483647]).map
      (fun r => r.map (fun s => (s.fields.map (fun f => (f.name, f.len, f.offset)),
        s.num_fields, s.len, sum_len s.fields))) =
      some (some ([("id", 4, 0), ("blob", 2147483647, 4)], 2, -2147483645, 2147483651)) := by
  decide

/-! ### C12 – a requested name that is no field -/

/-- C12, evaluated on the code: `Organization` has no field `city`, so
`make_sub_schema` takes the path that calls `remove_schema` on the
temporary schema `project__Organization_0`.  There `remove_table` calls
`concat_names("_", "_", name)`, whose buffer has 25 bytes, with a result
that needs 26: `strcat` writes past the end of the buffer. -/
theorem make_sub_schema_missing_long_name :
    get_field org "city" = none ∧
    tmp_schema_name org_only "project" "Organization" = some "project__Organization_0" ∧
    (make_sub_schema k0 org_only (some org) ["city"]).map (fun r => r.1) = some none ∧
    concat_names_buf = 25 ∧
    (cstr (concat_names "_" "_" "project__Organization_0")).length + 1 = 26 ∧
    concat_names_in_buf "_" "_" "project__Organization_0" = none ∧
    remove_table_in_buf (new_schema org_only "project__Organization_0").2
      (some (new_schema org_only "project__Organization_0").1) = none := by
  refine ⟨by decide, by decide, by decide, by decide, by decide, by decide, by rfl⟩

/-! ### C17 – reading back what was appended -/

/-- C17, evaluated on the code: `Person` holds the one record
`(1, "Anna")`.  With the field loop of `get_page_record` as the source has
it (line 587 hands `field_desc_p(p)` to `assign_int_field` and reads no
`int` from the page), the first read gives a record whose `id` is the
word `field_desc_p(p)` yields and whose `name` buffer holds the four bytes
of the stored `id` followed by `Anna`; `equal_record` returns 0 for it and
the appended record; and the page is left at position 40, where the
read-position check of the next `get_record` fails (a fatal exit), not at
the end of the table. -/
theorem get_page_record_as_written_eval (page_word : Int) :
    anna_as_written page_word =
      some ([field_buf.int_buf page_word,
             field_buf.str_buf ([1, 0, 0, 0, 65, 110, 110, 97] ++ List.replicate 12 0)],
        40, some false) ∧
    equal_record
      (some [field_buf.int_buf page_word,
             field_buf.str_buf ([1, 0, 0, 0, 65, 110, 110, 97] ++ List.replicate 12 0)])
      (some anna) (some person) = some 0 := by
  refine ⟨rfl, ?_⟩
  by_cases h : page_word = 1
  · subst h; decide
  · simp [equal_record, equal_fields, person, anna, is_int_field, new_int_field, k0, h]

/-! ### C22 – `remove_table` and the buffer of `concat_names` -/

/-- C22, evaluated on the code: the catalog holds the table
`OrganizationMemberships`, a name of 23 characters.  `remove_table` on it
calls `concat_names("_", "_", name)`, whose buffer has 25 bytes, with a
result that needs 26: the call writes past the end of the buffer. -/
theorem remove_table_long_name :
    (deref memberships_only 1).map (fun tb => tb.sch.name) =
      some "OrganizationMemberships" ∧
    concat_names_buf = 25 ∧
    (cstr (concat_names "_" "_" "OrganizationMemberships")).length + 1 = 26 ∧
    concat_names_in_buf "_" "_" "OrganizationMemberships" = none ∧
    remove_table_in_buf memberships_only (some 1) = none := by
  refine ⟨by decide, by decide, by decide, by decide, by rfl⟩

end Schema2700
